import Mathlib

/-!
# Grid planners of `src/planning/a_star.cpp`

A shallow embedding of the two planner classes of `a_star.cpp`
(`DjikstraPlanner` and `AstarPlanner`) and proofs about them.

* `float` costs are modelled exactly, as numbers `a + b·√2` with integer `a`, `b`
  (`Cost`); every cost the planners compute from the motion table is of this form, and
  `Cost.lt` is the order of these real numbers (`cost_lt_iff`). Rounding is not modelled.
* `Node *` is `NodePtr`: either `NULL` or the address of a node `(x, y, cost, pre)`.
* The local `final` is declared without an initialiser and is assigned only in the `GOAL`
  branch; its content is `Option NodePtr`, `none` while it was not assigned. The call
  `calcPath(final, m)` after the loop is `calcPathFinal`: with `final = none` it is
  `Fault.uninitialised`, undefined behaviour of the program. The result of a planning call
  keeps the state at the end of the loop together with `final`, so that this read is
  stated where it matters (`enclosed_goal_reads_unassigned_final`).
* `vector<vector<T>>` is `List (List T)`; an index outside the vector is a `Fault`.
* `std::priority_queue` is a list of node pointers from which a node of least cost is
  taken (`pqPop_least`), the first one pushed among equals. The general theorems below use
  only that the node taken was in the queue and that the others stay.
* The loops run on a budget (`fuelFor`) that is never used up (`djikstra_fuel_suffices`,
  `astar_fuel_suffices`).
* What happens during a call is read off `headsWith`, the list of the states in which the
  `while` condition is tested; the loop run passes through each of them
  (`loopWith_of_head`).
* The header `a_star.h` is not part of the sources: `GlobalObstacleMap` and the cell
  codes are modelled from the specification.
-/

namespace RoboticsAlgorithms

/-! ## Costs -/

/-- A cost `a + b·√2`: the `float` values built from the motion costs `1.0` and `sqrt(2)`. -/
structure Cost where
  a : Int
  b : Int
deriving DecidableEq, Repr

namespace Cost

/-- The literal `0.0`. -/
def zero : Cost := ⟨0, 0⟩

/-- The literal `1.0`. -/
def one : Cost := ⟨1, 0⟩

/-- The value `sqrt(2)`. -/
def sqrt2 : Cost := ⟨0, 1⟩

/-- The literal `2147483647` with which `AstarPlanning` fills its `path_cost` (as a `float`
it rounds to `2^31`; the model keeps the literal). -/
def intMax : Cost := ⟨2147483647, 0⟩

/-- Addition `+` of two costs. -/
def add (c d : Cost) : Cost := ⟨c.a + d.a, c.b + d.b⟩

/-- Sign test: `isPos p q` iff `0 < p + q·√2`, decided on integers. -/
def isPos (p q : Int) : Bool :=
  if 0 ≤ p ∧ 0 ≤ q then decide (p ≠ 0 ∨ q ≠ 0)
  else if 0 ≤ p then decide (2 * (q * q) < p * p)
  else if 0 ≤ q then decide (p * p < 2 * (q * q))
  else false

/-- Comparison `c < d` of two costs. -/
def lt (c d : Cost) : Bool := isPos (d.a - c.a) (d.b - c.b)

/-- Comparison `c ≤ d` of two costs, that is `!(d < c)`. -/
def le (c d : Cost) : Bool := !(lt d c)

/-- The function `std::min(c, d)`, which is `(d < c) ? d : c`. -/
def min (c d : Cost) : Cost := if lt d c then d else c

end Cost

/-! ## Map, nodes, tables -/

/-- Modelled from the spec: the cell codes of `a_star.h`, the classification of a cell as
Free, Obstacle or Goal, and the two display annotations Robot-current and Path. -/
inductive Cell where
  | FREE
  | OBSTACLE
  | GOAL
  | ROBOT
  | PATH
deriving DecidableEq, Repr

/-- Modelled from the spec: the class `GlobalObstacleMap` of `a_star.h` (the Grid Query
Interface): grid extents, start and goal coordinates, the classification `checkCell` and
the A* `heuristic`. Annotation calls (`annoteCell`) are display-only and do not change
what `checkCell` answers. -/
structure GlobalObstacleMap where
  map_size_x : Nat
  map_size_y : Nat
  start_x : Int
  start_y : Int
  goal_x : Int
  goal_y : Int
  checkCell : Int → Int → Cell
  heuristic : Int → Int → Cost

/-- A value of type `Node *`: `NULL`, or a pointer to a `Node` with fields
`x`, `y`, `cost` and `pre`. -/
inductive NodePtr where
  | null : NodePtr
  | mk (x y : Int) (cost : Cost) (pre : NodePtr) : NodePtr
deriving DecidableEq, Repr

namespace NodePtr

/-- Field access `p->x`. -/
def x : NodePtr → Int
  | null => 0
  | mk x _ _ _ => x

/-- Field access `p->y`. -/
def y : NodePtr → Int
  | null => 0
  | mk _ y _ _ => y

/-- Field access `p->cost`. -/
def cost : NodePtr → Cost
  | null => Cost.zero
  | mk _ _ c _ => c

/-- Field access `p->pre`. -/
def pre : NodePtr → NodePtr
  | null => null
  | mk _ _ _ p => p

end NodePtr

/-- An entry `Node(dx, dy, cost)` of the vector `motions`. -/
structure Motion where
  x : Int
  y : Int
  cost : Cost
deriving DecidableEq, Repr

/-- The member `motions`, the same initialiser in `DjikstraPlanner` and `AstarPlanner`. -/
def motions : List Motion :=
  [⟨1, 0, Cost.one⟩, ⟨0, 1, Cost.one⟩, ⟨0, -1, Cost.one⟩, ⟨-1, 0, Cost.one⟩,
   ⟨1, 1, Cost.sqrt2⟩, ⟨1, -1, Cost.sqrt2⟩, ⟨-1, -1, Cost.sqrt2⟩, ⟨-1, 1, Cost.sqrt2⟩]

/-- What stops a run of the model short of a result: an index outside a vector
(`outOfBounds`), the budget of the loop used up (`outOfFuel`), and a read of the local
`final` while it holds no value (`uninitialised`). The first and the last are undefined
behaviour of the C++ program. -/
inductive Fault where
  | outOfBounds
  | outOfFuel
  | uninitialised
deriving DecidableEq, Repr

/-- Read `t[x][y]` of a `vector<vector<T>>`; `none` when an index is outside the vector. -/
def tableGet {α : Type} (t : List (List α)) (x y : Int) : Option α :=
  if x < 0 ∨ y < 0 then none
  else
    match t.get? x.toNat with
    | none => none
    | some row => row.get? y.toNat

/-- Write `t[x][y] = v`; `none` when an index is outside the vector. -/
def tableSet {α : Type} (t : List (List α)) (x y : Int) (v : α) : Option (List (List α)) :=
  if x < 0 ∨ y < 0 then none
  else
    match t.get? x.toNat with
    | none => none
    | some row =>
      if y.toNat < row.length then some (t.set x.toNat (row.set y.toNat v)) else none

/-- The call `nodes.push(n)`. -/
def pqPush (q : List NodePtr) (n : NodePtr) : List NodePtr := q ++ [n]

/-- The calls `nodes.top()` and `nodes.pop()` under the comparator
`a->cost > b->cost`: a node of least cost is taken out; `none` on the empty queue. Which
of several nodes of equal least cost `std::priority_queue` yields is not fixed by the
source; the model takes the first such node pushed. -/
def pqPop : List NodePtr → Option (NodePtr × List NodePtr)
  | [] => none
  | n :: rest =>
    match pqPop rest with
    | none => some (n, [])
    | some (m, rest') =>
      if Cost.lt m.cost n.cost then some (m, n :: rest') else some (n, rest)

/-- The local and member variables of a planning call while its loop runs. -/
structure SearchState where
  /-- the member `traversed` (Djikstra) or `close_list` (A*) -/
  visited : List (List Int)
  /-- the member `path_cost` -/
  path_cost : List (List Cost)
  /-- the local `nodes` (Djikstra) or `open` (A*) -/
  nodes : List NodePtr
  /-- the local `final`; `none` while it has not been assigned -/
  final : Option NodePtr
  /-- the local `ending_flag` -/
  ending_flag : Bool
  /-- the calls `annoteCell(x, y, ROBOT)` made so far, in order -/
  annotated : List (Int × Int)
deriving DecidableEq, Repr

/-- The loop of `calcPath`: the coordinates annotated `PATH`, in the order visited. -/
def calcPath : NodePtr → List (Int × Int)
  | NodePtr.null => []
  | NodePtr.mk x y _ pre => (x, y) :: calcPath pre

/-- What a planning call leaves behind. -/
structure PlanResult where
  /-- the member `traversed` / `close_list` after the call -/
  visited : List (List Int)
  /-- the member `path_cost` after the call -/
  path_cost : List (List Cost)
  /-- the local `ending_flag` at the end of the loop -/
  ending_flag : Bool
  /-- the local `final`; `none` when it was never assigned: it is declared without an
  initialiser (`Node *start, *final;`, `Node *final;`) and holds no value then -/
  final : Option NodePtr
  /-- the cells annotated by `calcPath(final, m)`; `none` when `final` was never assigned,
  where the call reads a pointer without a value and annotates no determined cells
  (`calcPathFinal`) -/
  path : Option (List (Int × Int))
  /-- the calls `annoteCell(x, y, ROBOT)` made by the loop -/
  annotated : List (Int × Int)
  /-- the queue when the loop ended -/
  nodes : List NodePtr
deriving DecidableEq, Repr

/-- Number of zero entries of a visited table. -/
def unvisited (t : List (List Int)) : Nat :=
  (t.map (fun row => row.count 0)).sum

/-- Loop budget of the model for a state: every iteration pops one node, and only an
iteration that marks a fresh cell pushes nodes, at most 8 of them. -/
def fuelFor (st : SearchState) : Nat :=
  9 * unvisited st.visited + st.nodes.length + 1

/-- The statement `calcPath(final, m);` that both planning methods execute after the loop,
whether or not the loop assigned `final`. With `final` assigned it annotates the cells of
the chain; with `final` never assigned the argument is a pointer without a value, and the
call is undefined behaviour: `Fault.uninitialised`. -/
def calcPathFinal (final : Option NodePtr) : Except Fault (List (Int × Int)) :=
  match final with
  | some f => Except.ok (calcPath f)
  | none => Except.error Fault.uninitialised

/-- Package the state at the end of the loop, with the call `calcPath(final, m)`. The
field `path` is `none` exactly where that call is `Fault.uninitialised`
(`calcPathFinal_eq_error`): a result with `path = none` records the state the loop left
behind, not a completed call of the C++ method. -/
def finish (st : SearchState) : PlanResult :=
  { visited := st.visited, path_cost := st.path_cost, ending_flag := st.ending_flag,
    final := st.final, path := st.final.map calcPath, annotated := st.annotated,
    nodes := st.nodes }

/-! ## DjikstraPlanner -/

/-- The members of a `DjikstraPlanner` object. -/
structure DjikstraPlanner where
  path_cost : List (List Cost)
  traversed : List (List Int)
deriving DecidableEq, Repr

namespace DjikstraPlanner

/-- The method `DjikstraPlanner::calcPath`. -/
def calcPath (fin : NodePtr) : List (Int × Int) := RoboticsAlgorithms.calcPath fin

/-- The `for (auto motion : motions)` loop of `DjikstraPlanning` for the node `current`. -/
def expand (m : GlobalObstacleMap) (current : NodePtr) :
    List Motion → SearchState → Except Fault SearchState
  | [], st => Except.ok st
  | motion :: rest, st =>
    let next_x := current.x + motion.x
    let next_y := current.y + motion.y
    match tableGet st.path_cost current.x current.y with
    | none => Except.error Fault.outOfBounds
    | some current_path_cost =>
      if m.checkCell next_x next_y = Cell.GOAL then
        Except.ok { st with final := some (NodePtr.mk next_x next_y Cost.zero current),
                            ending_flag := true }
      else
        match tableGet st.visited next_x next_y with
        | none => Except.error Fault.outOfBounds
        | some t =>
          if t ≠ 0 ∨ m.checkCell next_x next_y = Cell.OBSTACLE then expand m current rest st
          else
            let next_cost := Cost.add current_path_cost motion.cost
            let next := NodePtr.mk next_x next_y next_cost current
            match tableSet st.path_cost next_x next_y
                (Cost.add current_path_cost motion.cost) with
            | none => Except.error Fault.outOfBounds
            | some pc =>
              expand m current rest { st with path_cost := pc, nodes := pqPush st.nodes next }

/-- The `while (!nodes.empty())` loop of `DjikstraPlanning`. -/
def loop (m : GlobalObstacleMap) : Nat → SearchState → Except Fault SearchState
  | 0, _ => Except.error Fault.outOfFuel
  | fuel + 1, st =>
    match pqPop st.nodes with
    | none => Except.ok st
    | some (current, rest) =>
      match tableGet st.visited current.x current.y with
      | none => Except.error Fault.outOfBounds
      | some t =>
        if t ≠ 0 then loop m fuel { st with nodes := rest }
        else
          match tableSet st.visited current.x current.y 1 with
          | none => Except.error Fault.outOfBounds
          | some tr =>
            match expand m current motions
                { st with nodes := rest, visited := tr,
                          annotated := st.annotated ++ [(current.x, current.y)] } with
            | Except.error e => Except.error e
            | Except.ok st1 => if st1.ending_flag then Except.ok st1 else loop m fuel st1

/-- The state of `DjikstraPlanning` when its loop is entered. -/
def init (m : GlobalObstacleMap) : Except Fault SearchState :=
  let traversed := List.replicate m.map_size_x (List.replicate m.map_size_y (0 : Int))
  let path_cost := List.replicate m.map_size_x (List.replicate m.map_size_y Cost.zero)
  let start := NodePtr.mk m.start_x m.start_y Cost.zero NodePtr.null
  match tableSet path_cost m.start_x m.start_y Cost.zero with
  | none => Except.error Fault.outOfBounds
  | some pc =>
    Except.ok { visited := traversed, path_cost := pc, nodes := pqPush [] start,
                final := none, ending_flag := false, annotated := [] }

/-- The method `DjikstraPlanner::DjikstraPlanning`, called on the planner object `self`:
the result of the call and the planner object afterwards. A result whose `final` is `none`
is the state in which the statement `calcPath(final, m)` is reached; that statement is
`calcPathFinal` and is undefined behaviour there. -/
def DjikstraPlanning (_self : DjikstraPlanner) (m : GlobalObstacleMap) :
    Except Fault (PlanResult × DjikstraPlanner) :=
  match init m with
  | Except.error e => Except.error e
  | Except.ok st0 =>
    match loop m (fuelFor st0) st0 with
    | Except.error e => Except.error e
    | Except.ok st =>
      Except.ok (finish st, { path_cost := st.path_cost, traversed := st.visited })

end DjikstraPlanner

/-! ## AstarPlanner -/

/-- The members of an `AstarPlanner` object. -/
structure AstarPlanner where
  close_list : List (List Int)
  path_cost : List (List Cost)
deriving DecidableEq, Repr

namespace AstarPlanner

/-- The method `AstarPlanner::calcPath`. -/
def calcPath (fin : NodePtr) : List (Int × Int) := RoboticsAlgorithms.calcPath fin

/-- The `for (auto motion : motions)` loop of `AstarPlanning` for the node `current`. -/
def expand (om : GlobalObstacleMap) (current : NodePtr) :
    List Motion → SearchState → Except Fault SearchState
  | [], st => Except.ok st
  | motion :: rest, st =>
    let next_x := current.x + motion.x
    let next_y := current.y + motion.y
    match tableGet st.path_cost current.x current.y with
    | none => Except.error Fault.outOfBounds
    | some current_path_cost =>
      if om.checkCell next_x next_y = Cell.GOAL then
        Except.ok { st with final := some (NodePtr.mk next_x next_y Cost.zero current),
                            ending_flag := true }
      else
        match tableGet st.visited next_x next_y with
        | none => Except.error Fault.outOfBounds
        | some t =>
          if t ≠ 0 ∨ om.checkCell next_x next_y = Cell.OBSTACLE then
            expand om current rest st
          else
            let next_cost :=
              Cost.add (Cost.add current_path_cost (om.heuristic next_x next_y)) motion.cost
            let next := NodePtr.mk next_x next_y next_cost current
            match tableGet st.path_cost next_x next_y with
            | none => Except.error Fault.outOfBounds
            | some old =>
              match tableSet st.path_cost next_x next_y
                  (Cost.min old (Cost.add current_path_cost motion.cost)) with
              | none => Except.error Fault.outOfBounds
              | some pc =>
                expand om current rest
                  { st with path_cost := pc, nodes := pqPush st.nodes next }

/-- The `while (!open.empty())` loop of `AstarPlanning`. -/
def loop (om : GlobalObstacleMap) : Nat → SearchState → Except Fault SearchState
  | 0, _ => Except.error Fault.outOfFuel
  | fuel + 1, st =>
    match pqPop st.nodes with
    | none => Except.ok st
    | some (current, rest) =>
      match tableGet st.visited current.x current.y with
      | none => Except.error Fault.outOfBounds
      | some t =>
        if t ≠ 0 then loop om fuel { st with nodes := rest }
        else
          match tableSet st.visited current.x current.y 1 with
          | none => Except.error Fault.outOfBounds
          | some cl =>
            match expand om current motions
                { st with nodes := rest, visited := cl,
                          annotated := st.annotated ++ [(current.x, current.y)] } with
            | Except.error e => Except.error e
            | Except.ok st1 => if st1.ending_flag then Except.ok st1 else loop om fuel st1

/-- The state of `AstarPlanning` when its loop is entered: the rows pushed onto the
members `close_list` and `path_cost` of `self`, the start node and its cost entry. -/
def init (self : AstarPlanner) (om : GlobalObstacleMap) : Except Fault SearchState :=
  let close_list :=
    self.close_list ++ List.replicate om.map_size_x (List.replicate om.map_size_y (0 : Int))
  let path_cost :=
    self.path_cost ++ List.replicate om.map_size_x (List.replicate om.map_size_y Cost.intMax)
  let start := NodePtr.mk om.start_x om.start_y Cost.zero NodePtr.null
  match tableSet path_cost om.start_x om.start_y Cost.zero with
  | none => Except.error Fault.outOfBounds
  | some pc =>
    Except.ok { visited := close_list, path_cost := pc, nodes := pqPush [] start,
                final := none, ending_flag := false, annotated := [] }

/-- The method `AstarPlanner::AstarPlanning`, called on the planner object `self`:
the result of the call and the planner object afterwards. A result whose `final` is `none`
is the state in which the statement `calcPath(final, om)` is reached; that statement is
`calcPathFinal` and is undefined behaviour there. -/
def AstarPlanning (self : AstarPlanner) (om : GlobalObstacleMap) :
    Except Fault (PlanResult × AstarPlanner) :=
  match init self om with
  | Except.error e => Except.error e
  | Except.ok st0 =>
    match loop om (fuelFor st0) st0 with
    | Except.error e => Except.error e
    | Except.ok st =>
      Except.ok (finish st, { close_list := st.visited, path_cost := st.path_cost })

/-- A newly constructed `AstarPlanner`: both member tables are empty vectors. -/
def fresh : AstarPlanner := { close_list := [], path_cost := [] }

end AstarPlanner

/-- A newly constructed `DjikstraPlanner`: both member tables are empty vectors. -/
def DjikstraPlanner.fresh : DjikstraPlanner := { path_cost := [], traversed := [] }

end RoboticsAlgorithms

/-! ## Auxiliary definitions for the proofs -/

namespace RoboticsAlgorithms

/-- Row lengths of a table. -/
def dims {α : Type} (t : List (List α)) : List Nat := t.map List.length

/-- the index pair lies inside a table with the given row lengths -/
def inDims (d : List Nat) (x y : Int) : Prop :=
  0 ≤ x ∧ 0 ≤ y ∧ ∃ h, d.get? x.toNat = some h ∧ y.toNat < h

/-- the node `n` was created by the motion loop for `current`: it sits one motion away from
`current`, points back to it, and its cell is neither Goal nor Obstacle and was unvisited
and inside the tables. -/
def IsChild (m : GlobalObstacleMap) (current : NodePtr) (vis : List (List Int))
    (pc : List Nat) (n : NodePtr) : Prop :=
  ∃ mo ∈ motions, ∃ c, n = NodePtr.mk (current.x + mo.x) (current.y + mo.y) c current ∧
    m.checkCell (current.x + mo.x) (current.y + mo.y) ≠ Cell.GOAL ∧
    m.checkCell (current.x + mo.x) (current.y + mo.y) ≠ Cell.OBSTACLE ∧
    tableGet vis (current.x + mo.x) (current.y + mo.y) = some 0 ∧
    inDims pc (current.x + mo.x) (current.y + mo.y)

/-- the node `f` is a terminal node created for `current`. -/
def IsTerminal (m : GlobalObstacleMap) (current : NodePtr) (f : NodePtr) : Prop :=
  ∃ mo ∈ motions, f = NodePtr.mk (current.x + mo.x) (current.y + mo.y) Cost.zero current ∧
    m.checkCell (current.x + mo.x) (current.y + mo.y) = Cell.GOAL

/-- The motion `mo` out of the cell `(x, y)` needs no further attention: the neighbour is not the
Goal, and it is an Obstacle, or already visited, or has a node in the frontier. -/
def Covered (m : GlobalObstacleMap) (x y : Int) (vis : List (List Int))
    (nodes : List NodePtr) (mo : Motion) : Prop :=
  m.checkCell (x + mo.x) (y + mo.y) ≠ Cell.GOAL ∧
  (m.checkCell (x + mo.x) (y + mo.y) = Cell.OBSTACLE ∨
   (∃ t, tableGet vis (x + mo.x) (y + mo.y) = some t ∧ t ≠ 0) ∨
   ∃ n ∈ nodes, n.x = x + mo.x ∧ n.y = y + mo.y)

/-- What one run of the motion loop over the motions `ms` does to the state. -/
structure ExpandRel (m : GlobalObstacleMap) (current : NodePtr) (ms : List Motion)
    (st st1 : SearchState) : Prop where
  visited_eq : st1.visited = st.visited
  annotated_eq : st1.annotated = st.annotated
  dims_eq : dims st1.path_cost = dims st.path_cost
  pushed : ∃ l, st1.nodes = st.nodes ++ l ∧ l.length ≤ ms.length ∧
    ∀ n ∈ l, IsChild m current st.visited (dims st.path_cost) n
  final : (st1.ending_flag = st.ending_flag ∧ st1.final = st.final ∧
      ∀ mo ∈ ms, Covered m current.x current.y st.visited st1.nodes mo) ∨
    (st1.ending_flag = true ∧ ∃ f, st1.final = some f ∧ IsTerminal m current f)

/-- The `while` loop of both planners, over the motion loop `exp` of the planner. -/
def loopWith (exp : NodePtr → SearchState → Except Fault SearchState) :
    Nat → SearchState → Except Fault SearchState
  | 0, _ => Except.error Fault.outOfFuel
  | fuel + 1, st =>
    match pqPop st.nodes with
    | none => Except.ok st
    | some (current, rest) =>
      match tableGet st.visited current.x current.y with
      | none => Except.error Fault.outOfBounds
      | some t =>
        if t ≠ 0 then loopWith exp fuel { st with nodes := rest }
        else
          match tableSet st.visited current.x current.y 1 with
          | none => Except.error Fault.outOfBounds
          | some tr =>
            match exp current
                { st with nodes := rest, visited := tr,
                          annotated := st.annotated ++ [(current.x, current.y)] } with
            | Except.error e => Except.error e
            | Except.ok st1 =>
              if st1.ending_flag then Except.ok st1 else loopWith exp fuel st1

/-- The state in which the motion loop is entered for the popped node `cur`. -/
def enter (st : SearchState) (cur : NodePtr) (rest : List NodePtr) (tr : List (List Int)) :
    SearchState :=
  { st with nodes := rest, visited := tr,
            annotated := st.annotated ++ [(cur.x, cur.y)] }

/-- The path a planning call reconstructs when it finds the goal: the cells walked by
`calcPath` from the terminal node, goal first; `none` when the call faults or ends with
`ending_flag` false. -/
def foundPath {α : Type} (res : Except Fault (PlanResult × α)) : Option (List (Int × Int)) :=
  match res with
  | Except.ok (r, _) => if r.ending_flag then r.path else none
  | Except.error _ => none

/-- The node `n` heads a well-formed predecessor chain: every node lies inside the cost
table with row lengths `d`; the node without predecessor is at the start coordinates;
every other node is one motion away from its predecessor, on a cell that is neither
Obstacle nor Goal. -/
def ChainOK (m : GlobalObstacleMap) (d : List Nat) : NodePtr → Prop
  | NodePtr.null => False
  | NodePtr.mk x y _ pre =>
    inDims d x y ∧
    ((pre = NodePtr.null ∧ x = m.start_x ∧ y = m.start_y) ∨
     (ChainOK m d pre ∧ (∃ mo ∈ motions, x = pre.x + mo.x ∧ y = pre.y + mo.y) ∧
        m.checkCell x y ≠ Cell.OBSTACLE ∧ m.checkCell x y ≠ Cell.GOAL))

/-- Invariant of the search loop on the frontier and the terminal node. -/
structure Inv (m : GlobalObstacleMap) (d : List Nat) (st : SearchState) : Prop where
  dims_pc : dims st.path_cost = d
  nodes_ok : ∀ n ∈ st.nodes, ChainOK m d n
  final_ok : st.ending_flag = true →
    ∃ f cur, st.final = some f ∧ IsTerminal m cur f ∧ ChainOK m d cur

/-- What is known of a reconstructed path `p`: it is the chain of a terminal node created
for a node `cur` with a well-formed chain. -/
def FoundSpec (m : GlobalObstacleMap) (d : List Nat) (p : List (Int × Int)) : Prop :=
  ∃ f cur, IsTerminal m cur f ∧ ChainOK m d cur ∧ p = calcPath f

/-- The 8 offsets `(dx, dy)` of the motion table. -/
def offsets : List (Int × Int) := motions.map (fun mo => (mo.x, mo.y))

/-- The coordinates `a` and `b` differ by one offset of the motion table: `a = b + (dx, dy)`. -/
def IsMotion (a b : Int × Int) : Prop := (a.1 - b.1, a.2 - b.2) ∈ offsets

instance (a b : Int × Int) : Decidable (IsMotion a b) :=
  inferInstanceAs (Decidable ((a.1 - b.1, a.2 - b.2) ∈ offsets))

/-- the cells `(x, 0)`, `(x, H-1)`, `(0, y)`, `(W-1, y)` of the border of a `W × H` grid,
listed the way `main` lists its obstacles -/
def border (W H : Nat) : List (Int × Int) :=
  (List.range H).map (fun i : Nat => ((0 : Int), Int.ofNat i)) ++
  (List.range W).map (fun i : Nat => (Int.ofNat i, (0 : Int))) ++
  (List.range W).map (fun i : Nat => (Int.ofNat i, Int.ofNat H - 1)) ++
  (List.range H).map (fun i : Nat => (Int.ofNat W - 1, Int.ofNat i))

/-- Modelled from the spec: the constructor `GlobalObstacleMap(size_x, size_y, start_x,
start_y, goal_x, goal_y, obstacles, ...)` of `a_star.h`: the goal cell classifies as Goal,
a listed obstacle cell as Obstacle, every other cell as Free. -/
def mkMap (W H : Nat) (sx sy gx gy : Int) (obstacles : List (Int × Int))
    (h : Int → Int → Cost) : GlobalObstacleMap :=
  { map_size_x := W, map_size_y := H, start_x := sx, start_y := sy,
    goal_x := gx, goal_y := gy,
    checkCell := fun x y =>
      if x = gx ∧ y = gy then Cell.GOAL
      else if (x, y) ∈ obstacles then Cell.OBSTACLE
      else Cell.FREE,
    heuristic := h }

/-- A 7 × 7 grid whose border is Obstacle and whose 5 × 5 interior is free,
start `(1, 1)`, goal `(5, 5)`. -/
def openMap : GlobalObstacleMap := mkMap 7 7 1 1 5 5 (border 7 7) (fun _ _ => Cost.zero)

/-- The cost of the motion with offset `(dx, dy)`, read from the motion table. -/
def motionCost (dx dy : Int) : Cost :=
  match motions.find? (fun mo => mo.x = dx ∧ mo.y = dy) with
  | some mo => mo.cost
  | none => Cost.zero

/-- Total cost of a path: the sum of the motion costs of its steps. -/
def pathCost : List (Int × Int) → Cost
  | a :: b :: rest => Cost.add (motionCost (a.1 - b.1) (a.2 - b.2)) (pathCost (b :: rest))
  | _ => Cost.zero

/-- A 5 × 5 grid with Obstacle border whose start cell `(1, 1)` is listed as an Obstacle;
goal `(3, 3)`. -/
def obstacleStartMap : GlobalObstacleMap :=
  mkMap 5 5 1 1 3 3 (border 5 5 ++ [(1, 1)]) (fun _ _ => Cost.zero)

/-- A 5 × 5 grid with Obstacle border and free 3 × 3 interior whose start cell is its goal
cell `(2, 2)`. -/
def startGoalMap : GlobalObstacleMap := mkMap 5 5 2 2 2 2 (border 5 5) (fun _ _ => Cost.zero)

/-- Two calls of `AstarPlanning` in succession on one planner object with the same map:
the outcome of the second call. -/
def AstarPlanner.secondCall (self : AstarPlanner) (om : GlobalObstacleMap) :
    Except Fault (PlanResult × AstarPlanner) :=
  match AstarPlanner.AstarPlanning self om with
  | Except.error e => Except.error e
  | Except.ok (_, self1) => AstarPlanner.AstarPlanning self1 om

/-- Two calls of `DjikstraPlanning` in succession on one planner object with the same map:
the outcome of the second call. -/
def DjikstraPlanner.secondCall (self : DjikstraPlanner) (m : GlobalObstacleMap) :
    Except Fault (PlanResult × DjikstraPlanner) :=
  match DjikstraPlanner.DjikstraPlanning self m with
  | Except.error e => Except.error e
  | Except.ok (_, self1) => DjikstraPlanner.DjikstraPlanning self1 m

/-- The outcome of a call without the planner object: the ending flag and the path. -/
def outcome {α : Type} (res : Except Fault (PlanResult × α)) :
    Option (Bool × Option (List (Int × Int))) :=
  match res with
  | Except.ok (r, _) => some (r.ending_flag, r.path)
  | Except.error _ => none

/-- Loop invariant for the start cell: either the loop has not run yet (the frontier holds
just the start node, the start is unvisited, nothing is annotated), or the start cell is
marked Visited and was the first cell annotated. -/
def StartInv (m : GlobalObstacleMap) (st : SearchState) : Prop :=
  (st.nodes = [NodePtr.mk m.start_x m.start_y Cost.zero NodePtr.null] ∧ st.annotated = [] ∧
    tableGet st.visited m.start_x m.start_y = some 0) ∨
  (tableGet st.visited m.start_x m.start_y = some 1 ∧
    st.annotated.head? = some (m.start_x, m.start_y))

/-- The cells a completed call expanded (annotated `ROBOT`), in order. -/
def expandedCells {α : Type} (res : Except Fault (PlanResult × α)) :
    Option (List (Int × Int)) :=
  match res with
  | Except.ok (r, _) => some r.annotated
  | Except.error _ => none

/-- The entry of the Visited table at `(x, y)` after a completed call. -/
def visitedAt {α : Type} (res : Except Fault (PlanResult × α)) (x y : Int) : Option Int :=
  match res with
  | Except.ok (r, _) => tableGet r.visited x y
  | Except.error _ => none

/-- Every border cell of the grid (`x = 0`, `x = W-1`, `y = 0` or `y = H-1`) classifies as
Obstacle. -/
def Bordered (m : GlobalObstacleMap) : Prop :=
  ∀ x y : Int, 0 ≤ x → x < m.map_size_x → 0 ≤ y → y < m.map_size_y →
    (x = 0 ∨ x = m.map_size_x - 1 ∨ y = 0 ∨ y = m.map_size_y - 1) →
    m.checkCell x y = Cell.OBSTACLE

/-- The start is a cell of the grid and is not an Obstacle. -/
def StartOK (m : GlobalObstacleMap) : Prop :=
  0 ≤ m.start_x ∧ m.start_x < m.map_size_x ∧ 0 ≤ m.start_y ∧ m.start_y < m.map_size_y ∧
  m.checkCell m.start_x m.start_y ≠ Cell.OBSTACLE

/-- Row lengths of the tables of a call on a `W × H` grid. -/
def gridDims (m : GlobalObstacleMap) : List Nat := List.replicate m.map_size_x m.map_size_y

/-- The visited cells are closed: the start is visited or in the frontier, and every motion
out of a visited cell is covered. -/
structure Closed (m : GlobalObstacleMap) (st : SearchState) : Prop where
  start_seen : (∃ t, tableGet st.visited m.start_x m.start_y = some t ∧ t ≠ 0) ∨
    ∃ n ∈ st.nodes, n.x = m.start_x ∧ n.y = m.start_y
  covered : ∀ x y t, tableGet st.visited x y = some t → t ≠ 0 →
    ∀ mo ∈ motions, Covered m x y st.visited st.nodes mo

/-- Invariant of the search loop on a bordered grid while the goal has not been found. -/
structure RunInv (m : GlobalObstacleMap) (st : SearchState) : Prop where
  inv : Inv m (gridDims m) st
  dims_vis : dims st.visited = gridDims m
  flag : st.ending_flag = false
  final : st.final = none
  closed : Closed m st

/-- State of the search when its loop ends on a bordered grid: the goal was found, or the
frontier is exhausted with no terminal node and the visited cells closed. -/
def RunPost (m : GlobalObstacleMap) (st : SearchState) : Prop :=
  Inv m (gridDims m) st ∧
  (st.ending_flag = true ∨
   (st.nodes = [] ∧ st.ending_flag = false ∧ st.final = none ∧ Closed m st))

/-- An obstacle-free 8-connected path from the cell `src` to the goal, listed goal first
the way `calcPath` walks it: it begins at a Goal cell, ends at `src`, every step is a
motion, and no cell is an Obstacle. -/
def ObstacleFreePathFrom (m : GlobalObstacleMap) (src : Int × Int)
    (q : List (Int × Int)) : Prop :=
  (∃ g, q.head? = some g ∧ m.checkCell g.1 g.2 = Cell.GOAL) ∧
  q.getLast? = some src ∧
  List.Chain' IsMotion q ∧
  ∀ c ∈ q, m.checkCell c.1 c.2 ≠ Cell.OBSTACLE

/-- Decision procedure for "every step of the list is a motion". -/
def decideMotionChain : (l : List (Int × Int)) → Decidable (List.Chain' IsMotion l)
  | [] => isTrue List.chain'_nil
  | [a] => isTrue (List.chain'_singleton a)
  | a :: b :: tl =>
    match decideMotionChain (b :: tl) with
    | isTrue h =>
      if hab : IsMotion a b then isTrue (List.Chain'.cons hab h)
      else isFalse (fun hc => hab (List.chain'_cons.1 hc).1)
    | isFalse h => isFalse (fun hc => h (List.chain'_cons.1 hc).2)

instance (m : GlobalObstacleMap) (src : Int × Int) (q : List (Int × Int)) :
    Decidable (ObstacleFreePathFrom m src q) :=
  match q with
  | [] => isFalse (fun h => by
      obtain ⟨⟨g, hg, _⟩, _⟩ := h
      simp at hg)
  | g :: tl =>
    haveI := decideMotionChain (g :: tl)
    decidable_of_iff
      (m.checkCell g.1 g.2 = Cell.GOAL ∧ (g :: tl).getLast? = some src ∧
        List.Chain' IsMotion (g :: tl) ∧
        ∀ c ∈ g :: tl, m.checkCell c.1 c.2 ≠ Cell.OBSTACLE)
      (by unfold ObstacleFreePathFrom; simp)

/-- An obstacle-free 8-connected path from the start to the goal. -/
def ObstacleFreePath (m : GlobalObstacleMap) (q : List (Int × Int)) : Prop :=
  ObstacleFreePathFrom m (m.start_x, m.start_y) q

instance (m : GlobalObstacleMap) (q : List (Int × Int)) : Decidable (ObstacleFreePath m q) :=
  inferInstanceAs (Decidable (ObstacleFreePathFrom m (m.start_x, m.start_y) q))

/-- The goal can be reached from the start through cells that are not Obstacle, using
the 8 motions. -/
def Reachable (m : GlobalObstacleMap) : Prop := ∃ q, ObstacleFreePath m q

/-- Octile distance from `(x, y)` to `(gx, gy)`: `max - min` straight steps and `min`
diagonal steps. -/
def octile (gx gy x y : Int) : Cost :=
  let dx := (x - gx).natAbs
  let dy := (y - gy).natAbs
  ⟨((max dx dy : Nat) : Int) - ((min dx dy : Nat) : Int), ((min dx dy : Nat) : Int)⟩

/-- The heuristic of the map is non-negative. -/
def HeuristicNonNegative (m : GlobalObstacleMap) : Prop :=
  ∀ x y, Cost.le Cost.zero (m.heuristic x y) = true

/-- The heuristic of the map is consistent: it is 0 on Goal cells and obeys the triangle
inequality across every motion. -/
def HeuristicConsistent (m : GlobalObstacleMap) : Prop :=
  (∀ x y, m.checkCell x y = Cell.GOAL → m.heuristic x y = Cost.zero) ∧
  ∀ x y, ∀ mo ∈ motions,
    Cost.le (m.heuristic x y) (Cost.add mo.cost (m.heuristic (x + mo.x) (y + mo.y))) = true

/-- The heuristic of the map is admissible: at no cell does it exceed the cost of an
obstacle-free path from that cell to the goal. -/
def HeuristicAdmissible (m : GlobalObstacleMap) : Prop :=
  ∀ x y q, ObstacleFreePathFrom m (x, y) q →
    Cost.le (m.heuristic x y) (pathCost q) = true

/-- A 6 × 7 grid with Obstacle border and the two Obstacle cells `(2, 2)`, `(3, 2)`;
start `(1, 5)`, goal `(3, 1)`; the heuristic is the octile distance to the goal. -/
def detourMap : GlobalObstacleMap :=
  mkMap 6 7 1 5 3 1 (border 6 7 ++ [(2, 2), (3, 2)]) (octile 3 1)

/-- A 5 × 5 grid with Obstacle border whose goal `(2, 2)` has all 8 neighbours Obstacle,
the start `(1, 1)` being one of them. -/
def enclosedMap : GlobalObstacleMap :=
  mkMap 5 5 1 1 2 2
    (border 5 5 ++ [(1, 1), (2, 1), (3, 1), (1, 2), (3, 2), (1, 3), (2, 3), (3, 3)])
    (fun _ _ => Cost.zero)

/-- A 7 × 7 grid with Obstacle border whose goal `(4, 4)` has all 8 neighbours Obstacle;
start `(1, 1)` on a free cell. -/
def islandMap : GlobalObstacleMap :=
  mkMap 7 7 1 1 4 4
    (border 7 7 ++ [(3, 3), (4, 3), (5, 3), (3, 4), (5, 4), (3, 5), (4, 5), (5, 5)])
    (fun _ _ => Cost.zero)

/-- A 7 × 7 grid with Obstacle border and a wall in column 3 open only at row 1 (in the
free 5 × 5 interior: a wall at column 2 open only at row 0); start `(1, 3)`,
goal `(5, 3)`. -/
def wallMap : GlobalObstacleMap :=
  mkMap 7 7 1 3 5 3 (border 7 7 ++ [(3, 2), (3, 3), (3, 4), (3, 5)]) (fun _ _ => Cost.zero)

/-- The fault a call stopped with, if any. -/
def faultOf {α : Type} (res : Except Fault α) : Option Fault :=
  match res with
  | Except.ok _ => none
  | Except.error e => some e

/-- The 5 × 5 grid without any obstacle, start `(0, 0)`, goal `(4, 4)`. -/
def bareMap : GlobalObstacleMap := mkMap 5 5 0 0 4 4 [] (fun _ _ => Cost.zero)

/-- The 5 × 5 grid with a wall at column 2 open only at row 0 and no other obstacle,
start `(0, 2)`, goal `(4, 2)`. -/
def bareWallMap : GlobalObstacleMap :=
  mkMap 5 5 0 2 4 2 [(2, 1), (2, 2), (2, 3), (2, 4)] (fun _ _ => Cost.zero)

/-- The 5 × 5 grid with a wall at column 2 open only at row 0 and no other obstacle, with
start `(sx, sy)` and goal `(gx, gy)`. -/
def bareWallAt (sx sy gx gy : Int) : GlobalObstacleMap :=
  mkMap 5 5 sx sy gx gy [(2, 1), (2, 2), (2, 3), (2, 4)] (fun _ _ => Cost.zero)

/-- The cells of the 5 × 5 grid in the columns `xs`. -/
def columnCells (xs : List Int) : List (Int × Int) :=
  xs.flatMap (fun x => [0, 1, 2, 3, 4].map (fun y => (x, y)))

/-- The placements of start and goal on the 5 × 5 grid with the start on one side of
column 2 and the goal on the other: start first, goal second. -/
def wallPairs : List ((Int × Int) × (Int × Int)) :=
  (columnCells [0, 1]).flatMap (fun a => (columnCells [3, 4]).map (fun b => (a, b))) ++
  (columnCells [3, 4]).flatMap (fun a => (columnCells [0, 1]).map (fun b => (a, b)))

/-- The member `motions` of `DjikstraPlanner` as its initialiser lists it (lines 16-17). -/
def DjikstraPlanner.motions : List Motion :=
  [⟨1, 0, Cost.one⟩, ⟨0, 1, Cost.one⟩, ⟨0, -1, Cost.one⟩, ⟨-1, 0, Cost.one⟩,
   ⟨1, 1, Cost.sqrt2⟩, ⟨1, -1, Cost.sqrt2⟩, ⟨-1, -1, Cost.sqrt2⟩, ⟨-1, 1, Cost.sqrt2⟩]

/-- The member `motions` of `AstarPlanner` as its initialiser lists it (lines 97-98). -/
def AstarPlanner.motions : List Motion :=
  [⟨1, 0, Cost.one⟩, ⟨0, 1, Cost.one⟩, ⟨0, -1, Cost.one⟩, ⟨-1, 0, Cost.one⟩,
   ⟨1, 1, Cost.sqrt2⟩, ⟨1, -1, Cost.sqrt2⟩, ⟨-1, -1, Cost.sqrt2⟩, ⟨-1, 1, Cost.sqrt2⟩]

/-- The states in which the `while` condition of the loop is tested, in order, from the
state `st` on: `st` itself, then the state after each turn of the loop that is followed by
another test (a `continue`, or the end of the body with `ending_flag` false). -/
def headsWith (exp : NodePtr → SearchState → Except Fault SearchState) :
    Nat → SearchState → List SearchState
  | 0, _ => []
  | fuel + 1, st =>
    st ::
      match pqPop st.nodes with
      | none => []
      | some (current, rest) =>
        match tableGet st.visited current.x current.y with
        | none => []
        | some t =>
          if t ≠ 0 then headsWith exp fuel { st with nodes := rest }
          else
            match tableSet st.visited current.x current.y 1 with
            | none => []
            | some tr =>
              match exp current (enter st current rest tr) with
              | Except.error _ => []
              | Except.ok st1 => if st1.ending_flag then [] else headsWith exp fuel st1

/-- The nodes the loop takes from the frontier, in order, each with the Visited entry read
for its cell: `some 0` when the extraction finalizes the cell, another value when the node
is discarded. -/
def extractedWith (exp : NodePtr → SearchState → Except Fault SearchState)
    (fuel : Nat) (st : SearchState) : List (NodePtr × Option Int) :=
  (headsWith exp fuel st).filterMap
    (fun s => (pqPop s.nodes).map (fun p => (p.1, tableGet s.visited p.1.x p.1.y)))

/-- The loop heads of a call of `DjikstraPlanning`. The budget `fuelFor` is more than the
loop uses, so the list is complete (`headsWith_budget`). -/
def DjikstraPlanner.heads (m : GlobalObstacleMap) : List SearchState :=
  match DjikstraPlanner.init m with
  | Except.error _ => []
  | Except.ok st0 =>
    headsWith (fun c s => DjikstraPlanner.expand m c motions s) (fuelFor st0) st0

/-- The loop heads of a call of `AstarPlanning` on the planner object `self`. The budget
`fuelFor` is more than the loop uses, so the list is complete (`headsWith_budget`). -/
def AstarPlanner.heads (self : AstarPlanner) (om : GlobalObstacleMap) : List SearchState :=
  match AstarPlanner.init self om with
  | Except.error _ => []
  | Except.ok st0 =>
    headsWith (fun c s => AstarPlanner.expand om c motions s) (fuelFor st0) st0

/-- The nodes a call of `DjikstraPlanning` takes from the frontier, each with the Visited
entry read for its cell. -/
def DjikstraPlanner.extractions (m : GlobalObstacleMap) : List (NodePtr × Option Int) :=
  match DjikstraPlanner.init m with
  | Except.error _ => []
  | Except.ok st0 =>
    extractedWith (fun c s => DjikstraPlanner.expand m c motions s) (fuelFor st0) st0

/-- The nodes a call of `AstarPlanning` takes from the frontier, each with the Visited
entry read for its cell. -/
def AstarPlanner.extractions (self : AstarPlanner) (om : GlobalObstacleMap) :
    List (NodePtr × Option Int) :=
  match AstarPlanner.init self om with
  | Except.error _ => []
  | Except.ok st0 =>
    extractedWith (fun c s => AstarPlanner.expand om c motions s) (fuelFor st0) st0

/-- An obstacle-free 8-connected path from the start to the cell `(x, y)`, listed from
`(x, y)` back to the start, the way `calcPath` walks a predecessor chain. -/
def PathFromStart (m : GlobalObstacleMap) (x y : Int) (q : List (Int × Int)) : Prop :=
  q.head? = some (x, y) ∧
  q.getLast? = some (m.start_x, m.start_y) ∧
  List.Chain' IsMotion q ∧
  ∀ c ∈ q, m.checkCell c.1 c.2 ≠ Cell.OBSTACLE

instance (m : GlobalObstacleMap) (x y : Int) (q : List (Int × Int)) :
    Decidable (PathFromStart m x y q) :=
  haveI := decideMotionChain q
  inferInstanceAs (Decidable (q.head? = some (x, y) ∧
    q.getLast? = some (m.start_x, m.start_y) ∧ List.Chain' IsMotion q ∧
    ∀ c ∈ q, m.checkCell c.1 c.2 ≠ Cell.OBSTACLE))

/-- A 5 × 6 grid with Obstacle border and the Obstacle cell `(1, 2)`; start `(1, 1)`,
goal `(2, 4)`; the heuristic is 0 everywhere. -/
def overwriteMap : GlobalObstacleMap :=
  mkMap 5 6 1 1 2 4 (border 5 6 ++ [(1, 2)]) (fun _ _ => Cost.zero)

/-- A 5 × 6 grid with Obstacle border and the Obstacle cells `(1, 1)`, `(2, 2)`;
start `(2, 1)`, goal `(3, 4)`; the heuristic is 0 everywhere. -/
def inflatedMap : GlobalObstacleMap :=
  mkMap 5 6 2 1 3 4 (border 5 6 ++ [(1, 1), (2, 2)]) (fun _ _ => Cost.zero)

/-- The state of a loop result, or an empty state when the loop faulted. -/
def stateOf (res : Except Fault SearchState) : SearchState :=
  match res with
  | Except.ok s => s
  | Except.error _ =>
    { visited := [], path_cost := [], nodes := [], final := none, ending_flag := false,
      annotated := [] }

/-- The `i`-th entry of a list of states, or an empty state when there is none. -/
def headAt (l : List SearchState) (i : Nat) : SearchState :=
  stateOf (match l.get? i with
    | some s => Except.ok s
    | none => Except.error Fault.outOfBounds)

/-- Whether a loop result is a state. -/
def isOk (res : Except Fault SearchState) : Bool :=
  match res with
  | Except.ok _ => true
  | Except.error _ => false

/-- The state of `DjikstraPlanning` on `overwriteMap` when the motion loop is entered for
the start node: the start node has been popped and the start `(1, 1)` marked Visited. -/
def overwriteMarked : SearchState :=
  enter (stateOf (DjikstraPlanner.init overwriteMap)) (NodePtr.mk 1 1 Cost.zero NodePtr.null) []
    ((stateOf (DjikstraPlanner.init overwriteMap)).visited.set 1 [0, 1, 0, 0, 0, 0])

/-- The state of `DjikstraPlanning` on `overwriteMap` at the second test of the `while`
condition, after the motion loop for the start node. -/
def overwriteHead : SearchState := headAt (DjikstraPlanner.heads overwriteMap) 1

/-- The state in which the loop of `DjikstraPlanning` on `overwriteMap` ends. -/
def overwriteEnd : SearchState :=
  stateOf (DjikstraPlanner.loop overwriteMap 60 overwriteHead)

/-- The expanded cells are pairwise distinct and each is marked Visited. -/
def ExpandedOnce (st : SearchState) : Prop :=
  st.annotated.Nodup ∧
  ∀ c ∈ st.annotated, ∃ t, tableGet st.visited c.1 c.2 = some t ∧ t ≠ 0

/-- The state of `DjikstraPlanning` on `overwriteMap` at the fifth test of the `while`
condition: the frontier still holds a node for the cell `(2, 2)`, which was expanded in the
third turn. -/
def staleHead : SearchState := headAt (DjikstraPlanner.heads overwriteMap) 4

/-- Every expanded cell is the start cell or is not a Goal cell. -/
def ExpandedNotGoal (m : GlobalObstacleMap) (st : SearchState) : Prop :=
  ∀ c ∈ st.annotated, c = (m.start_x, m.start_y) ∨ m.checkCell c.1 c.2 ≠ Cell.GOAL

/-- The node and the rest of the queue that `pqPop` returns; the null pointer and the empty
queue on the empty queue. -/
def popOf (q : List NodePtr) : NodePtr × List NodePtr :=
  match pqPop q with
  | some p => p
  | none => (NodePtr.null, [])

/-- The table of a successful `tableSet`, or the empty table. -/
def tableOf (o : Option (List (List Int))) : List (List Int) :=
  match o with
  | some t => t
  | none => []

/-- The state of `DjikstraPlanning` on `overwriteMap` at the last test of the `while`
condition: the node for `(2, 3)` is about to be taken from the frontier, and the goal
`(2, 4)` is the neighbour of `(2, 3)` under the second motion `(0, 1)`. -/
def goalHead : SearchState := headAt (DjikstraPlanner.heads overwriteMap) 7

/-- The state of that last turn after the first motion `(1, 0)` was processed. -/
def goalMid : SearchState :=
  stateOf (DjikstraPlanner.expand overwriteMap (popOf goalHead.nodes).1 [⟨1, 0, Cost.one⟩]
    (enter goalHead (popOf goalHead.nodes).1 (popOf goalHead.nodes).2
      (tableOf (tableSet goalHead.visited 2 3 1))))

/-- The cost `g` is the sum of the motion costs along a chain of motions from the start to
the cell `(x, y)` (the chain listed from `(x, y)` back to the start). -/
def MotionPathCost (m : GlobalObstacleMap) (x y : Int) (g : Cost) : Prop :=
  ∃ q : List (Int × Int), q.head? = some (x, y) ∧
    q.getLast? = some (m.start_x, m.start_y) ∧ List.Chain' IsMotion q ∧ pathCost q = g

/-- What a Cost Table entry of `AstarPlanning` for the cell `(x, y)` can be: the cost of a
chain of motions from the start to the cell, or a value not below the initial
`2147483647` (the initial value plus motion costs). No heuristic value enters. -/
def StoredCost (m : GlobalObstacleMap) (x y : Int) (g : Cost) : Prop :=
  MotionPathCost m x y g ∨ (Cost.intMax.a ≤ g.a ∧ 0 ≤ g.b)

/-- The priority of a frontier node of `AstarPlanning`: the start node `Node(start, 0.0)`,
or a stored-cost value for the node's own cell plus the heuristic of that cell. -/
def PriorityOK (m : GlobalObstacleMap) (n : NodePtr) : Prop :=
  n = NodePtr.mk m.start_x m.start_y Cost.zero NodePtr.null ∨
  ∃ g, StoredCost m n.x n.y g ∧ n.cost = Cost.add g (m.heuristic n.x n.y)

/-- Invariant of `AstarPlanning` on costs: every Cost Table entry is a stored cost of its
cell and every frontier node has a well-formed priority. -/
def CostInv (m : GlobalObstacleMap) (st : SearchState) : Prop :=
  (∀ x y g, tableGet st.path_cost x y = some g → StoredCost m x y g) ∧
  ∀ n ∈ st.nodes, PriorityOK m n

/-- The state of `AstarPlanning` (new planner object) on `detourMap` when the motion loop
is entered for the start node `(1, 5)`. -/
def detourEntered : SearchState :=
  enter (stateOf (AstarPlanner.init AstarPlanner.fresh detourMap))
    (NodePtr.mk 1 5 Cost.zero NodePtr.null) []
    (tableOf (tableSet (stateOf (AstarPlanner.init AstarPlanner.fresh detourMap)).visited
      1 5 1))

/-- The state after that motion loop. -/
def detourExpanded : SearchState :=
  stateOf (AstarPlanner.expand detourMap (NodePtr.mk 1 5 Cost.zero NodePtr.null) motions
    detourEntered)

/-- The cell `(x, y)` is a cell of the `W × H` grid that is not on its border. -/
def Interior (m : GlobalObstacleMap) (x y : Int) : Prop :=
  0 < x ∧ x < (m.map_size_x : Int) - 1 ∧ 0 < y ∧ y < (m.map_size_y : Int) - 1

instance (m : GlobalObstacleMap) (x y : Int) : Decidable (Interior m x y) :=
  inferInstanceAs (Decidable (0 < x ∧ x < (m.map_size_x : Int) - 1 ∧ 0 < y ∧
    y < (m.map_size_y : Int) - 1))

/-! ## Lemmas and theorems -/

theorem pqPop_mem : ∀ (q : List NodePtr) (n : NodePtr) (rest : List NodePtr),
    pqPop q = some (n, rest) →
      n ∈ q ∧ (∀ k ∈ rest, k ∈ q) ∧ rest.length + 1 = q.length ∧
      (∀ k ∈ q, k = n ∨ k ∈ rest) := by
  intro q
  induction q with
  | nil => intro n rest h; simp [pqPop] at h
  | cons a q ih =>
    intro n rest h
    unfold pqPop at h
    split at h
    · simp at h
      obtain ⟨rfl, rfl⟩ := h
      rename_i hq
      cases q with
      | nil => simp
      | cons b q =>
        unfold pqPop at hq
        split at hq <;> [simp at hq; (split at hq <;> simp at hq)]
    · rename_i m rest1 hq
      obtain ⟨h1, h2, h3, h4⟩ := ih m rest1 hq
      split at h
      · simp at h
        obtain ⟨rfl, rfl⟩ := h
        refine ⟨List.mem_cons_of_mem _ h1, ?_, ?_, ?_⟩
        · intro k hk
          rcases List.mem_cons.1 hk with rfl | hk
          · exact List.mem_cons_self _ _
          · exact List.mem_cons_of_mem _ (h2 k hk)
        · simp [← h3]
        · intro k hk
          rcases List.mem_cons.1 hk with rfl | hk
          · exact Or.inr (List.mem_cons_self _ _)
          · rcases h4 k hk with h5 | h5
            · exact Or.inl h5
            · exact Or.inr (List.mem_cons_of_mem _ h5)
      · simp at h
        obtain ⟨rfl, rfl⟩ := h
        refine ⟨List.mem_cons_self _ _, fun k hk => List.mem_cons_of_mem _ hk, rfl, ?_⟩
        intro k hk
        rcases List.mem_cons.1 hk with rfl | hk
        · exact Or.inl rfl
        · exact Or.inr hk

theorem tableGet_isSome_iff {α : Type} (t : List (List α)) (x y : Int) :
    (∃ v, tableGet t x y = some v) ↔ inDims (dims t) x y := by
  unfold tableGet inDims dims
  by_cases hx : x < 0 ∨ y < 0
  · simp [hx]; intro h1 h2; omega
  · have hx1 : 0 ≤ x := by omega
    have hy1 : 0 ≤ y := by omega
    simp only [hx, if_false, hx1, hy1, true_and]
    cases hrow : t.get? x.toNat with
    | none => 
      simp only [List.get?_eq_getElem?] at hrow ⊢
      simp [List.getElem?_map, hrow]
    | some row =>
      simp only [List.get?_eq_getElem?] at hrow ⊢
      simp [hrow, List.getElem?_map]
      constructor
      · rintro ⟨v, hv⟩
        by_contra hcon
        rw [List.getElem?_eq_none (by omega)] at hv
        simp at hv
      · intro h
        exact ⟨row[y.toNat], List.getElem?_eq_getElem h⟩

theorem tableSet_isSome_iff {α : Type} (t : List (List α)) (x y : Int) (v : α) :
    (∃ t1, tableSet t x y v = some t1) ↔ inDims (dims t) x y := by
  unfold tableSet inDims dims
  by_cases hx : x < 0 ∨ y < 0
  · simp [hx]; intro h1 h2; omega
  · have hx1 : 0 ≤ x := by omega
    have hy1 : 0 ≤ y := by omega
    simp only [hx, if_false, hx1, hy1, true_and]
    cases hrow : t.get? x.toNat with
    | none => 
      simp only [List.get?_eq_getElem?] at hrow ⊢
      simp [List.getElem?_map, hrow]
    | some row =>
      simp only [List.get?_eq_getElem?] at hrow ⊢
      simp [hrow, List.getElem?_map]

theorem getElem?_some_lt {α : Type} {l : List α} {i : Nat} {a : α} (h : l[i]? = some a) :
    i < l.length := by
  by_contra hcon
  rw [List.getElem?_eq_none (by omega)] at h
  simp at h

theorem tableSet_dims {α : Type} (t t1 : List (List α)) (x y : Int) (v : α)
    (h : tableSet t x y v = some t1) : dims t1 = dims t := by
  unfold tableSet at h
  split at h
  · simp at h
  · split at h
    · simp at h
    · rename_i row hrow
      split at h
      · simp at h
        subst h
        unfold dims
        simp only [List.get?_eq_getElem?] at hrow
        have hlen := getElem?_some_lt hrow
        apply List.ext_getElem?
        intro i
        simp only [List.getElem?_map, List.getElem?_set]
        by_cases hi : x.toNat = i
        · subst hi
          simp [hrow, hlen]
        · simp [hi]
      · simp at h

theorem tableGet_set_same {α : Type} (t t1 : List (List α)) (x y : Int) (v : α)
    (h : tableSet t x y v = some t1) : tableGet t1 x y = some v := by
  unfold tableSet at h
  unfold tableGet
  split at h
  · simp at h
  · rename_i hx
    simp only [hx, if_false]
    split at h
    · simp at h
    · rename_i row hrow
      split at h
      · rename_i hy
        simp at h
        subst h
        simp only [List.get?_eq_getElem?] at hrow ⊢
        have hlen := getElem?_some_lt hrow
        simp [List.getElem?_set, hlen, hy]
      · simp at h

theorem tableGet_set_other {α : Type} (t t1 : List (List α)) (x y : Int) (v : α)
    (h : tableSet t x y v = some t1) (x1 y1 : Int) (hne : ¬ (x1 = x ∧ y1 = y)) :
    tableGet t1 x1 y1 = tableGet t x1 y1 := by
  unfold tableSet at h
  unfold tableGet
  split at h
  · simp at h
  · rename_i hx
    split at h
    · simp at h
    · rename_i row hrow
      split at h
      · rename_i hy
        simp at h
        subst h
        by_cases hx1 : x1 < 0 ∨ y1 < 0
        · simp [hx1]
        · simp only [hx1, if_false]
          simp only [List.get?_eq_getElem?] at hrow ⊢
          by_cases hxx : x.toNat = x1.toNat
          · have hxe : x1 = x := by omega
            subst hxe
            have hyne : y.toNat ≠ y1.toNat := by
              intro hh
              apply hne
              refine ⟨rfl, ?_⟩
              omega
            have hlen := getElem?_some_lt hrow
            simp [List.getElem?_set, hlen, hrow, hyne]
          · simp [List.getElem?_set, hxx]
      · simp at h

theorem djikstra_expand_rel (m : GlobalObstacleMap) (current : NodePtr) :
    ∀ (ms : List Motion) (st st1 : SearchState), (∀ mo ∈ ms, mo ∈ motions) →
      DjikstraPlanner.expand m current ms st = Except.ok st1 →
      ExpandRel m current ms st st1 := by
  intro ms
  induction ms with
  | nil =>
    intro st st1 _ h
    simp [DjikstraPlanner.expand] at h
    subst h
    exact ⟨rfl, rfl, rfl, ⟨[], by simp⟩, Or.inl ⟨rfl, rfl, by simp⟩⟩
  | cons mo rest ih =>
    intro st st1 hms h
    have hmo : mo ∈ motions := hms mo (List.mem_cons_self _ _)
    have hrest : ∀ k ∈ rest, k ∈ motions := fun k hk => hms k (List.mem_cons_of_mem _ hk)
    unfold DjikstraPlanner.expand at h
    simp only at h
    split at h
    · simp at h
    · rename_i cpc hcpc
      split at h
      · rename_i hgoal
        simp at h
        subst h
        exact ⟨rfl, rfl, rfl, ⟨[], by simp⟩,
          Or.inr ⟨rfl, _, rfl, mo, hmo, rfl, hgoal⟩⟩
      · rename_i hgoal
        split at h
        · simp at h
        · rename_i t ht
          split at h
          · rename_i hskip
            have r := ih st st1 hrest h
            refine ⟨r.visited_eq, r.annotated_eq, r.dims_eq,
              (by
                obtain ⟨l, h1, h2, h3⟩ := r.pushed
                exact ⟨l, h1, by simp; omega, h3⟩), ?_⟩
            rcases r.final with ⟨h1, h2, h3⟩ | hterm
            · refine Or.inl ⟨h1, h2, ?_⟩
              intro k hk
              rcases List.mem_cons.1 hk with rfl | hk
              · refine ⟨hgoal, ?_⟩
                rcases hskip with ht0 | hob
                · exact Or.inr (Or.inl ⟨t, ht, ht0⟩)
                · exact Or.inl hob
              · exact h3 k hk
            · exact Or.inr hterm
          · rename_i hskip
            split at h
            · simp at h
            · rename_i pc hpc
              have r := ih _ st1 hrest h
              have hd := tableSet_dims _ _ _ _ _ hpc
              obtain ⟨l, h1, h2, h3⟩ := r.pushed
              refine ⟨r.visited_eq, r.annotated_eq, by rw [r.dims_eq]; exact hd, ?_, ?_⟩
              rotate_left
              · rcases r.final with ⟨f1, f2, f3⟩ | hterm
                · refine Or.inl ⟨f1, f2, ?_⟩
                  intro k hk
                  rcases List.mem_cons.1 hk with hk | hk
                  · rw [hk]
                    refine ⟨hgoal, Or.inr (Or.inr ⟨NodePtr.mk (current.x + mo.x)
                      (current.y + mo.y) (Cost.add cpc mo.cost) current, ?_, rfl, rfl⟩)⟩
                    rw [h1]
                    simp [pqPush]
                  · exact f3 k hk
                · exact Or.inr hterm
              refine ⟨NodePtr.mk (current.x + mo.x) (current.y + mo.y) (Cost.add cpc mo.cost) current :: l,
                ?_, by simp; omega, ?_⟩
              · rw [h1]; simp [pqPush]
              · intro n hn
                rcases List.mem_cons.1 hn with rfl | hn
                · refine ⟨mo, hmo, _, rfl, hgoal, ?_, ?_, ?_⟩
                  · intro hob; exact hskip (Or.inr hob)
                  · have : t = 0 := by
                      by_contra hne
                      exact hskip (Or.inl hne)
                    rw [← this]; exact ht
                  · exact (tableSet_isSome_iff _ _ _ _).1 ⟨pc, hpc⟩
                · have := h3 n hn
                  simp only [hd] at this
                  exact this

theorem astar_expand_rel (m : GlobalObstacleMap) (current : NodePtr) :
    ∀ (ms : List Motion) (st st1 : SearchState), (∀ mo ∈ ms, mo ∈ motions) →
      AstarPlanner.expand m current ms st = Except.ok st1 →
      ExpandRel m current ms st st1 := by
  intro ms
  induction ms with
  | nil =>
    intro st st1 _ h
    simp [AstarPlanner.expand] at h
    subst h
    exact ⟨rfl, rfl, rfl, ⟨[], by simp⟩, Or.inl ⟨rfl, rfl, by simp⟩⟩
  | cons mo rest ih =>
    intro st st1 hms h
    have hmo : mo ∈ motions := hms mo (List.mem_cons_self _ _)
    have hrest : ∀ k ∈ rest, k ∈ motions := fun k hk => hms k (List.mem_cons_of_mem _ hk)
    unfold AstarPlanner.expand at h
    simp only at h
    split at h
    · simp at h
    · rename_i cpc hcpc
      split at h
      · rename_i hgoal
        simp at h
        subst h
        exact ⟨rfl, rfl, rfl, ⟨[], by simp⟩,
          Or.inr ⟨rfl, _, rfl, mo, hmo, rfl, hgoal⟩⟩
      · rename_i hgoal
        split at h
        · simp at h
        · rename_i t ht
          split at h
          · rename_i hskip
            have r := ih st st1 hrest h
            refine ⟨r.visited_eq, r.annotated_eq, r.dims_eq,
              (by
                obtain ⟨l, h1, h2, h3⟩ := r.pushed
                exact ⟨l, h1, by simp; omega, h3⟩), ?_⟩
            rcases r.final with ⟨h1, h2, h3⟩ | hterm
            · refine Or.inl ⟨h1, h2, ?_⟩
              intro k hk
              rcases List.mem_cons.1 hk with rfl | hk
              · refine ⟨hgoal, ?_⟩
                rcases hskip with ht0 | hob
                · exact Or.inr (Or.inl ⟨t, ht, ht0⟩)
                · exact Or.inl hob
              · exact h3 k hk
            · exact Or.inr hterm
          · rename_i hskip
            split at h
            · simp at h
            · rename_i old hold
              split at h
              · simp at h
              · rename_i pc hpc
                have r := ih _ st1 hrest h
                have hd := tableSet_dims _ _ _ _ _ hpc
                obtain ⟨l, h1, h2, h3⟩ := r.pushed
                refine ⟨r.visited_eq, r.annotated_eq, by rw [r.dims_eq]; exact hd, ?_, ?_⟩
                rotate_left
                · rcases r.final with ⟨f1, f2, f3⟩ | hterm
                  · refine Or.inl ⟨f1, f2, ?_⟩
                    intro k hk
                    rcases List.mem_cons.1 hk with hk | hk
                    · rw [hk]
                      refine ⟨hgoal, Or.inr (Or.inr ⟨NodePtr.mk (current.x + mo.x)
                        (current.y + mo.y)
                        (Cost.add (Cost.add cpc (m.heuristic (current.x + mo.x)
                          (current.y + mo.y))) mo.cost) current, ?_, rfl, rfl⟩)⟩
                      rw [h1]
                      simp [pqPush]
                    · exact f3 k hk
                  · exact Or.inr hterm
                refine ⟨NodePtr.mk (current.x + mo.x) (current.y + mo.y)
                    (Cost.add (Cost.add cpc (m.heuristic (current.x + mo.x) (current.y + mo.y))) mo.cost)
                    current :: l, ?_, by simp; omega, ?_⟩
                · rw [h1]; simp [pqPush]
                · intro n hn
                  rcases List.mem_cons.1 hn with rfl | hn
                  · refine ⟨mo, hmo, _, rfl, hgoal, ?_, ?_, ?_⟩
                    · intro hob; exact hskip (Or.inr hob)
                    · have : t = 0 := by
                        by_contra hne
                        exact hskip (Or.inl hne)
                      rw [← this]; exact ht
                    · exact (tableSet_isSome_iff _ _ _ _).1 ⟨pc, hpc⟩
                  · have := h3 n hn
                    simp only [hd] at this
                    exact this

theorem sum_set_add (l : List Nat) (i : Nat) (v : Nat) (h : i < l.length) :
    (l.set i v).sum + l[i] = l.sum + v := by
  induction l generalizing i with
  | nil => simp at h
  | cons a l ih =>
    cases i with
    | zero => simp; omega
    | succ i =>
      simp at h
      have := ih i h
      simp
      omega

theorem unvisited_set (t t1 : List (List Int)) (x y : Int)
    (hget : tableGet t x y = some 0) (hset : tableSet t x y 1 = some t1) :
    unvisited t1 + 1 = unvisited t := by
  unfold tableSet at hset
  unfold tableGet at hget
  split at hset
  · simp at hset
  · rename_i hx
    simp only [hx, if_false] at hget
    split at hset
    · simp at hset
    · rename_i row hrow
      simp only [hrow] at hget
      split at hset
      · rename_i hy
        simp at hset
        subst hset
        simp only [List.get?_eq_getElem?] at hrow hget
        have hlen := getElem?_some_lt hrow
        have hrowe : t[x.toNat] = row := by
          have := List.getElem?_eq_getElem hlen
          rw [this] at hrow
          exact Option.some.inj hrow
        have hval : row[y.toNat] = 0 := by
          have := List.getElem?_eq_getElem hy
          rw [this] at hget
          exact Option.some.inj hget
        unfold unvisited
        rw [List.map_set]
        have hlen2 : x.toNat < (t.map (fun row => List.count 0 row)).length := by
          simpa using hlen
        have h1 := sum_set_add (t.map (fun row => List.count 0 row)) x.toNat
          (List.count 0 (row.set y.toNat 1)) hlen2
        have h2 : (List.map (fun row => List.count 0 row) t)[x.toNat]
            = List.count 0 row := by
          simp [hrowe]
        rw [h2] at h1
        have h3 := List.count_set (1 : Int) 0 row y.toNat hy
        simp [hval] at h3
        have h4 : 0 < List.count 0 row := by
          apply List.count_pos_iff.2
          rw [← hval]
          exact List.getElem_mem _
        omega
      · simp at hset

theorem djikstra_loop_eq (m : GlobalObstacleMap) (fuel : Nat) (st : SearchState) :
    DjikstraPlanner.loop m fuel st
      = loopWith (fun c s => DjikstraPlanner.expand m c motions s) fuel st := by
  induction fuel generalizing st with
  | zero => rfl
  | succ n ih =>
    unfold DjikstraPlanner.loop loopWith
    split
    · rfl
    · split
      · rfl
      · split
        · exact ih _
        · split
          · rfl
          · split
            · rfl
            · split
              · rfl
              · exact ih _

theorem astar_loop_eq (m : GlobalObstacleMap) (fuel : Nat) (st : SearchState) :
    AstarPlanner.loop m fuel st
      = loopWith (fun c s => AstarPlanner.expand m c motions s) fuel st := by
  induction fuel generalizing st with
  | zero => rfl
  | succ n ih =>
    unfold AstarPlanner.loop loopWith
    split
    · rfl
    · split
      · rfl
      · split
        · exact ih _
        · split
          · rfl
          · split
            · rfl
            · split
              · rfl
              · exact ih _

/-- Loop rule: an invariant `P` at the loop head and a postcondition `Q`. -/
theorem loopWith_post (exp : NodePtr → SearchState → Except Fault SearchState)
    (P Q : SearchState → Prop)
    (hempty : ∀ st, P st → pqPop st.nodes = none → Q st)
    (hdiscard : ∀ st cur rest t, P st → pqPop st.nodes = some (cur, rest) →
      tableGet st.visited cur.x cur.y = some t → t ≠ 0 → P { st with nodes := rest })
    (hexpand : ∀ st cur rest tr st1, P st → pqPop st.nodes = some (cur, rest) →
      tableGet st.visited cur.x cur.y = some 0 →
      tableSet st.visited cur.x cur.y 1 = some tr →
      exp cur (enter st cur rest tr) = Except.ok st1 →
      (st1.ending_flag = true → Q st1) ∧ (st1.ending_flag = false → P st1)) :
    ∀ (fuel : Nat) (st st1 : SearchState), P st → loopWith exp fuel st = Except.ok st1 →
      Q st1 := by
  intro fuel
  induction fuel with
  | zero => intro st st1 _ h; simp [loopWith] at h
  | succ n ih =>
    intro st st1 hP h
    unfold loopWith at h
    split at h
    · rename_i hpop
      simp at h
      subst h
      exact hempty _ hP hpop
    · rename_i cur rest hpop
      split at h
      · simp at h
      · rename_i t ht
        split at h
        · rename_i hne
          exact ih _ _ (hdiscard st cur rest t hP hpop ht hne) h
        · rename_i hz
          have hz0 : t = 0 := by
            by_contra hne
            exact hz hne
          subst hz0
          split at h
          · simp at h
          · rename_i tr htr
            split at h
            · simp at h
            · rename_i st2 hexp
              have := hexpand st cur rest tr st2 hP hpop ht htr hexp
              split at h
              · rename_i hflag
                simp at h
                subst h
                exact this.1 hflag
              · rename_i hflag
                exact ih _ _ (this.2 (by simpa using hflag)) h

theorem tableSet_of_get {α : Type} (t : List (List α)) (x y : Int) (v w : α)
    (h : tableGet t x y = some v) : ∃ t1, tableSet t x y w = some t1 :=
  (tableSet_isSome_iff t x y w).2 ((tableGet_isSome_iff t x y).1 ⟨v, h⟩)

theorem enter_measure (m : GlobalObstacleMap) (st st1 : SearchState) (cur : NodePtr)
    (rest : List NodePtr) (tr : List (List Int))
    (hpop : pqPop st.nodes = some (cur, rest))
    (hget : tableGet st.visited cur.x cur.y = some 0)
    (hset : tableSet st.visited cur.x cur.y 1 = some tr)
    (hrel : ExpandRel m cur motions (enter st cur rest tr) st1) :
    9 * unvisited st1.visited + st1.nodes.length + 2
      ≤ 9 * unvisited st.visited + st.nodes.length := by
  have h1 := unvisited_set _ _ _ _ hget hset
  have h2 := (pqPop_mem _ _ _ hpop).2.2.1
  obtain ⟨l, hl1, hl2, _⟩ := hrel.pushed
  have h8 : motions.length = 8 := rfl
  rw [hrel.visited_eq, hl1]
  simp only [enter, List.length_append]
  omega

/-- Loop rule with termination: under a budget above the measure, and when the table
accesses of an iteration succeed, the loop returns a state satisfying `Q`. -/
theorem loopWith_total (m : GlobalObstacleMap)
    (exp : NodePtr → SearchState → Except Fault SearchState)
    (hrel : ∀ cur st st1, exp cur st = Except.ok st1 → ExpandRel m cur motions st st1)
    (P Q : SearchState → Prop)
    (hempty : ∀ st, P st → pqPop st.nodes = none → Q st)
    (hdiscard : ∀ st cur rest t, P st → pqPop st.nodes = some (cur, rest) →
      tableGet st.visited cur.x cur.y = some t → t ≠ 0 → P { st with nodes := rest })
    (hexpand : ∀ st cur rest tr st1, P st → pqPop st.nodes = some (cur, rest) →
      tableGet st.visited cur.x cur.y = some 0 →
      tableSet st.visited cur.x cur.y 1 = some tr →
      exp cur (enter st cur rest tr) = Except.ok st1 →
      (st1.ending_flag = true → Q st1) ∧ (st1.ending_flag = false → P st1))
    (hsafe : ∀ st cur rest, P st → pqPop st.nodes = some (cur, rest) →
      (∃ t, tableGet st.visited cur.x cur.y = some t) ∧
      ∀ tr, tableSet st.visited cur.x cur.y 1 = some tr →
        ∃ st1, exp cur (enter st cur rest tr) = Except.ok st1) :
    ∀ (fuel : Nat) (st : SearchState), P st →
      9 * unvisited st.visited + st.nodes.length < fuel →
      ∃ st1, loopWith exp fuel st = Except.ok st1 ∧ Q st1 := by
  intro fuel
  induction fuel with
  | zero => intro st _ h; omega
  | succ n ih =>
    intro st hP hfuel
    unfold loopWith
    split
    · rename_i hpop
      exact ⟨st, rfl, hempty st hP hpop⟩
    · rename_i cur rest hpop
      have hlen := (pqPop_mem _ _ _ hpop).2.2.1
      obtain ⟨⟨t, ht⟩, hs2⟩ := hsafe st cur rest hP hpop
      rw [ht]
      simp only
      split
      · rename_i hne
        exact ih _ (hdiscard st cur rest t hP hpop ht hne) (by simp only; omega)
      · rename_i hz
        have hz0 : t = 0 := by
          by_contra hne
          exact hz hne
        subst hz0
        obtain ⟨tr, htr⟩ := tableSet_of_get st.visited cur.x cur.y 0 1 ht
        rw [htr]
        simp only
        obtain ⟨st2, hst2⟩ := hs2 tr htr
        have hst2c := hst2
        unfold enter at hst2c
        rw [hst2c]
        simp only
        have hm := enter_measure m st st2 cur rest tr hpop ht htr (hrel _ _ _ hst2)
        have hx := hexpand st cur rest tr st2 hP hpop ht htr hst2
        split
        · rename_i hflag
          exact ⟨st2, rfl, hx.1 hflag⟩
        · rename_i hflag
          exact ih _ (hx.2 (by simpa using hflag)) (by omega)

theorem IsChild.chainOK {m : GlobalObstacleMap} {d : List Nat} {cur n : NodePtr}
    {vis : List (List Int)} (h : IsChild m cur vis d n) (hc : ChainOK m d cur) :
    ChainOK m d n := by
  obtain ⟨mo, hmo, c, rfl, hg, ho, _, hd⟩ := h
  exact ⟨hd, Or.inr ⟨hc, ⟨mo, hmo, rfl, rfl⟩, ho, hg⟩⟩

theorem Inv.discard {m : GlobalObstacleMap} {d : List Nat} {st : SearchState}
    {cur : NodePtr} {rest : List NodePtr} (h : Inv m d st)
    (hpop : pqPop st.nodes = some (cur, rest)) : Inv m d { st with nodes := rest } :=
  ⟨h.dims_pc, fun n hn => h.nodes_ok n ((pqPop_mem _ _ _ hpop).2.1 n hn), h.final_ok⟩

theorem Inv.expand {m : GlobalObstacleMap} {d : List Nat} {st st1 : SearchState}
    {cur : NodePtr} {rest : List NodePtr} {tr : List (List Int)} (h : Inv m d st)
    (hpop : pqPop st.nodes = some (cur, rest))
    (hrel : ExpandRel m cur motions (enter st cur rest tr) st1) : Inv m d st1 := by
  have hcur : ChainOK m d cur := h.nodes_ok cur (pqPop_mem _ _ _ hpop).1
  obtain ⟨l, hl1, _, hl3⟩ := hrel.pushed
  refine ⟨by rw [hrel.dims_eq]; exact h.dims_pc, ?_, ?_⟩
  · intro n hn
    rw [hl1] at hn
    rcases List.mem_append.1 hn with hn | hn
    · exact h.nodes_ok n ((pqPop_mem _ _ _ hpop).2.1 n hn)
    · have hch := hl3 n hn
      simp only [enter] at hch
      rw [h.dims_pc] at hch
      exact hch.chainOK hcur
  · intro hflag
    rcases hrel.final with ⟨h1, h2, _⟩ | ⟨_, f, hf, hterm⟩
    · rw [h1] at hflag
      obtain ⟨f, c, hf, hrest⟩ := h.final_ok hflag
      exact ⟨f, c, by rw [h2]; exact hf, hrest⟩
    · exact ⟨f, cur, hf, hterm, hcur⟩

theorem loopWith_inv (m : GlobalObstacleMap) (d : List Nat)
    (exp : NodePtr → SearchState → Except Fault SearchState)
    (hrel : ∀ cur st st1, exp cur st = Except.ok st1 → ExpandRel m cur motions st st1)
    (fuel : Nat) (st st1 : SearchState) (h : Inv m d st)
    (hrun : loopWith exp fuel st = Except.ok st1) : Inv m d st1 := by
  refine loopWith_post exp (Inv m d) (Inv m d) (fun _ h _ => h) ?_ ?_ fuel st st1 h hrun
  · intro st cur rest t hP hpop _ _
    exact hP.discard hpop
  · intro st cur rest tr st2 hP hpop _ _ hexp
    have := hP.expand hpop (hrel _ _ _ hexp)
    exact ⟨fun _ => this, fun _ => this⟩

theorem djikstra_expand_rel8 (m : GlobalObstacleMap) (cur : NodePtr)
    (st st1 : SearchState)
    (h : DjikstraPlanner.expand m cur motions st = Except.ok st1) :
    ExpandRel m cur motions st st1 :=
  djikstra_expand_rel m cur motions st st1 (fun _ h => h) h

theorem astar_expand_rel8 (m : GlobalObstacleMap) (cur : NodePtr)
    (st st1 : SearchState)
    (h : AstarPlanner.expand m cur motions st = Except.ok st1) :
    ExpandRel m cur motions st st1 :=
  astar_expand_rel m cur motions st st1 (fun _ h => h) h

theorem Inv.found {m : GlobalObstacleMap} {d : List Nat} {st : SearchState}
    (h : Inv m d st) {α : Type} (a : α) (p : List (Int × Int))
    (hp : foundPath (Except.ok (finish st, a)) = some p) : FoundSpec m d p := by
  simp only [foundPath, finish] at hp
  split at hp
  · rename_i hflag
    obtain ⟨f, cur, hf, hterm, hcur⟩ := h.final_ok hflag
    rw [hf] at hp
    simp at hp
    exact ⟨f, cur, hterm, hcur, hp.symm⟩
  · simp at hp

theorem djikstra_init_inv (m : GlobalObstacleMap) (st : SearchState)
    (h : DjikstraPlanner.init m = Except.ok st) :
    Inv m (List.replicate m.map_size_x m.map_size_y) st := by
  unfold DjikstraPlanner.init at h
  simp only at h
  split at h
  · simp at h
  · rename_i pc hpc
    simp at h
    subst h
    have hd := tableSet_dims _ _ _ _ _ hpc
    have hd0 : dims (List.replicate m.map_size_x (List.replicate m.map_size_y Cost.zero))
        = List.replicate m.map_size_x m.map_size_y := by
      simp [dims]
    have hin := (tableSet_isSome_iff _ _ _ _).1 ⟨pc, hpc⟩
    rw [hd0] at hin hd
    refine ⟨hd, ?_, by simp⟩
    intro n hn
    simp [pqPush] at hn
    subst hn
    exact ⟨hin, Or.inl ⟨rfl, rfl, rfl⟩⟩

theorem astar_init_inv (self : AstarPlanner) (m : GlobalObstacleMap)
    (st : SearchState) (h : AstarPlanner.init self m = Except.ok st) :
    Inv m (dims self.path_cost ++ List.replicate m.map_size_x m.map_size_y) st := by
  unfold AstarPlanner.init at h
  simp only at h
  split at h
  · simp at h
  · rename_i pc hpc
    simp at h
    subst h
    have hd := tableSet_dims _ _ _ _ _ hpc
    have hd0 : dims (self.path_cost ++
        List.replicate m.map_size_x (List.replicate m.map_size_y Cost.intMax))
        = dims self.path_cost ++ List.replicate m.map_size_x m.map_size_y := by
      simp [dims]
    have hin := (tableSet_isSome_iff _ _ _ _).1 ⟨pc, hpc⟩
    rw [hd0] at hin hd
    refine ⟨hd, ?_, by simp⟩
    intro n hn
    simp [pqPush] at hn
    subst hn
    exact ⟨hin, Or.inl ⟨rfl, rfl, rfl⟩⟩

theorem djikstra_found_spec (self : DjikstraPlanner) (m : GlobalObstacleMap)
    (p : List (Int × Int))
    (h : foundPath (DjikstraPlanner.DjikstraPlanning self m) = some p) :
    FoundSpec m (List.replicate m.map_size_x m.map_size_y) p := by
  unfold DjikstraPlanner.DjikstraPlanning at h
  split at h
  · simp [foundPath] at h
  · rename_i st0 h0
    split at h
    · simp [foundPath] at h
    · rename_i st hrun
      rw [djikstra_loop_eq] at hrun
      exact (loopWith_inv m _ _ (djikstra_expand_rel8 m) _ _ _
        (djikstra_init_inv m st0 h0) hrun).found _ p h

theorem astar_found_spec (self : AstarPlanner) (m : GlobalObstacleMap)
    (p : List (Int × Int))
    (h : foundPath (AstarPlanner.AstarPlanning self m) = some p) :
    FoundSpec m (dims self.path_cost ++ List.replicate m.map_size_x m.map_size_y) p := by
  unfold AstarPlanner.AstarPlanning at h
  split at h
  · simp [foundPath] at h
  · rename_i st0 h0
    split at h
    · simp [foundPath] at h
    · rename_i st hrun
      rw [astar_loop_eq] at hrun
      exact (loopWith_inv m _ _ (astar_expand_rel8 m) _ _ _
        (astar_init_inv self m st0 h0) hrun).found _ p h

theorem chainOK_calcPath {m : GlobalObstacleMap} {d : List Nat} :
    ∀ n : NodePtr, ChainOK m d n → ∃ tl, calcPath n = (n.x, n.y) :: tl := by
  intro n h
  cases n with
  | null => exact h.elim
  | mk x y c pre => exact ⟨calcPath pre, rfl⟩

theorem chainOK_chain {m : GlobalObstacleMap} {d : List Nat} :
    ∀ n : NodePtr, ChainOK m d n → List.Chain' IsMotion (calcPath n) := by
  intro n
  induction n with
  | null => intro h; exact h.elim
  | mk x y c pre ih =>
    intro h
    obtain ⟨_, h | ⟨hpre, ⟨mo, hmo, hx, hy⟩, _, _⟩⟩ := h
    · obtain ⟨rfl, _, _⟩ := h
      simp [calcPath]
    · obtain ⟨tl, htl⟩ := chainOK_calcPath pre hpre
      have := ih hpre
      simp only [calcPath]
      rw [htl] at this ⊢
      refine List.Chain'.cons ?_ this
      simp only [IsMotion, offsets, List.mem_map]
      exact ⟨mo, hmo, by simp [hx, hy]⟩

theorem chainOK_last {m : GlobalObstacleMap} {d : List Nat} :
    ∀ n : NodePtr, ChainOK m d n →
      (calcPath n).getLast? = some (m.start_x, m.start_y) := by
  intro n
  induction n with
  | null => intro h; exact h.elim
  | mk x y c pre ih =>
    intro h
    obtain ⟨_, h | ⟨hpre, _, _, _⟩⟩ := h
    · obtain ⟨rfl, rfl, rfl⟩ := h
      simp [calcPath]
    · obtain ⟨tl, htl⟩ := chainOK_calcPath pre hpre
      have := ih hpre
      simp only [calcPath]
      rw [htl] at this ⊢
      rw [List.getLast?_cons_cons]
      exact this

theorem chainOK_cells {m : GlobalObstacleMap} {d : List Nat} :
    ∀ n : NodePtr, ChainOK m d n → ∀ c ∈ calcPath n,
      inDims d c.1 c.2 ∧ (c = (m.start_x, m.start_y) ∨
        (m.checkCell c.1 c.2 ≠ Cell.OBSTACLE ∧ m.checkCell c.1 c.2 ≠ Cell.GOAL)) := by
  intro n
  induction n with
  | null => intro h; exact h.elim
  | mk x y c pre ih =>
    intro h a ha
    simp only [calcPath, List.mem_cons] at ha
    obtain ⟨hd, h | ⟨hpre, _, ho, hg⟩⟩ := h
    · obtain ⟨rfl, rfl, rfl⟩ := h
      simp [calcPath] at ha
      subst ha
      exact ⟨hd, Or.inl rfl⟩
    · rcases ha with rfl | ha
      · exact ⟨hd, Or.inr ⟨ho, hg⟩⟩
      · exact ih hpre a ha

/-- The shape of a reconstructed path: a Goal cell, then the chain of `cur`. -/
theorem FoundSpec.shape {m : GlobalObstacleMap} {d : List Nat} {p : List (Int × Int)}
    (h : FoundSpec m d p) :
    ∃ g c tl, p = g :: c :: tl ∧ m.checkCell g.1 g.2 = Cell.GOAL ∧ IsMotion g c ∧
      List.Chain' IsMotion (c :: tl) ∧
      (c :: tl).getLast? = some (m.start_x, m.start_y) ∧
      ∀ a ∈ c :: tl, inDims d a.1 a.2 ∧ (a = (m.start_x, m.start_y) ∨
        (m.checkCell a.1 a.2 ≠ Cell.OBSTACLE ∧ m.checkCell a.1 a.2 ≠ Cell.GOAL)) := by
  obtain ⟨f, cur, ⟨mo, hmo, rfl, hgoal⟩, hcur, rfl⟩ := h
  obtain ⟨tl, htl⟩ := chainOK_calcPath cur hcur
  refine ⟨(cur.x + mo.x, cur.y + mo.y), (cur.x, cur.y), tl, by simp [calcPath, htl], hgoal,
    ?_, ?_, ?_, ?_⟩
  · simp only [IsMotion, offsets, List.mem_map]
    exact ⟨mo, hmo, by simp⟩
  · rw [← htl]; exact chainOK_chain cur hcur
  · rw [← htl]; exact chainOK_last cur hcur
  · rw [← htl]; exact chainOK_cells cur hcur

/-- C3: for both planners, whenever the goal is found, every two consecutive coordinates of
the reconstructed path (a node and its predecessor) differ by one of the 8 offsets of the
motion table. -/
theorem path_steps_are_motions (m : GlobalObstacleMap) (sd : DjikstraPlanner)
    (sa : AstarPlanner) (p : List (Int × Int))
    (h : foundPath (DjikstraPlanner.DjikstraPlanning sd m) = some p ∨
         foundPath (AstarPlanner.AstarPlanning sa m) = some p) :
    List.Chain' IsMotion p := by
  have hs : ∃ d, FoundSpec m d p := by
    rcases h with h | h
    · exact ⟨_, djikstra_found_spec sd m p h⟩
    · exact ⟨_, astar_found_spec sa m p h⟩
  obtain ⟨d, hs⟩ := hs
  obtain ⟨g, c, tl, rfl, _, hstep, hchain, _, _⟩ := hs.shape
  exact List.Chain'.cons hstep hchain

/-- C3 on the grid `openMap`: both planners find the diagonal, whose steps are motions. -/
theorem path_steps_are_motions_witness :
    (foundPath (DjikstraPlanner.DjikstraPlanning DjikstraPlanner.fresh openMap)
        = some [(5, 5), (4, 4), (3, 3), (2, 2), (1, 1)] ∧
      List.Chain' IsMotion [((5 : Int), (5 : Int)), (4, 4), (3, 3), (2, 2), (1, 1)]) ∧
    (foundPath (AstarPlanner.AstarPlanning AstarPlanner.fresh openMap)
        = some [(5, 5), (4, 4), (3, 3), (2, 2), (1, 1)] ∧
      List.Chain' IsMotion [((5 : Int), (5 : Int)), (4, 4), (3, 3), (2, 2), (1, 1)]) :=
  ⟨⟨by decide!, path_steps_are_motions openMap DjikstraPlanner.fresh AstarPlanner.fresh _
      (Or.inl (by decide!))⟩,
   ⟨by decide!, path_steps_are_motions openMap DjikstraPlanner.fresh AstarPlanner.fresh _
      (Or.inr (by decide!))⟩⟩

theorem djikstra_run (sd : DjikstraPlanner) (m : GlobalObstacleMap) (r : PlanResult)
    (s : DjikstraPlanner) (h : DjikstraPlanner.DjikstraPlanning sd m = Except.ok (r, s)) :
    ∃ st0 st, DjikstraPlanner.init m = Except.ok st0 ∧
      loopWith (fun c s => DjikstraPlanner.expand m c motions s) (fuelFor st0) st0
        = Except.ok st ∧ r = finish st := by
  unfold DjikstraPlanner.DjikstraPlanning at h
  split at h
  · simp at h
  · rename_i st0 h0
    split at h
    · simp at h
    · rename_i st hrun
      rw [djikstra_loop_eq] at hrun
      simp at h
      exact ⟨st0, st, h0, hrun, h.1.symm⟩

theorem astar_run (sa : AstarPlanner) (m : GlobalObstacleMap) (r : PlanResult)
    (s : AstarPlanner) (h : AstarPlanner.AstarPlanning sa m = Except.ok (r, s)) :
    ∃ st0 st, AstarPlanner.init sa m = Except.ok st0 ∧
      loopWith (fun c s => AstarPlanner.expand m c motions s) (fuelFor st0) st0
        = Except.ok st ∧ r = finish st := by
  unfold AstarPlanner.AstarPlanning at h
  split at h
  · simp at h
  · rename_i st0 h0
    split at h
    · simp at h
    · rename_i st hrun
      rw [astar_loop_eq] at hrun
      simp at h
      exact ⟨st0, st, h0, hrun, h.1.symm⟩

/-- C6: for both planners, whenever the goal is found, the chain walked by `calcPath`
begins at a cell classified Goal and ends at the start coordinates, so that read in
reverse the path runs from the start to the goal. -/
theorem path_runs_goal_to_start (m : GlobalObstacleMap) (sd : DjikstraPlanner)
    (sa : AstarPlanner) (p : List (Int × Int))
    (h : foundPath (DjikstraPlanner.DjikstraPlanning sd m) = some p ∨
         foundPath (AstarPlanner.AstarPlanning sa m) = some p) :
    (∃ g, p.head? = some g ∧ m.checkCell g.1 g.2 = Cell.GOAL) ∧
    p.getLast? = some (m.start_x, m.start_y) ∧
    p.reverse.head? = some (m.start_x, m.start_y) ∧
    (∃ g, p.reverse.getLast? = some g ∧ m.checkCell g.1 g.2 = Cell.GOAL) := by
  have hs : ∃ d, FoundSpec m d p := by
    rcases h with h | h
    · exact ⟨_, djikstra_found_spec sd m p h⟩
    · exact ⟨_, astar_found_spec sa m p h⟩
  obtain ⟨d, hs⟩ := hs
  obtain ⟨g, c, tl, rfl, hg, _, _, hlast, _⟩ := hs.shape
  have hl : (g :: c :: tl).getLast? = some (m.start_x, m.start_y) := by
    rw [List.getLast?_cons_cons]; exact hlast
  refine ⟨⟨g, rfl, hg⟩, hl, ?_, ⟨g, ?_, hg⟩⟩
  · rw [List.head?_reverse]; exact hl
  · rw [List.getLast?_reverse]; rfl

/-- C6 on the grid `openMap`: the path found begins at the goal `(5, 5)` and ends at the
start `(1, 1)`. -/
theorem path_runs_goal_to_start_witness :
    foundPath (DjikstraPlanner.DjikstraPlanning DjikstraPlanner.fresh openMap)
      = some [(5, 5), (4, 4), (3, 3), (2, 2), (1, 1)] ∧
    foundPath (AstarPlanner.AstarPlanning AstarPlanner.fresh openMap)
      = some [(5, 5), (4, 4), (3, 3), (2, 2), (1, 1)] ∧
    ((∃ g, [((5 : Int), (5 : Int)), (4, 4), (3, 3), (2, 2), (1, 1)].head? = some g ∧
        openMap.checkCell g.1 g.2 = Cell.GOAL) ∧
      [((5 : Int), (5 : Int)), (4, 4), (3, 3), (2, 2), (1, 1)].getLast?
        = some (openMap.start_x, openMap.start_y) ∧
      [((5 : Int), (5 : Int)), (4, 4), (3, 3), (2, 2), (1, 1)].reverse.head?
        = some (openMap.start_x, openMap.start_y) ∧
      (∃ g, [((5 : Int), (5 : Int)), (4, 4), (3, 3), (2, 2), (1, 1)].reverse.getLast? = some g ∧
        openMap.checkCell g.1 g.2 = Cell.GOAL)) :=
  ⟨by decide!, by decide!,
   path_runs_goal_to_start openMap DjikstraPlanner.fresh AstarPlanner.fresh _
      (Or.inr (by decide!))⟩

/-- C7, as amended: for both planners, whenever the goal is found, no coordinate of the
reconstructed path other than the start cell classifies as Obstacle: a path coordinate
that is an Obstacle is the start. -/
theorem path_avoids_obstacles (m : GlobalObstacleMap) (sd : DjikstraPlanner)
    (sa : AstarPlanner) (p : List (Int × Int))
    (h : foundPath (DjikstraPlanner.DjikstraPlanning sd m) = some p ∨
         foundPath (AstarPlanner.AstarPlanning sa m) = some p)
    (c : Int × Int) (hc : c ∈ p) (hob : m.checkCell c.1 c.2 = Cell.OBSTACLE) :
    c = (m.start_x, m.start_y) := by
  have hs : ∃ d, FoundSpec m d p := by
    rcases h with h | h
    · exact ⟨_, djikstra_found_spec sd m p h⟩
    · exact ⟨_, astar_found_spec sa m p h⟩
  obtain ⟨d, hs⟩ := hs
  obtain ⟨g, c0, tl, rfl, hg, _, _, _, hcells⟩ := hs.shape
  rcases List.mem_cons.1 hc with rfl | hc
  · rw [hg] at hob; exact absurd hob (by decide)
  · rcases (hcells c hc).2 with h1 | h1
    · exact h1
    · exact absurd hob h1.1

/-- C7, as amended, on the grid `obstacleStartMap`: the only Obstacle on the path found is
the start `(1, 1)`. -/
theorem path_avoids_obstacles_witness :
    (foundPath (DjikstraPlanner.DjikstraPlanning DjikstraPlanner.fresh obstacleStartMap)
        = some [(3, 3), (2, 2), (1, 1)] ∧
      ((1 : Int), (1 : Int)) ∈ [((3 : Int), (3 : Int)), (2, 2), (1, 1)] ∧
      obstacleStartMap.checkCell 1 1 = Cell.OBSTACLE ∧
      ((1 : Int), (1 : Int)) = (obstacleStartMap.start_x, obstacleStartMap.start_y)) ∧
    (foundPath (AstarPlanner.AstarPlanning AstarPlanner.fresh obstacleStartMap)
        = some [(3, 3), (2, 2), (1, 1)] ∧
      ((1 : Int), (1 : Int)) = (obstacleStartMap.start_x, obstacleStartMap.start_y)) :=
  ⟨⟨by decide!, by decide, by decide,
    path_avoids_obstacles obstacleStartMap DjikstraPlanner.fresh AstarPlanner.fresh
      [(3, 3), (2, 2), (1, 1)] (Or.inl (by decide!)) (1, 1) (by decide) (by decide)⟩,
   ⟨by decide!,
    path_avoids_obstacles obstacleStartMap DjikstraPlanner.fresh AstarPlanner.fresh
      [(3, 3), (2, 2), (1, 1)] (Or.inr (by decide!)) (1, 1) (by decide) (by decide)⟩⟩

/-- C7 fails as stated: on a grid whose start cell is listed as an Obstacle both planners
find a path, and its start coordinate classifies as Obstacle. -/
theorem path_avoids_obstacles_counterexample :
    foundPath (DjikstraPlanner.DjikstraPlanning DjikstraPlanner.fresh obstacleStartMap)
      = some [(3, 3), (2, 2), (1, 1)] ∧
    foundPath (AstarPlanner.AstarPlanning AstarPlanner.fresh obstacleStartMap)
      = some [(3, 3), (2, 2), (1, 1)] ∧
    obstacleStartMap.checkCell 1 1 = Cell.OBSTACLE := by
  decide!

theorem pqPop_singleton (n cur : NodePtr) (rest : List NodePtr)
    (h : pqPop [n] = some (cur, rest)) : cur = n ∧ rest = [] := by
  simp [pqPop] at h
  exact ⟨h.1.symm, h.2⟩

theorem loopWith_start (m : GlobalObstacleMap)
    (exp : NodePtr → SearchState → Except Fault SearchState)
    (hrel : ∀ cur st st1, exp cur st = Except.ok st1 → ExpandRel m cur motions st st1)
    (fuel : Nat) (st st1 : SearchState) (h : StartInv m st)
    (hrun : loopWith exp fuel st = Except.ok st1) :
    tableGet st1.visited m.start_x m.start_y = some 1 ∧
      st1.annotated.head? = some (m.start_x, m.start_y) := by
  refine loopWith_post exp (StartInv m)
    (fun s => tableGet s.visited m.start_x m.start_y = some 1 ∧
      s.annotated.head? = some (m.start_x, m.start_y)) ?_ ?_ ?_ fuel st st1 h hrun
  · intro s hP hpop
    rcases hP with ⟨hn, _, _⟩ | hP
    · rw [hn] at hpop; simp [pqPop] at hpop
    · exact hP
  · intro s cur rest t hP hpop ht hne
    rcases hP with ⟨hn, _, hv⟩ | hP
    · rw [hn] at hpop
      obtain ⟨rfl, _⟩ := pqPop_singleton _ _ _ hpop
      simp only [NodePtr.x, NodePtr.y] at ht
      rw [hv] at ht
      simp at ht
      exact absurd ht.symm hne
    · exact Or.inr hP
  · intro s cur rest tr s1 hP hpop ht htr hexp
    have r := hrel _ _ _ hexp
    have key : tableGet s1.visited m.start_x m.start_y = some 1 ∧
        s1.annotated.head? = some (m.start_x, m.start_y) := by
      rw [r.visited_eq, r.annotated_eq]
      simp only [enter]
      rcases hP with ⟨hn, ha, hv⟩ | ⟨hv, ha⟩
      · rw [hn] at hpop
        obtain ⟨rfl, _⟩ := pqPop_singleton _ _ _ hpop
        simp only [NodePtr.x, NodePtr.y] at htr ⊢
        exact ⟨tableGet_set_same _ _ _ _ _ htr, by simp [ha]⟩
      · refine ⟨?_, ?_⟩
        · rw [tableGet_set_other _ _ _ _ _ htr]
          · exact hv
          · rintro ⟨hx, hy⟩
            rw [hx, hy, ht] at hv
            simp at hv
        · cases hann : s.annotated with
          | nil => rw [hann] at ha; simp at ha
          | cons a l => rw [hann] at ha; simpa using ha
    exact ⟨fun _ => key, fun _ => Or.inr key⟩

theorem tableGet_replicate {α : Type} (W H : Nat) (v w : α) (x y : Int)
    (h : tableGet (List.replicate W (List.replicate H v)) x y = some w) : w = v := by
  unfold tableGet at h
  split at h
  · simp at h
  · split at h
    · simp at h
    · rename_i row hrow
      simp only [List.get?_eq_getElem?, List.getElem?_replicate] at hrow h
      split at hrow
      · simp at hrow
        subst hrow
        simp only [List.getElem?_replicate] at h
        split at h
        · simp at h
          exact h.symm
        · simp at h
      · simp at hrow

theorem djikstra_init_start (m : GlobalObstacleMap) (st : SearchState)
    (h : DjikstraPlanner.init m = Except.ok st) : StartInv m st := by
  unfold DjikstraPlanner.init at h
  simp only at h
  split at h
  · simp at h
  · rename_i pc hpc
    simp at h
    subst h
    left
    refine ⟨by simp [pqPush], rfl, ?_⟩
    simp only
    have hin := (tableSet_isSome_iff _ _ _ _).1 ⟨pc, hpc⟩
    have hd : dims (List.replicate m.map_size_x (List.replicate m.map_size_y (0 : Int)))
        = dims (List.replicate m.map_size_x (List.replicate m.map_size_y Cost.zero)) := by
      simp [dims]
    rw [← hd] at hin
    obtain ⟨v, hv⟩ := (tableGet_isSome_iff _ _ _).2 hin
    rw [hv, tableGet_replicate _ _ _ _ _ _ hv]

theorem astar_init_start (m : GlobalObstacleMap) (st : SearchState)
    (h : AstarPlanner.init AstarPlanner.fresh m = Except.ok st) : StartInv m st := by
  unfold AstarPlanner.init at h
  simp only [AstarPlanner.fresh, List.nil_append] at h
  split at h
  · simp at h
  · rename_i pc hpc
    simp at h
    subst h
    left
    refine ⟨by simp [pqPush], rfl, ?_⟩
    simp only
    have hin := (tableSet_isSome_iff _ _ _ _).1 ⟨pc, hpc⟩
    have hd : dims (List.replicate m.map_size_x (List.replicate m.map_size_y (0 : Int)))
        = dims (List.replicate m.map_size_x (List.replicate m.map_size_y Cost.intMax)) := by
      simp [dims]
    rw [← hd] at hin
    obtain ⟨v, hv⟩ := (tableGet_isSome_iff _ _ _).2 hin
    rw [hv, tableGet_replicate _ _ _ _ _ _ hv]

/-- C8, as amended: neither planner checks the start or the goal. Whenever a planning call
completes (on any `DjikstraPlanner`, on a new `AstarPlanner`), whatever the start cell
classifies as, the start cell has been marked Visited and was the first cell expanded. -/
theorem start_is_expanded_unchecked (m : GlobalObstacleMap) (sd : DjikstraPlanner)
    (r : PlanResult)
    (h : (∃ s, DjikstraPlanner.DjikstraPlanning sd m = Except.ok (r, s)) ∨
         (∃ s, AstarPlanner.AstarPlanning AstarPlanner.fresh m = Except.ok (r, s))) :
    tableGet r.visited m.start_x m.start_y = some 1 ∧
    r.annotated.head? = some (m.start_x, m.start_y) := by
  rcases h with ⟨s, h⟩ | ⟨s, h⟩
  · obtain ⟨st0, st, h0, hrun, rfl⟩ := djikstra_run sd m r s h
    exact loopWith_start m _ (djikstra_expand_rel8 m) _ _ _ (djikstra_init_start m st0 h0) hrun
  · obtain ⟨st0, st, h0, hrun, rfl⟩ := astar_run _ m r s h
    exact loopWith_start m _ (astar_expand_rel8 m) _ _ _ (astar_init_start m st0 h0) hrun

/-- C8, as amended, on the grid `obstacleStartMap`: the call completes with the start,
an Obstacle cell, marked Visited and expanded first. -/
theorem start_is_expanded_unchecked_witness :
    ∃ r, ((∃ s, DjikstraPlanner.DjikstraPlanning DjikstraPlanner.fresh obstacleStartMap
              = Except.ok (r, s)) ∨
          (∃ s, AstarPlanner.AstarPlanning AstarPlanner.fresh obstacleStartMap
              = Except.ok (r, s))) ∧
      tableGet r.visited obstacleStartMap.start_x obstacleStartMap.start_y = some 1 ∧
      r.annotated.head? = some (obstacleStartMap.start_x, obstacleStartMap.start_y) := by
  have hok : ∃ v, AstarPlanner.AstarPlanning AstarPlanner.fresh obstacleStartMap
      = Except.ok v := by
    have hv : visitedAt (AstarPlanner.AstarPlanning AstarPlanner.fresh obstacleStartMap) 1 1
        = some 1 := by decide!
    cases h : AstarPlanner.AstarPlanning AstarPlanner.fresh obstacleStartMap with
    | error e => rw [h] at hv; simp [visitedAt] at hv
    | ok v => exact ⟨v, rfl⟩
  obtain ⟨⟨r, s⟩, h⟩ := hok
  exact ⟨r, Or.inr ⟨s, h⟩,
    start_is_expanded_unchecked obstacleStartMap DjikstraPlanner.fresh r (Or.inr ⟨s, h⟩)⟩

/-- C8 fails as stated: with the start on an Obstacle cell neither planner rejects the
input; the start cell is marked Visited and is the first of four cells expanded, and a
path is returned. -/
theorem invalid_start_counterexample :
    obstacleStartMap.checkCell obstacleStartMap.start_x obstacleStartMap.start_y
      = Cell.OBSTACLE ∧
    (visitedAt (DjikstraPlanner.DjikstraPlanning DjikstraPlanner.fresh obstacleStartMap) 1 1
        = some 1 ∧
      (expandedCells
          (DjikstraPlanner.DjikstraPlanning DjikstraPlanner.fresh obstacleStartMap)).map
        (fun l => (l.head?, l.length)) = some (some (1, 1), 4) ∧
      foundPath (DjikstraPlanner.DjikstraPlanning DjikstraPlanner.fresh obstacleStartMap)
        = some [(3, 3), (2, 2), (1, 1)]) ∧
    (visitedAt (AstarPlanner.AstarPlanning AstarPlanner.fresh obstacleStartMap) 1 1
        = some 1 ∧
      (expandedCells (AstarPlanner.AstarPlanning AstarPlanner.fresh obstacleStartMap)).map
        (fun l => (l.head?, l.length)) = some (some (1, 1), 4) ∧
      foundPath (AstarPlanner.AstarPlanning AstarPlanner.fresh obstacleStartMap)
        = some [(3, 3), (2, 2), (1, 1)]) :=
  ⟨by decide, ⟨by decide!, by decide!, by decide!⟩, ⟨by decide!, by decide!, by decide!⟩⟩

theorem motionCost_of_offset : ∀ o ∈ offsets,
    motionCost o.1 o.2 = Cost.one ∨ motionCost o.1 o.2 = Cost.sqrt2 := by
  decide

theorem motionCost_of_isMotion (a b : Int × Int) (h : IsMotion a b) :
    motionCost (a.1 - b.1) (a.2 - b.2) = Cost.one ∨
    motionCost (a.1 - b.1) (a.2 - b.2) = Cost.sqrt2 :=
  motionCost_of_offset (a.1 - b.1, a.2 - b.2) h

theorem not_isMotion_self (a : Int × Int) : ¬ IsMotion a a := by
  unfold IsMotion
  have h0 : (a.1 - a.1, a.2 - a.2) = ((0 : Int), (0 : Int)) := by simp
  rw [h0]
  decide

/-- The cost of a path made of motions has non-negative parts that add up to its number
of steps. -/
theorem pathCost_steps : ∀ p : List (Int × Int), List.Chain' IsMotion p →
    0 ≤ (pathCost p).a ∧ 0 ≤ (pathCost p).b ∧
    (pathCost p).a + (pathCost p).b + 1 = max 1 (p.length : Int) := by
  intro p
  induction p with
  | nil => intro _; simp [pathCost, Cost.zero]
  | cons a tl ih =>
    intro h
    cases tl with
    | nil => simp [pathCost, Cost.zero]
    | cons b tl =>
      have hstep : IsMotion a b := (List.chain'_cons.1 h).1
      have htl := ih (List.chain'_cons.1 h).2
      simp only [pathCost, Cost.add]
      simp only [List.length_cons] at htl ⊢
      rcases motionCost_of_isMotion a b hstep with hc | hc <;> rw [hc] <;>
        simp only [Cost.one, Cost.sqrt2] <;> omega

theorem cost_le_two (c : Cost) (ha : 0 ≤ c.a) (hb : 0 ≤ c.b) (hab : 2 ≤ c.a + c.b) :
    Cost.le ⟨2, 0⟩ c = true := by
  obtain ⟨a, b⟩ := c
  simp only at ha hb hab
  simp only [Cost.le, Cost.lt, Cost.isPos, Bool.not_eq_true']
  by_cases h1 : 0 ≤ 2 - a ∧ 0 ≤ 0 - b
  · have hb0 : b = 0 := by omega
    have ha2 : a = 2 := by omega
    subst hb0 ha2
    decide
  · rw [if_neg h1]
    by_cases h2 : 0 ≤ 2 - a
    · rw [if_pos h2]
      have hb1 : 1 ≤ b := by omega
      apply decide_eq_false
      have ha3 : a = 0 ∨ a = 1 ∨ a = 2 := by omega
      rcases ha3 with rfl | rfl | rfl
      · have : 2 ≤ b := by omega
        nlinarith
      · nlinarith
      · nlinarith
    · rw [if_neg h2]
      by_cases h3 : 0 ≤ 0 - b
      · rw [if_pos h3]
        have hb0 : b = 0 := by omega
        subst hb0
        apply decide_eq_false
        nlinarith
      · rw [if_neg h3]

theorem mkMap_goal (W H : Nat) (sx sy gx gy : Int) (obstacles : List (Int × Int))
    (h : Int → Int → Cost) (x y : Int)
    (hg : (mkMap W H sx sy gx gy obstacles h).checkCell x y = Cell.GOAL) :
    x = gx ∧ y = gy := by
  simp only [mkMap] at hg
  split at hg
  · assumption
  · split at hg <;> simp at hg

/-- C9, as amended: for both planners, when the start cell is the goal cell the goal is
not recognised at the start itself; a path that is found leaves the start and returns to
it, so it has at least 3 coordinates, begins and ends at the start, and costs at least 2
(never the single coordinate at cost 0). -/
theorem start_equals_goal_path (m : GlobalObstacleMap) (sd : DjikstraPlanner)
    (sa : AstarPlanner) (p : List (Int × Int))
    (hgoal : ∀ x y, m.checkCell x y = Cell.GOAL → x = m.goal_x ∧ y = m.goal_y)
    (hsx : m.start_x = m.goal_x) (hsy : m.start_y = m.goal_y)
    (h : foundPath (DjikstraPlanner.DjikstraPlanning sd m) = some p ∨
         foundPath (AstarPlanner.AstarPlanning sa m) = some p) :
    3 ≤ p.length ∧ p.head? = some (m.start_x, m.start_y) ∧
    p.getLast? = some (m.start_x, m.start_y) ∧
    Cost.le ⟨2, 0⟩ (pathCost p) = true ∧ pathCost p ≠ Cost.zero := by
  have hs : ∃ d, FoundSpec m d p := by
    rcases h with h | h
    · exact ⟨_, djikstra_found_spec sd m p h⟩
    · exact ⟨_, astar_found_spec sa m p h⟩
  obtain ⟨d, hs⟩ := hs
  obtain ⟨g, c, tl, rfl, hg, hstep, hchain, hlast, _⟩ := hs.shape
  have hgs : g = (m.start_x, m.start_y) := by
    obtain ⟨h1, h2⟩ := hgoal g.1 g.2 hg
    rw [hsx, hsy, ← h1, ← h2]
  have htl : tl ≠ [] := by
    rintro rfl
    simp at hlast
    rw [hlast, hgs] at hstep
    exact not_isMotion_self _ hstep
  have hlen : 3 ≤ (g :: c :: tl).length := by
    cases tl with
    | nil => exact absurd rfl htl
    | cons a l => simp
  have hch : List.Chain' IsMotion (g :: c :: tl) := List.Chain'.cons hstep hchain
  obtain ⟨ha, hb, hab⟩ := pathCost_steps _ hch
  have hle : Cost.le ⟨2, 0⟩ (pathCost (g :: c :: tl)) = true :=
    cost_le_two _ ha hb (by omega)
  refine ⟨hlen, by rw [hgs]; rfl, by rw [List.getLast?_cons_cons]; exact hlast, hle, ?_⟩
  intro hz
  rw [hz] at hle
  exact absurd hle (by decide)

/-- C9, as amended, on the grid `startGoalMap`: the path found is `(2, 2), (3, 2), (2, 2)`. -/
theorem start_equals_goal_path_witness :
    (foundPath (DjikstraPlanner.DjikstraPlanning DjikstraPlanner.fresh startGoalMap)
        = some [(2, 2), (3, 2), (2, 2)] ∧
     foundPath (AstarPlanner.AstarPlanning AstarPlanner.fresh startGoalMap)
        = some [(2, 2), (3, 2), (2, 2)]) ∧
    (3 ≤ [((2 : Int), (2 : Int)), (3, 2), (2, 2)].length ∧
     [((2 : Int), (2 : Int)), (3, 2), (2, 2)].head?
        = some (startGoalMap.start_x, startGoalMap.start_y) ∧
     [((2 : Int), (2 : Int)), (3, 2), (2, 2)].getLast?
        = some (startGoalMap.start_x, startGoalMap.start_y) ∧
     Cost.le ⟨2, 0⟩ (pathCost [((2 : Int), (2 : Int)), (3, 2), (2, 2)]) = true ∧
     pathCost [((2 : Int), (2 : Int)), (3, 2), (2, 2)] ≠ Cost.zero) :=
  ⟨⟨by decide!, by decide!⟩,
   start_equals_goal_path startGoalMap DjikstraPlanner.fresh AstarPlanner.fresh _
     (fun x y hg => mkMap_goal _ _ _ _ _ _ _ _ x y hg)
     rfl rfl (Or.inr (by decide!))⟩

/-- C9 fails as stated: on a grid whose start cell is its goal cell both planners return
a path of 3 coordinates at cost 2, not the single start coordinate at cost 0. -/
theorem start_equals_goal_counterexample :
    (startGoalMap.start_x, startGoalMap.start_y) = (startGoalMap.goal_x, startGoalMap.goal_y) ∧
    startGoalMap.checkCell startGoalMap.start_x startGoalMap.start_y = Cell.GOAL ∧
    foundPath (DjikstraPlanner.DjikstraPlanning DjikstraPlanner.fresh startGoalMap)
      = some [(2, 2), (3, 2), (2, 2)] ∧
    foundPath (AstarPlanner.AstarPlanning AstarPlanner.fresh startGoalMap)
      = some [(2, 2), (3, 2), (2, 2)] ∧
    pathCost [(2, 2), (3, 2), (2, 2)] = ⟨2, 0⟩ := by
  decide!

/-- The method `DjikstraPlanning` does not read the members of its planner object. -/
theorem djikstra_ignores_self (s1 s2 : DjikstraPlanner) (m : GlobalObstacleMap) :
    outcome (DjikstraPlanner.DjikstraPlanning s1 m)
      = outcome (DjikstraPlanner.DjikstraPlanning s2 m) := rfl

/-- C5: the second of two successive calls of `AstarPlanning` on one planner object with
the same grid does not repeat the first: the first call finds the 5-cell path, the second
pops the start node, finds the start cell already closed and ends with no terminal node.
For `DjikstraPlanning` the second call repeats the first. -/
theorem astar_second_call_differs :
    outcome (AstarPlanner.AstarPlanning AstarPlanner.fresh openMap)
      = some (true, some [(5, 5), (4, 4), (3, 3), (2, 2), (1, 1)]) ∧
    outcome (AstarPlanner.secondCall AstarPlanner.fresh openMap) = some (false, none) ∧
    expandedCells (AstarPlanner.secondCall AstarPlanner.fresh openMap) = some [] ∧
    outcome (DjikstraPlanner.secondCall DjikstraPlanner.fresh openMap)
      = outcome (DjikstraPlanner.DjikstraPlanning DjikstraPlanner.fresh openMap) :=
  ⟨by decide!, by decide!, by decide!, by decide!⟩

theorem inDims_gridDims (m : GlobalObstacleMap) (x y : Int) :
    inDims (gridDims m) x y ↔
      0 ≤ x ∧ x < m.map_size_x ∧ 0 ≤ y ∧ y < m.map_size_y := by
  unfold inDims gridDims
  simp only [List.get?_eq_getElem?, List.getElem?_replicate]
  constructor
  · rintro ⟨hx, hy, h, hh, hlt⟩
    split at hh
    · simp at hh
      subst hh
      omega
    · simp at hh
  · rintro ⟨hx, hx2, hy, hy2⟩
    refine ⟨hx, hy, m.map_size_y, ?_, by omega⟩
    rw [if_pos (by omega)]

theorem motion_bound : ∀ mo ∈ motions,
    -1 ≤ mo.x ∧ mo.x ≤ 1 ∧ -1 ≤ mo.y ∧ mo.y ≤ 1 := by
  decide

theorem chainOK_head {m : GlobalObstacleMap} {d : List Nat} (n : NodePtr)
    (h : ChainOK m d n) (hs : m.checkCell m.start_x m.start_y ≠ Cell.OBSTACLE) :
    inDims d n.x n.y ∧ m.checkCell n.x n.y ≠ Cell.OBSTACLE := by
  cases n with
  | null => exact h.elim
  | mk x y c pre =>
    obtain ⟨hd, h | ⟨_, _, ho, _⟩⟩ := h
    · obtain ⟨_, rfl, rfl⟩ := h
      exact ⟨hd, hs⟩
    · exact ⟨hd, ho⟩

/-- In a bordered grid a cell of the grid that is not an Obstacle has its 8 neighbours in
the grid. -/
theorem interior_of_free (m : GlobalObstacleMap) (hb : Bordered m) (x y : Int)
    (hin : inDims (gridDims m) x y) (hfree : m.checkCell x y ≠ Cell.OBSTACLE)
    (mo : Motion) (hmo : mo ∈ motions) :
    inDims (gridDims m) (x + mo.x) (y + mo.y) := by
  rw [inDims_gridDims] at hin ⊢
  obtain ⟨h1, h2, h3, h4⟩ := hin
  obtain ⟨b1, b2, b3, b4⟩ := motion_bound mo hmo
  have hx0 : x ≠ 0 := fun h => hfree (hb x y h1 h2 h3 h4 (Or.inl h))
  have hx1 : x ≠ m.map_size_x - 1 := fun h => hfree (hb x y h1 h2 h3 h4 (Or.inr (Or.inl h)))
  have hy0 : y ≠ 0 := fun h => hfree (hb x y h1 h2 h3 h4 (Or.inr (Or.inr (Or.inl h))))
  have hy1 : y ≠ m.map_size_y - 1 :=
    fun h => hfree (hb x y h1 h2 h3 h4 (Or.inr (Or.inr (Or.inr h))))
  omega

theorem tableGet_of_inDims {α : Type} (t : List (List α)) (d : List Nat) (hd : dims t = d)
    (x y : Int) (h : inDims d x y) : ∃ v, tableGet t x y = some v :=
  (tableGet_isSome_iff t x y).2 (hd ▸ h)

theorem tableSet_of_inDims {α : Type} (t : List (List α)) (d : List Nat) (hd : dims t = d)
    (x y : Int) (v : α) (h : inDims d x y) : ∃ t1, tableSet t x y v = some t1 :=
  (tableSet_isSome_iff t x y v).2 (hd ▸ h)

theorem djikstra_expand_ok (m : GlobalObstacleMap) (d : List Nat) (current : NodePtr)
    (hcur : inDims d current.x current.y)
    (hnb : ∀ mo ∈ motions, inDims d (current.x + mo.x) (current.y + mo.y)) :
    ∀ (ms : List Motion) (st : SearchState), (∀ mo ∈ ms, mo ∈ motions) →
      dims st.visited = d → dims st.path_cost = d →
      ∃ st1, DjikstraPlanner.expand m current ms st = Except.ok st1 := by
  intro ms
  induction ms with
  | nil => intro st _ _ _; exact ⟨st, rfl⟩
  | cons mo rest ih =>
    intro st hms hv hp
    have hmo : mo ∈ motions := hms mo (List.mem_cons_self _ _)
    have hrest : ∀ k ∈ rest, k ∈ motions := fun k hk => hms k (List.mem_cons_of_mem _ hk)
    unfold DjikstraPlanner.expand
    simp only
    obtain ⟨cpc, hcpc⟩ := tableGet_of_inDims st.path_cost d hp _ _ hcur
    rw [hcpc]
    simp only
    split
    · exact ⟨_, rfl⟩
    · obtain ⟨t, ht⟩ := tableGet_of_inDims st.visited d hv _ _ (hnb mo hmo)
      rw [ht]
      simp only
      split
      · exact ih st hrest hv hp
      · obtain ⟨pc, hpc⟩ := tableSet_of_inDims st.path_cost d hp _ _
          (Cost.add cpc mo.cost) (hnb mo hmo)
        rw [hpc]
        simp only
        exact ih _ hrest hv (by rw [← hp]; exact tableSet_dims _ _ _ _ _ hpc)

theorem astar_expand_ok (m : GlobalObstacleMap) (d : List Nat) (current : NodePtr)
    (hcur : inDims d current.x current.y)
    (hnb : ∀ mo ∈ motions, inDims d (current.x + mo.x) (current.y + mo.y)) :
    ∀ (ms : List Motion) (st : SearchState), (∀ mo ∈ ms, mo ∈ motions) →
      dims st.visited = d → dims st.path_cost = d →
      ∃ st1, AstarPlanner.expand m current ms st = Except.ok st1 := by
  intro ms
  induction ms with
  | nil => intro st _ _ _; exact ⟨st, rfl⟩
  | cons mo rest ih =>
    intro st hms hv hp
    have hmo : mo ∈ motions := hms mo (List.mem_cons_self _ _)
    have hrest : ∀ k ∈ rest, k ∈ motions := fun k hk => hms k (List.mem_cons_of_mem _ hk)
    unfold AstarPlanner.expand
    simp only
    obtain ⟨cpc, hcpc⟩ := tableGet_of_inDims st.path_cost d hp _ _ hcur
    rw [hcpc]
    simp only
    split
    · exact ⟨_, rfl⟩
    · obtain ⟨t, ht⟩ := tableGet_of_inDims st.visited d hv _ _ (hnb mo hmo)
      rw [ht]
      simp only
      split
      · exact ih st hrest hv hp
      · obtain ⟨old, hold⟩ := tableGet_of_inDims st.path_cost d hp _ _ (hnb mo hmo)
        rw [hold]
        simp only
        obtain ⟨pc, hpc⟩ := tableSet_of_inDims st.path_cost d hp _ _
          (Cost.min old (Cost.add cpc mo.cost)) (hnb mo hmo)
        rw [hpc]
        simp only
        exact ih _ hrest hv (by rw [← hp]; exact tableSet_dims _ _ _ _ _ hpc)

theorem pqPop_none (q : List NodePtr) (h : pqPop q = none) : q = [] := by
  cases q with
  | nil => rfl
  | cons a q =>
    unfold pqPop at h
    split at h
    · simp at h
    · split at h <;> simp at h

theorem Closed.discard_pop {m : GlobalObstacleMap} {st : SearchState} {cur : NodePtr}
    {rest : List NodePtr} {t : Int} (h : Closed m st)
    (hpop : pqPop st.nodes = some (cur, rest))
    (ht : tableGet st.visited cur.x cur.y = some t) (hne : t ≠ 0) :
    Closed m { st with nodes := rest } := by
  have hall := (pqPop_mem _ _ _ hpop).2.2.2
  refine ⟨?_, ?_⟩
  · rcases h.start_seen with hl | ⟨n, hn, hx, hy⟩
    · exact Or.inl hl
    · rcases hall n hn with rfl | hr
      · exact Or.inl ⟨t, by rw [← hx, ← hy]; exact ht, hne⟩
      · exact Or.inr ⟨n, hr, hx, hy⟩
  · intro x y v hv hv0 mo hmo
    obtain ⟨hg, hc⟩ := h.covered x y v hv hv0 mo hmo
    refine ⟨hg, ?_⟩
    rcases hc with ho | hvis | ⟨n, hn, hx, hy⟩
    · exact Or.inl ho
    · exact Or.inr (Or.inl hvis)
    · rcases hall n hn with rfl | hr
      · exact Or.inr (Or.inl ⟨t, by rw [← hx, ← hy]; exact ht, hne⟩)
      · exact Or.inr (Or.inr ⟨n, hr, hx, hy⟩)

theorem Closed.expand_step {m : GlobalObstacleMap} {st st1 : SearchState} {cur : NodePtr}
    {rest : List NodePtr} {tr : List (List Int)} (h : Closed m st)
    (hpop : pqPop st.nodes = some (cur, rest))
    (ht : tableGet st.visited cur.x cur.y = some 0)
    (htr : tableSet st.visited cur.x cur.y 1 = some tr)
    (hrel : ExpandRel m cur motions (enter st cur rest tr) st1)
    (hflag : st1.ending_flag = false) : Closed m st1 := by
  have hall := (pqPop_mem _ _ _ hpop).2.2.2
  obtain ⟨l, hl, _, _⟩ := hrel.pushed
  have hnodes : ∀ n ∈ rest, n ∈ st1.nodes := by
    intro n hn
    rw [hl]
    exact List.mem_append_left _ hn
  have hcurv : tableGet tr cur.x cur.y = some 1 := tableGet_set_same _ _ _ _ _ htr
  have hmono : ∀ x y v, tableGet st.visited x y = some v → v ≠ 0 →
      tableGet tr x y = some v := by
    intro x y v hv hv0
    rw [tableGet_set_other _ _ _ _ _ htr]
    · exact hv
    · rintro ⟨hx, hy⟩
      rw [hx, hy, ht] at hv
      simp at hv
      exact hv0 hv.symm
  have hcov : ∀ mo ∈ motions, Covered m cur.x cur.y tr st1.nodes mo := by
    rcases hrel.final with ⟨_, _, h3⟩ | ⟨h1, _⟩
    · exact h3
    · rw [h1] at hflag; simp at hflag
  have hvis1 : st1.visited = tr := hrel.visited_eq
  refine ⟨?_, ?_⟩
  · rw [hvis1]
    rcases h.start_seen with ⟨t, ht1, ht0⟩ | ⟨n, hn, hx, hy⟩
    · exact Or.inl ⟨t, hmono _ _ _ ht1 ht0, ht0⟩
    · rcases hall n hn with rfl | hr
      · exact Or.inl ⟨1, by rw [← hx, ← hy]; exact hcurv, by decide⟩
      · exact Or.inr ⟨n, hnodes n hr, hx, hy⟩
  · intro x y v hv hv0 mo hmo
    rw [hvis1] at hv ⊢
    by_cases hxy : x = cur.x ∧ y = cur.y
    · obtain ⟨rfl, rfl⟩ := hxy
      exact hcov mo hmo
    · rw [tableGet_set_other _ _ _ _ _ htr _ _ hxy] at hv
      obtain ⟨hg, hc⟩ := h.covered x y v hv hv0 mo hmo
      refine ⟨hg, ?_⟩
      rcases hc with ho | ⟨t, ht1, ht0⟩ | ⟨n, hn, hx, hy⟩
      · exact Or.inl ho
      · exact Or.inr (Or.inl ⟨t, hmono _ _ _ ht1 ht0, ht0⟩)
      · rcases hall n hn with rfl | hr
        · exact Or.inr (Or.inl ⟨1, by rw [← hx, ← hy]; exact hcurv, by decide⟩)
        · exact Or.inr (Or.inr ⟨n, hnodes n hr, hx, hy⟩)

/-- On a bordered grid with a valid start the loop of either planner returns: with the
goal found, or with the frontier exhausted. -/
theorem loopWith_bordered (m : GlobalObstacleMap)
    (exp : NodePtr → SearchState → Except Fault SearchState)
    (hrel : ∀ cur st st1, exp cur st = Except.ok st1 → ExpandRel m cur motions st st1)
    (hok : ∀ cur st, inDims (gridDims m) cur.x cur.y →
      (∀ mo ∈ motions, inDims (gridDims m) (cur.x + mo.x) (cur.y + mo.y)) →
      dims st.visited = gridDims m → dims st.path_cost = gridDims m →
      ∃ st1, exp cur st = Except.ok st1)
    (hb : Bordered m) (hs : StartOK m) (fuel : Nat) (st : SearchState)
    (hP : RunInv m st) (hfuel : 9 * unvisited st.visited + st.nodes.length < fuel) :
    ∃ st1, loopWith exp fuel st = Except.ok st1 ∧ RunPost m st1 := by
  refine loopWith_total m exp hrel (RunInv m) (RunPost m) ?_ ?_ ?_ ?_ fuel st hP hfuel
  · intro s hP hpop
    exact ⟨hP.inv, Or.inr ⟨pqPop_none _ hpop, hP.flag, hP.final, hP.closed⟩⟩
  · intro s cur rest t hP hpop ht hne
    exact ⟨hP.inv.discard hpop, hP.dims_vis, hP.flag, hP.final, hP.closed.discard_pop hpop ht hne⟩
  · intro s cur rest tr s1 hP hpop ht htr hexp
    have r := hrel _ _ _ hexp
    have hinv := hP.inv.expand hpop r
    refine ⟨fun hflag => ⟨hinv, Or.inl hflag⟩, fun hflag => ?_⟩
    refine ⟨hinv, ?_, hflag, ?_, hP.closed.expand_step hpop ht htr r hflag⟩
    · rw [r.visited_eq]
      simp only [enter]
      rw [tableSet_dims _ _ _ _ _ htr]
      exact hP.dims_vis
    · rcases r.final with ⟨_, h2, _⟩ | ⟨h1, _⟩
      · rw [h2]; exact hP.final
      · rw [h1] at hflag; simp at hflag
  · intro s cur rest hP hpop
    have hcur := hP.inv.nodes_ok cur (pqPop_mem _ _ _ hpop).1
    obtain ⟨hin, hfree⟩ := chainOK_head cur hcur hs.2.2.2.2
    refine ⟨tableGet_of_inDims _ _ hP.dims_vis _ _ hin, ?_⟩
    intro tr htr
    apply hok cur _ hin (fun mo hmo => interior_of_free m hb _ _ hin hfree mo hmo)
    · simp only [enter]
      rw [tableSet_dims _ _ _ _ _ htr]
      exact hP.dims_vis
    · simp only [enter]
      exact hP.inv.dims_pc

theorem djikstra_init_run (m : GlobalObstacleMap) (hs : StartOK m) :
    ∃ st0, DjikstraPlanner.init m = Except.ok st0 ∧ RunInv m st0 := by
  have hin : inDims (gridDims m) m.start_x m.start_y :=
    (inDims_gridDims m _ _).2 ⟨hs.1, hs.2.1, hs.2.2.1, hs.2.2.2.1⟩
  have hd0 : dims (List.replicate m.map_size_x (List.replicate m.map_size_y Cost.zero))
      = gridDims m := by simp [dims, gridDims]
  obtain ⟨pc, hpc⟩ := tableSet_of_inDims _ _ hd0 m.start_x m.start_y Cost.zero hin
  have h0 : DjikstraPlanner.init m = Except.ok
      { visited := List.replicate m.map_size_x (List.replicate m.map_size_y (0 : Int)),
        path_cost := pc,
        nodes := pqPush [] (NodePtr.mk m.start_x m.start_y Cost.zero NodePtr.null),
        final := none, ending_flag := false, annotated := [] } := by
    unfold DjikstraPlanner.init
    simp only
    rw [hpc]
  refine ⟨_, h0, djikstra_init_inv m _ h0, by simp [dims, gridDims], rfl, rfl, ?_, ?_⟩
  · exact Or.inr ⟨NodePtr.mk m.start_x m.start_y Cost.zero NodePtr.null, by simp [pqPush],
      rfl, rfl⟩
  · intro x y t ht ht0
    exact absurd (tableGet_replicate _ _ _ _ _ _ ht) ht0

theorem astar_init_run (m : GlobalObstacleMap) (hs : StartOK m) :
    ∃ st0, AstarPlanner.init AstarPlanner.fresh m = Except.ok st0 ∧ RunInv m st0 := by
  have hin : inDims (gridDims m) m.start_x m.start_y :=
    (inDims_gridDims m _ _).2 ⟨hs.1, hs.2.1, hs.2.2.1, hs.2.2.2.1⟩
  have hd0 : dims (List.replicate m.map_size_x (List.replicate m.map_size_y Cost.intMax))
      = gridDims m := by simp [dims, gridDims]
  obtain ⟨pc, hpc⟩ := tableSet_of_inDims _ _ hd0 m.start_x m.start_y Cost.zero hin
  have h0 : AstarPlanner.init AstarPlanner.fresh m = Except.ok
      { visited := List.replicate m.map_size_x (List.replicate m.map_size_y (0 : Int)),
        path_cost := pc,
        nodes := pqPush [] (NodePtr.mk m.start_x m.start_y Cost.zero NodePtr.null),
        final := none, ending_flag := false, annotated := [] } := by
    unfold AstarPlanner.init
    simp only [AstarPlanner.fresh, List.nil_append]
    rw [hpc]
  have hinv := astar_init_inv AstarPlanner.fresh m _ h0
  simp only [AstarPlanner.fresh, dims, List.map_nil, List.nil_append] at hinv
  refine ⟨_, h0, hinv, by simp [dims, gridDims], rfl, rfl, ?_, ?_⟩
  · exact Or.inr ⟨NodePtr.mk m.start_x m.start_y Cost.zero NodePtr.null, by simp [pqPush],
      rfl, rfl⟩
  · intro x y t ht ht0
    exact absurd (tableGet_replicate _ _ _ _ _ _ ht) ht0

/-- On a bordered grid with a valid start, `DjikstraPlanning` returns. -/
theorem djikstra_total (m : GlobalObstacleMap) (sd : DjikstraPlanner) (hb : Bordered m)
    (hs : StartOK m) :
    ∃ st s, DjikstraPlanner.DjikstraPlanning sd m = Except.ok (finish st, s) ∧
      RunPost m st := by
  obtain ⟨st0, h0, hP⟩ := djikstra_init_run m hs
  obtain ⟨st, hrun, hQ⟩ := loopWith_bordered m
    (fun c s => DjikstraPlanner.expand m c motions s) (djikstra_expand_rel8 m)
    (fun cur s hin hnb hv hp =>
      djikstra_expand_ok m _ cur hin hnb motions s (fun _ h => h) hv hp)
    hb hs (fuelFor st0) st0 hP (by unfold fuelFor; omega)
  refine ⟨st, { path_cost := st.path_cost, traversed := st.visited }, ?_, hQ⟩
  unfold DjikstraPlanner.DjikstraPlanning
  rw [h0]
  simp only
  rw [djikstra_loop_eq, hrun]

/-- On a bordered grid with a valid start, `AstarPlanning` on a new planner returns. -/
theorem astar_total (m : GlobalObstacleMap) (hb : Bordered m) (hs : StartOK m) :
    ∃ st s, AstarPlanner.AstarPlanning AstarPlanner.fresh m = Except.ok (finish st, s) ∧
      RunPost m st := by
  obtain ⟨st0, h0, hP⟩ := astar_init_run m hs
  obtain ⟨st, hrun, hQ⟩ := loopWith_bordered m
    (fun c s => AstarPlanner.expand m c motions s) (astar_expand_rel8 m)
    (fun cur s hin hnb hv hp =>
      astar_expand_ok m _ cur hin hnb motions s (fun _ h => h) hv hp)
    hb hs (fuelFor st0) st0 hP (by unfold fuelFor; omega)
  refine ⟨st, { close_list := st.visited, path_cost := st.path_cost }, ?_, hQ⟩
  unfold AstarPlanner.AstarPlanning
  rw [h0]
  simp only
  rw [astar_loop_eq, hrun]

/-- When the frontier is exhausted, every cell of a motion chain from the start through
non-Obstacle cells is visited and none is the Goal. -/
theorem closed_chain (m : GlobalObstacleMap) (st : SearchState) (hc : Closed m st)
    (hn : st.nodes = []) (hsg : m.checkCell m.start_x m.start_y ≠ Cell.GOAL) :
    ∀ l : List (Int × Int), List.Chain' IsMotion l →
      l.getLast? = some (m.start_x, m.start_y) →
      (∀ c ∈ l, m.checkCell c.1 c.2 ≠ Cell.OBSTACLE) →
      ∀ c ∈ l, m.checkCell c.1 c.2 ≠ Cell.GOAL ∧
        ∃ t, tableGet st.visited c.1 c.2 = some t ∧ t ≠ 0 := by
  have hstart : ∃ t, tableGet st.visited m.start_x m.start_y = some t ∧ t ≠ 0 := by
    rcases hc.start_seen with h | ⟨n, hmem, _⟩
    · exact h
    · rw [hn] at hmem; simp at hmem
  intro l
  induction l with
  | nil => intro _ _ _ c hcm; simp at hcm
  | cons a tl ih =>
    intro hchain hlast hfree c hcm
    cases tl with
    | nil =>
      simp at hlast hcm
      subst hcm
      rw [hlast]
      exact ⟨hsg, hstart⟩
    | cons b tl =>
      have htl := ih (List.chain'_cons.1 hchain).2
        (by rw [List.getLast?_cons_cons] at hlast; exact hlast)
        (fun c hc => hfree c (List.mem_cons_of_mem _ hc))
      rcases List.mem_cons.1 hcm with rfl | hcm
      · obtain ⟨_, t, ht, ht0⟩ := htl b (List.mem_cons_self _ _)
        have hstep : IsMotion c b := (List.chain'_cons.1 hchain).1
        simp only [IsMotion, offsets, List.mem_map] at hstep
        obtain ⟨mo, hmo, hmoeq⟩ := hstep
        have hx : b.1 + mo.x = c.1 := by
          have := congrArg Prod.fst hmoeq
          simp at this
          omega
        have hy : b.2 + mo.y = c.2 := by
          have := congrArg Prod.snd hmoeq
          simp at this
          omega
        obtain ⟨hg, hcov⟩ := hc.covered b.1 b.2 t ht ht0 mo hmo
        rw [hx, hy] at hg hcov
        refine ⟨hg, ?_⟩
        rcases hcov with ho | hv | ⟨n, hmem, _⟩
        · exact absurd ho (hfree c (List.mem_cons_self _ _))
        · exact hv
        · rw [hn] at hmem; simp at hmem
      · exact htl c hcm

/-- When the frontier is exhausted, the goal cannot be reached from the start. -/
theorem closed_unreachable (m : GlobalObstacleMap) (st : SearchState) (hc : Closed m st)
    (hn : st.nodes = []) (hsg : m.checkCell m.start_x m.start_y ≠ Cell.GOAL) :
    ¬ Reachable m := by
  rintro ⟨q, ⟨g, hg, hgoal⟩, hlast, hchain, hfree⟩
  cases q with
  | nil => simp at hg
  | cons a tl =>
    simp at hg
    subst hg
    exact (closed_chain m st hc hn hsg _ hchain hlast hfree a (List.mem_cons_self _ _)).1 hgoal

theorem sqrt2_sq : Real.sqrt 2 * Real.sqrt 2 = 2 := Real.mul_self_sqrt (by norm_num)

theorem sqrt2_pos : 0 < Real.sqrt 2 := Real.sqrt_pos.2 (by norm_num)

/-- The sign test `isPos` decides the sign of the real number `p + q·√2`. -/
theorem isPos_iff (p q : Int) :
    Cost.isPos p q = true ↔ (0 : ℝ) < (p : ℝ) + (q : ℝ) * Real.sqrt 2 := by
  have hs := sqrt2_sq
  have hp := sqrt2_pos
  unfold Cost.isPos
  by_cases h1 : 0 ≤ p ∧ 0 ≤ q
  · rw [if_pos h1]
    obtain ⟨hp0, hq0⟩ := h1
    have hpr : (0 : ℝ) ≤ p := by exact_mod_cast hp0
    have hqr : (0 : ℝ) ≤ q := by exact_mod_cast hq0
    simp only [decide_eq_true_eq]
    constructor
    · rintro (h | h)
      · have : (1 : ℝ) ≤ p := by
          have : 1 ≤ p := by omega
          exact_mod_cast this
        nlinarith [mul_nonneg hqr hp.le]
      · have : (1 : ℝ) ≤ q := by
          have : 1 ≤ q := by omega
          exact_mod_cast this
        nlinarith
    · intro h
      by_contra hcon
      push_neg at hcon
      obtain ⟨rfl, rfl⟩ := hcon
      simp at h
  · rw [if_neg h1]
    by_cases h2 : 0 ≤ p
    · rw [if_pos h2]
      have hq0 : q < 0 := by
        by_contra hcon
        exact h1 ⟨h2, by omega⟩
      have hpr : (0 : ℝ) ≤ p := by exact_mod_cast h2
      have hqr : (q : ℝ) < 0 := by exact_mod_cast hq0
      simp only [decide_eq_true_eq]
      constructor
      · intro h
        have hr : (2 : ℝ) * (q * q) < p * p := by exact_mod_cast h
        by_contra hcon
        push_neg at hcon
        have h3 : (p : ℝ) ≤ -(q * Real.sqrt 2) := by linarith
        have h4 : (p : ℝ) * p ≤ (-(q * Real.sqrt 2)) * (-(q * Real.sqrt 2)) :=
          mul_le_mul h3 h3 hpr (by nlinarith)
        nlinarith
      · intro h
        have h3 : -(q * Real.sqrt 2) < (p : ℝ) := by linarith
        have h5 : (0 : ℝ) ≤ -(q * Real.sqrt 2) := by nlinarith
        have h4 : (-(q * Real.sqrt 2)) * (-(q * Real.sqrt 2)) < (p : ℝ) * p :=
          mul_lt_mul'' h3 h3 h5 h5
        have hr : (2 : ℝ) * (q * q) < p * p := by nlinarith
        exact_mod_cast hr
    · rw [if_neg h2]
      have hpr : (p : ℝ) < 0 := by
        have : p < 0 := by omega
        exact_mod_cast this
      by_cases h3 : 0 ≤ q
      · rw [if_pos h3]
        have hqr : (0 : ℝ) ≤ q := by exact_mod_cast h3
        simp only [decide_eq_true_eq]
        constructor
        · intro h
          have hr : (p : ℝ) * p < 2 * (q * q) := by exact_mod_cast h
          by_contra hcon
          push_neg at hcon
          have h4 : (q : ℝ) * Real.sqrt 2 ≤ -p := by linarith
          have h5 : (0 : ℝ) ≤ q * Real.sqrt 2 := mul_nonneg hqr hp.le
          have h6 : (q * Real.sqrt 2) * (q * Real.sqrt 2) ≤ (-p : ℝ) * (-p) :=
            mul_le_mul h4 h4 h5 (by linarith)
          nlinarith
        · intro h
          have h4 : (-p : ℝ) < q * Real.sqrt 2 := by linarith
          have h5 : (0 : ℝ) ≤ -p := by linarith
          have h6 : (-p : ℝ) * (-p) < (q * Real.sqrt 2) * (q * Real.sqrt 2) :=
            mul_lt_mul'' h4 h4 h5 h5
          have hr : (p : ℝ) * p < 2 * (q * q) := by nlinarith
          exact_mod_cast hr
      · rw [if_neg h3]
        have hqr : (q : ℝ) < 0 := by
          have : q < 0 := by omega
          exact_mod_cast this
        constructor
        · intro h; simp at h
        · intro h
          nlinarith [mul_pos_of_neg_of_neg hqr (neg_neg_of_pos hp)]

/-- The comparison `Cost.lt` is the order of the real numbers `a + b·√2`. -/
theorem cost_lt_iff (c d : Cost) :
    Cost.lt c d = true ↔
      (c.a : ℝ) + (c.b : ℝ) * Real.sqrt 2 < (d.a : ℝ) + (d.b : ℝ) * Real.sqrt 2 := by
  unfold Cost.lt
  rw [isPos_iff]
  push_cast
  constructor <;> intro h <;> linarith

/-- The comparison `Cost.le` is the order of the real numbers `a + b·√2`. -/
theorem cost_le_iff (c d : Cost) :
    Cost.le c d = true ↔
      (c.a : ℝ) + (c.b : ℝ) * Real.sqrt 2 ≤ (d.a : ℝ) + (d.b : ℝ) * Real.sqrt 2 := by
  unfold Cost.le
  rw [Bool.not_eq_true', ← Bool.not_eq_true, cost_lt_iff]
  exact not_lt

theorem sqrt2_gt_one : (1 : ℝ) < Real.sqrt 2 := by
  have hs := sqrt2_sq
  have hp := sqrt2_pos
  nlinarith

theorem sqrt2_lt_two : Real.sqrt 2 < (2 : ℝ) := by
  have hs := sqrt2_sq
  have hp := sqrt2_pos
  nlinarith

theorem motionCost_eq : ∀ mo ∈ motions, motionCost mo.x mo.y = mo.cost := by
  decide

theorem motion_straight_or_diag : ∀ mo ∈ motions,
    (mo.cost = Cost.one ∧ (mo.x = 0 ∨ mo.y = 0)) ∨ mo.cost = Cost.sqrt2 := by
  decide

/-- A consistent heuristic grows along a chain of motions by at most the cost of the
chain. -/
theorem consistent_chain (m : GlobalObstacleMap) (hc : HeuristicConsistent m) :
    ∀ l : List (Int × Int), List.Chain' IsMotion l → ∀ a b, l.head? = some a →
      l.getLast? = some b →
      ((m.heuristic b.1 b.2).a : ℝ) + ((m.heuristic b.1 b.2).b : ℝ) * Real.sqrt 2 ≤
        ((pathCost l).a : ℝ) + ((pathCost l).b : ℝ) * Real.sqrt 2 +
        (((m.heuristic a.1 a.2).a : ℝ) + ((m.heuristic a.1 a.2).b : ℝ) * Real.sqrt 2) := by
  intro l
  induction l with
  | nil => intro _ a b ha; simp at ha
  | cons a0 tl ih =>
    intro hchain a b ha hb
    simp at ha
    subst ha
    cases tl with
    | nil =>
      simp at hb
      subst hb
      simp [pathCost, Cost.zero]
    | cons a1 tl =>
      have hstep : IsMotion a0 a1 := (List.chain'_cons.1 hchain).1
      have htl := ih (List.chain'_cons.1 hchain).2 a1 b rfl
        (by rw [List.getLast?_cons_cons] at hb; exact hb)
      simp only [IsMotion, offsets, List.mem_map] at hstep
      obtain ⟨mo, hmo, hmoeq⟩ := hstep
      have hx : mo.x = a0.1 - a1.1 := congrArg Prod.fst hmoeq
      have hy : mo.y = a0.2 - a1.2 := congrArg Prod.snd hmoeq
      have hcons := (cost_le_iff _ _).1 (hc.2 a1.1 a1.2 mo hmo)
      have e1 : a1.1 + mo.x = a0.1 := by omega
      have e2 : a1.2 + mo.y = a0.2 := by omega
      rw [e1, e2] at hcons
      have hmc : motionCost (a0.1 - a1.1) (a0.2 - a1.2) = mo.cost := by
        rw [← hx, ← hy]; exact motionCost_eq mo hmo
      simp only [pathCost, hmc, Cost.add] at hcons ⊢
      push_cast at hcons ⊢
      linarith

/-- A consistent heuristic is admissible. -/
theorem admissible_of_consistent (m : GlobalObstacleMap) (hc : HeuristicConsistent m) :
    HeuristicAdmissible m := by
  intro x y q hq
  obtain ⟨⟨g, hg, hgoal⟩, hlast, hchain, _⟩ := hq
  rw [cost_le_iff]
  have := consistent_chain m hc q hchain g (x, y) hg hlast
  rw [hc.1 g.1 g.2 hgoal] at this
  simp only [Cost.zero] at this
  push_cast at this
  simpa using this

theorem octile_real (gx gy x y ex ey : Int) (hex : -1 ≤ ex ∧ ex ≤ 1)
    (hey : -1 ≤ ey ∧ ey ≤ 1) :
    (((octile gx gy x y).a : ℝ) + ((octile gx gy x y).b : ℝ) * Real.sqrt 2 ≤
      Real.sqrt 2 + (((octile gx gy (x + ex) (y + ey)).a : ℝ) +
        ((octile gx gy (x + ex) (y + ey)).b : ℝ) * Real.sqrt 2)) ∧
    ((ex = 0 ∨ ey = 0) →
      ((octile gx gy x y).a : ℝ) + ((octile gx gy x y).b : ℝ) * Real.sqrt 2 ≤
      1 + (((octile gx gy (x + ex) (y + ey)).a : ℝ) +
        ((octile gx gy (x + ex) (y + ey)).b : ℝ) * Real.sqrt 2)) := by
  have h1 := sqrt2_gt_one
  have h2 := sqrt2_lt_two
  simp only [octile]
  generalize hM : ((max (x - gx).natAbs (y - gy).natAbs : Nat) : Int) = M
  generalize hN : ((min (x - gx).natAbs (y - gy).natAbs : Nat) : Int) = N
  generalize hM1 : ((max (x + ex - gx).natAbs (y + ey - gy).natAbs : Nat) : Int) = M1
  generalize hN1 : ((min (x + ex - gx).natAbs (y + ey - gy).natAbs : Nat) : Int) = N1
  have dM : M - M1 ≤ 1 := by omega
  have dN : N - N1 ≤ 1 := by omega
  have dMr : (M : ℝ) - M1 ≤ 1 := by exact_mod_cast dM
  have dNr : (N : ℝ) - N1 ≤ 1 := by exact_mod_cast dN
  push_cast
  constructor
  · nlinarith [mul_nonneg (sub_nonneg.2 h1.le) (sub_nonneg.2 dNr)]
  · intro h0
    have dS : (M + N) - (M1 + N1) ≤ 1 := by
      rcases h0 with rfl | rfl <;> omega
    have dSr : ((M : ℝ) + N) - (M1 + N1) ≤ 1 := by exact_mod_cast dS
    nlinarith [mul_nonneg (sub_nonneg.2 h1.le) (sub_nonneg.2 dSr),
      mul_nonneg (sub_nonneg.2 h2.le) (sub_nonneg.2 dMr)]

theorem octile_consistent (m : GlobalObstacleMap)
    (hh : m.heuristic = octile m.goal_x m.goal_y)
    (hg : ∀ x y, m.checkCell x y = Cell.GOAL → x = m.goal_x ∧ y = m.goal_y) :
    HeuristicConsistent m := by
  constructor
  · intro x y hxy
    obtain ⟨rfl, rfl⟩ := hg x y hxy
    rw [hh]
    simp [octile, Cost.zero]
  · intro x y mo hmo
    rw [cost_le_iff, hh]
    obtain ⟨b1, b2, b3, b4⟩ := motion_bound mo hmo
    have key := octile_real m.goal_x m.goal_y x y mo.x mo.y ⟨b1, b2⟩ ⟨b3, b4⟩
    rcases motion_straight_or_diag mo hmo with ⟨hc, h0⟩ | hc
    · have := key.2 h0
      rw [hc]
      simp only [Cost.add, Cost.one]
      push_cast
      linarith
    · have := key.1
      rw [hc]
      simp only [Cost.add, Cost.sqrt2]
      push_cast
      linarith

theorem octile_nonneg (m : GlobalObstacleMap)
    (hh : m.heuristic = octile m.goal_x m.goal_y) : HeuristicNonNegative m := by
  intro x y
  rw [cost_le_iff, hh]
  simp only [octile, Cost.zero]
  have hp := sqrt2_pos
  have h1 := sqrt2_gt_one
  generalize hM : ((max (x - m.goal_x).natAbs (y - m.goal_y).natAbs : Nat) : Int) = M
  generalize hN : ((min (x - m.goal_x).natAbs (y - m.goal_y).natAbs : Nat) : Int) = N
  have hMN : N ≤ M := by omega
  have hN0 : 0 ≤ N := by omega
  have hMNr : (N : ℝ) ≤ M := by exact_mod_cast hMN
  have hN0r : (0 : ℝ) ≤ N := by exact_mod_cast hN0
  push_cast
  nlinarith [mul_nonneg hN0r hp.le]

/-- The node taken by `pqPop` has least cost: no node of the queue is cheaper. -/
theorem pqPop_least : ∀ (q : List NodePtr) (n : NodePtr) (rest : List NodePtr),
    pqPop q = some (n, rest) → ∀ k ∈ q, Cost.lt k.cost n.cost = false := by
  intro q
  induction q with
  | nil => intro n rest h; simp [pqPop] at h
  | cons a q ih =>
    intro n rest h k hk
    have irrefl : ∀ c : Cost, Cost.lt c c = false := by
      intro c
      rw [← Bool.not_eq_true, cost_lt_iff]
      exact lt_irrefl _
    unfold pqPop at h
    split at h
    · rename_i hq
      simp at h
      obtain ⟨rfl, rfl⟩ := h
      have hnil := pqPop_none q hq
      subst hnil
      simp at hk
      subst hk
      exact irrefl _
    · rename_i m rest1 hq
      have hm := ih m rest1 hq
      split at h
      · rename_i hlt
        simp at h
        obtain ⟨rfl, rfl⟩ := h
        rcases List.mem_cons.1 hk with rfl | hk
        · rw [← Bool.not_eq_true, cost_lt_iff]
          rw [cost_lt_iff] at hlt
          exact not_lt.2 hlt.le
        · exact hm k hk
      · rename_i hlt
        simp at h
        obtain ⟨rfl, rfl⟩ := h
        rcases List.mem_cons.1 hk with rfl | hk
        · exact irrefl _
        · have h1 := hm k hk
          rw [← Bool.not_eq_true, cost_lt_iff] at h1 ⊢
          rw [cost_lt_iff] at hlt
          intro hcon
          exact hlt (lt_of_le_of_lt (not_lt.1 h1) hcon)

theorem motion_neg : ∀ mo ∈ motions, ∃ mo1 ∈ motions, mo1.x = -mo.x ∧ mo1.y = -mo.y := by
  decide

/-- The path of a found goal is an obstacle-free path when the start is not an Obstacle. -/
theorem FoundSpec.obstacleFree {m : GlobalObstacleMap} {d : List Nat}
    {p : List (Int × Int)} (h : FoundSpec m d p)
    (hs : m.checkCell m.start_x m.start_y ≠ Cell.OBSTACLE) : ObstacleFreePath m p := by
  obtain ⟨g, c, tl, rfl, hg, hstep, hchain, hlast, hcells⟩ := h.shape
  refine ⟨⟨g, rfl, hg⟩, by rw [List.getLast?_cons_cons]; exact hlast,
    List.Chain'.cons hstep hchain, ?_⟩
  intro a ha
  rcases List.mem_cons.1 ha with rfl | ha
  · rw [hg]; decide
  · rcases (hcells a ha).2 with h1 | h1
    · rw [h1]; exact hs
    · exact h1.1

/-- On a bordered grid with a valid start that is not the goal, a search that returns has
found the goal exactly when the goal is reachable. -/
theorem RunPost.found_iff {m : GlobalObstacleMap} {st : SearchState} (h : RunPost m st)
    (hs : StartOK m) (hsg : m.checkCell m.start_x m.start_y ≠ Cell.GOAL) {α : Type} (a : α) :
    (∃ p, foundPath (Except.ok (finish st, a)) = some p) ↔ Reachable m := by
  constructor
  · rintro ⟨p, hp⟩
    exact ⟨p, (h.1.found a p hp).obstacleFree hs.2.2.2.2⟩
  · intro hr
    rcases h.2 with hflag | ⟨hn, _, _, hc⟩
    · obtain ⟨f, cur, hf, _, _⟩ := h.1.final_ok hflag
      exact ⟨calcPath f, by simp [foundPath, finish, hflag, hf]⟩
    · exact absurd hr (closed_unreachable m st hc hn hsg)

/-- C1, as amended: on every grid whose border cells are Obstacle and whose start is a
non-Obstacle cell of the grid other than the goal, if the goal is reachable then
`DjikstraPlanning` finds a path, and that path is an obstacle-free 8-connected path from
the start to the goal; so its cost is at least the minimum cost of such paths (it need not
be equal to it). On the 7 × 7 grid with Obstacle border and free 5 × 5 interior, from
`(1, 1)` to `(5, 5)`, the path has 5 coordinates and cost `4·√2`. -/
theorem djikstra_finds_valid_path (m : GlobalObstacleMap) (sd : DjikstraPlanner)
    (hb : Bordered m) (hs : StartOK m)
    (hsg : m.checkCell m.start_x m.start_y ≠ Cell.GOAL) (hr : Reachable m) :
    (∃ p, foundPath (DjikstraPlanner.DjikstraPlanning sd m) = some p ∧
      ObstacleFreePath m p ∧
      ∀ q, ObstacleFreePath m q →
        (∀ q1, ObstacleFreePath m q1 → Cost.le (pathCost q) (pathCost q1) = true) →
        Cost.le (pathCost q) (pathCost p) = true) ∧
    (foundPath (DjikstraPlanner.DjikstraPlanning DjikstraPlanner.fresh openMap)
        = some [(5, 5), (4, 4), (3, 3), (2, 2), (1, 1)] ∧
      pathCost [(5, 5), (4, 4), (3, 3), (2, 2), (1, 1)] = ⟨0, 4⟩) := by
  refine ⟨?_, by decide!, by decide!⟩
  obtain ⟨st, s, hrun, hpost⟩ := djikstra_total m sd hb hs
  obtain ⟨p, hp⟩ := (hpost.found_iff hs hsg s).2 hr
  rw [← hrun] at hp
  have hfree := (djikstra_found_spec sd m p hp).obstacleFree hs.2.2.2.2
  exact ⟨p, hp, hfree, fun q _ hmin => hmin p hfree⟩

/-- C2, as amended: on every grid whose border cells are Obstacle and whose start is a
non-Obstacle cell of the grid other than the goal, and for every heuristic,
`AstarPlanning` (on a new planner) finds the goal exactly when `DjikstraPlanning` does,
which is exactly when the goal is reachable, and each path found is an obstacle-free
8-connected path from the start to the goal. (The costs of the two paths may differ.) -/
theorem astar_djikstra_same_outcome (m : GlobalObstacleMap) (sd : DjikstraPlanner)
    (hb : Bordered m) (hs : StartOK m)
    (hsg : m.checkCell m.start_x m.start_y ≠ Cell.GOAL) :
    ((∃ p, foundPath (AstarPlanner.AstarPlanning AstarPlanner.fresh m) = some p) ↔
      (∃ p, foundPath (DjikstraPlanner.DjikstraPlanning sd m) = some p)) ∧
    ((∃ p, foundPath (DjikstraPlanner.DjikstraPlanning sd m) = some p) ↔ Reachable m) ∧
    (∀ p, foundPath (AstarPlanner.AstarPlanning AstarPlanner.fresh m) = some p ∨
          foundPath (DjikstraPlanner.DjikstraPlanning sd m) = some p →
      ObstacleFreePath m p) := by
  obtain ⟨st, s, hrun, hpost⟩ := djikstra_total m sd hb hs
  obtain ⟨sta, sa, hruna, hposta⟩ := astar_total m hb hs
  have hd := hpost.found_iff hs hsg s
  have ha := hposta.found_iff hs hsg sa
  rw [← hrun] at hd
  rw [← hruna] at ha
  refine ⟨ha.trans hd.symm, hd, ?_⟩
  rintro p (hp | hp)
  · exact (astar_found_spec _ m p hp).obstacleFree hs.2.2.2.2
  · exact (djikstra_found_spec sd m p hp).obstacleFree hs.2.2.2.2

/-- When every neighbour of a Goal cell is an Obstacle, a search on a bordered grid with a
valid start ends with the frontier exhausted and no terminal node. -/
theorem RunPost.enclosed {m : GlobalObstacleMap} {st : SearchState} (h : RunPost m st)
    (hs : StartOK m)
    (henc : ∀ gx gy, m.checkCell gx gy = Cell.GOAL → ∀ mo ∈ motions,
      m.checkCell (gx + mo.x) (gy + mo.y) = Cell.OBSTACLE) :
    (finish st).ending_flag = false ∧ (finish st).final = none ∧ (finish st).nodes = [] := by
  rcases h.2 with hflag | ⟨hn, hf, hfin, _⟩
  · obtain ⟨f, cur, _, ⟨mo, hmo, _, hgoal⟩, hcur⟩ := h.1.final_ok hflag
    obtain ⟨mo1, hmo1, hx, hy⟩ := motion_neg mo hmo
    have hob := henc _ _ hgoal mo1 hmo1
    rw [hx, hy] at hob
    have e1 : cur.x + mo.x + -mo.x = cur.x := by omega
    have e2 : cur.y + mo.y + -mo.y = cur.y := by omega
    rw [e1, e2] at hob
    exact absurd hob (chainOK_head cur hcur hs.2.2.2.2).2
  · exact ⟨hf, hfin, hn⟩

/-- The call `calcPath(final, m)` on a `final` that was never assigned reads a pointer
without a value. -/
theorem calcPathFinal_none : calcPathFinal none = Except.error Fault.uninitialised := rfl

/-- The field `path` of a result is `none` exactly where the call `calcPath(final, m)` reads
the unassigned `final`. -/
theorem calcPathFinal_eq_error (st : SearchState) :
    (finish st).path = none ↔
      calcPathFinal (finish st).final = Except.error Fault.uninitialised := by
  unfold finish calcPathFinal
  cases st.final <;> simp

/-- With `final` assigned the call `calcPath(final, m)` annotates the cells kept in the
field `path`. -/
theorem calcPathFinal_eq_ok (st : SearchState) (p : List (Int × Int)) :
    (finish st).path = some p ↔ calcPathFinal (finish st).final = Except.ok p := by
  unfold finish calcPathFinal
  cases st.final <;> simp

/-- For both planners (a new `AstarPlanner`), on every grid whose border cells are
Obstacle, whose start is a non-Obstacle cell of the grid, and in which every 8-neighbour of
the goal cell is an Obstacle, the loop ends with the frontier exhausted, the ending flag
false and `final` never assigned; the statement `calcPath(final, m)` that follows the loop
then reads the pointer `final` without a value, which is undefined behaviour. -/
theorem enclosed_goal_final_unassigned (m : GlobalObstacleMap) (sd : DjikstraPlanner)
    (hb : Bordered m) (hs : StartOK m)
    (henc : ∀ gx gy, m.checkCell gx gy = Cell.GOAL → ∀ mo ∈ motions,
      m.checkCell (gx + mo.x) (gy + mo.y) = Cell.OBSTACLE) :
    (∃ r s, DjikstraPlanner.DjikstraPlanning sd m = Except.ok (r, s) ∧
      r.ending_flag = false ∧ r.nodes = [] ∧ r.final = none ∧
      calcPathFinal r.final = Except.error Fault.uninitialised) ∧
    (∃ r s, AstarPlanner.AstarPlanning AstarPlanner.fresh m = Except.ok (r, s) ∧
      r.ending_flag = false ∧ r.nodes = [] ∧ r.final = none ∧
      calcPathFinal r.final = Except.error Fault.uninitialised) := by
  obtain ⟨st, s, hrun, hpost⟩ := djikstra_total m sd hb hs
  obtain ⟨sta, sa, hruna, hposta⟩ := astar_total m hb hs
  obtain ⟨h1, h2, h3⟩ := hpost.enclosed hs henc
  obtain ⟨h4, h5, h6⟩ := hposta.enclosed hs henc
  refine ⟨⟨_, s, hrun, h1, h3, h2, ?_⟩, ⟨_, sa, hruna, h4, h6, h5, ?_⟩⟩
  · rw [h2]
    rfl
  · rw [h5]
    rfl

theorem mem_border (W H : Nat) (x y : Int) (hx : 0 ≤ x) (hx2 : x < W) (hy : 0 ≤ y)
    (hy2 : y < H) (hb : x = 0 ∨ x = (W : Int) - 1 ∨ y = 0 ∨ y = (H : Int) - 1) :
    (x, y) ∈ border W H := by
  unfold border
  simp only [List.mem_append, List.mem_map, List.mem_range, Prod.mk.injEq, Int.ofNat_eq_coe]
  rcases hb with h | h | h | h
  · exact Or.inl (Or.inl (Or.inl ⟨y.toNat, by omega, by omega, by omega⟩))
  · exact Or.inr ⟨y.toNat, by omega, by omega, by omega⟩
  · exact Or.inl (Or.inl (Or.inr ⟨x.toNat, by omega, by omega, by omega⟩))
  · exact Or.inl (Or.inr ⟨x.toNat, by omega, by omega, by omega⟩)

/-- A map built with the border cells among its obstacles, the goal off the border,
is bordered. -/
theorem mkMap_bordered (W H : Nat) (sx sy gx gy : Int) (extra : List (Int × Int))
    (h : Int → Int → Cost)
    (hg : 0 < gx ∧ gx < (W : Int) - 1 ∧ 0 < gy ∧ gy < (H : Int) - 1) :
    Bordered (mkMap W H sx sy gx gy (border W H ++ extra) h) := by
  intro x y hx hx2 hy hy2 hb
  simp only [mkMap] at hx2 hy2 hb ⊢
  have hng : ¬ (x = gx ∧ y = gy) := by
    rintro ⟨rfl, rfl⟩
    omega
  rw [if_neg hng, if_pos (List.mem_append_left _ (mem_border W H x y hx hx2 hy hy2 hb))]

theorem isMotion_bound (a b : Int × Int) (h : IsMotion a b) :
    -1 ≤ a.1 - b.1 ∧ a.1 - b.1 ≤ 1 ∧ -1 ≤ a.2 - b.2 ∧ a.2 - b.2 ≤ 1 := by
  simp only [IsMotion, offsets, List.mem_map] at h
  obtain ⟨mo, hmo, heq⟩ := h
  have hx : mo.x = a.1 - b.1 := congrArg Prod.fst heq
  have hy : mo.y = a.2 - b.2 := congrArg Prod.snd heq
  have := motion_bound mo hmo
  omega

/-- A chain of motions whose ends lie on either side of column `c` has a cell in
column `c`. -/
theorem chain_crosses (c : Int) : ∀ l : List (Int × Int), List.Chain' IsMotion l →
    ∀ a b, l.head? = some a → l.getLast? = some b →
      ((a.1 ≤ c ∧ c ≤ b.1) ∨ (b.1 ≤ c ∧ c ≤ a.1)) → ∃ e ∈ l, e.1 = c := by
  intro l
  induction l with
  | nil => intro _ a b ha; simp at ha
  | cons a0 tl ih =>
    intro hchain a b ha hb hside
    simp at ha
    subst ha
    cases tl with
    | nil =>
      simp at hb
      subst hb
      exact ⟨a0, List.mem_cons_self _ _, by omega⟩
    | cons a1 tl =>
      by_cases h0 : a0.1 = c
      · exact ⟨a0, List.mem_cons_self _ _, h0⟩
      · have hstep := isMotion_bound a0 a1 (List.chain'_cons.1 hchain).1
        obtain ⟨e, he, hec⟩ := ih (List.chain'_cons.1 hchain).2 a1 b rfl
          (by rw [List.getLast?_cons_cons] at hb; exact hb) (by omega)
        exact ⟨e, List.mem_cons_of_mem _ he, hec⟩

/-- For both planners (a new `AstarPlanner`), on every grid with a single goal cell in
which all cells of a column `c` are Obstacle except the gap cell `(c, r)`, and whose start
and goal lie on either side of that column, a path that is found contains the gap
cell `(c, r)`. -/
theorem found_path_crosses_gap (m : GlobalObstacleMap) (sd : DjikstraPlanner)
    (p : List (Int × Int)) (c r : Int)
    (hgoal : ∀ x y, m.checkCell x y = Cell.GOAL → x = m.goal_x ∧ y = m.goal_y)
    (hwall : ∀ y : Int, 0 ≤ y → y < m.map_size_y → y ≠ r →
      m.checkCell c y = Cell.OBSTACLE)
    (hside : (m.start_x < c ∧ c < m.goal_x) ∨ (m.goal_x < c ∧ c < m.start_x))
    (h : foundPath (DjikstraPlanner.DjikstraPlanning sd m) = some p ∨
         foundPath (AstarPlanner.AstarPlanning AstarPlanner.fresh m) = some p) :
    (c, r) ∈ p := by
  have hs : FoundSpec m (gridDims m) p := by
    rcases h with h | h
    · exact djikstra_found_spec sd m p h
    · have := astar_found_spec AstarPlanner.fresh m p h
      simpa [AstarPlanner.fresh, dims, gridDims] using this
  obtain ⟨g, c0, tl, rfl, hg, hstep, hchain, hlast, hcells⟩ := hs.shape
  obtain ⟨hgx, _⟩ := hgoal g.1 g.2 hg
  have hch : List.Chain' IsMotion (g :: c0 :: tl) := List.Chain'.cons hstep hchain
  obtain ⟨e, he, hec⟩ := chain_crosses c _ hch g (m.start_x, m.start_y) rfl
    (by rw [List.getLast?_cons_cons]; exact hlast) (by simp only; omega)
  have heg : e ≠ g := by
    rintro rfl
    omega
  have hmem : e ∈ c0 :: tl := by
    rcases List.mem_cons.1 he with h1 | h1
    · exact absurd h1 heg
    · exact h1
  obtain ⟨hin, hfree⟩ := hcells e hmem
  have hfree1 : m.checkCell e.1 e.2 ≠ Cell.OBSTACLE := by
    rcases hfree with h1 | h1
    · rw [h1] at hec
      simp only at hec
      omega
    · exact h1.1
  rw [inDims_gridDims] at hin
  have her : e.2 = r := by
    by_contra hne
    apply hfree1
    rw [hec]
    exact hwall e.2 hin.2.2.1 hin.2.2.2 hne
  have hee : e = (c, r) := by
    rw [← hec, ← her]
  rw [← hee]
  exact he

theorem wallMap_wall (y : Int) (h0 : 0 ≤ y) (h1 : y < wallMap.map_size_y) (hne : y ≠ 1) :
    wallMap.checkCell 3 y = Cell.OBSTACLE := by
  have h7 : y < 7 := h1
  interval_cases y <;> first | decide | exact absurd rfl hne

theorem wallMap_bordered : Bordered wallMap :=
  mkMap_bordered 7 7 1 3 5 3 _ (fun _ _ => Cost.zero) (by decide)

theorem wallMap_startOK : StartOK wallMap := by
  unfold StartOK
  decide

theorem wallMap_reachable : Reachable wallMap :=
  ⟨[(5, 3), (4, 2), (3, 1), (2, 2), (1, 3)], by decide⟩

/-- C10, as amended: for both planners (a new `AstarPlanner`), on every grid with a single
goal cell in which all cells of a column `c` are Obstacle except the gap cell `(c, r)`, and
whose start and goal lie on either side of that column, any path found contains the gap
cell `(c, r)`; and when the border cells of the grid are Obstacle, the start is a
non-Obstacle cell of the grid and the goal is reachable, each planner finds a path, which
passes through the gap. On the 7 × 7 grid `wallMap` (Obstacle border, in the free 5 × 5
interior a wall at column 2 open only at row 0) the path of both planners passes through
the gap `(3, 1)`. -/
theorem path_passes_gap (m : GlobalObstacleMap) (sd : DjikstraPlanner) (c r : Int)
    (hgoal : ∀ x y, m.checkCell x y = Cell.GOAL → x = m.goal_x ∧ y = m.goal_y)
    (hwall : ∀ y : Int, 0 ≤ y → y < m.map_size_y → y ≠ r →
      m.checkCell c y = Cell.OBSTACLE)
    (hside : (m.start_x < c ∧ c < m.goal_x) ∨ (m.goal_x < c ∧ c < m.start_x)) :
    (∀ p, foundPath (DjikstraPlanner.DjikstraPlanning sd m) = some p ∨
          foundPath (AstarPlanner.AstarPlanning AstarPlanner.fresh m) = some p →
      (c, r) ∈ p) ∧
    (Bordered m → StartOK m → Reachable m →
      ∃ p q, foundPath (DjikstraPlanner.DjikstraPlanning sd m) = some p ∧
        foundPath (AstarPlanner.AstarPlanning AstarPlanner.fresh m) = some q ∧
        (c, r) ∈ p ∧ (c, r) ∈ q) ∧
    (foundPath (DjikstraPlanner.DjikstraPlanning DjikstraPlanner.fresh wallMap)
        = some [(5, 3), (4, 2), (3, 1), (2, 2), (1, 3)] ∧
      foundPath (AstarPlanner.AstarPlanning AstarPlanner.fresh wallMap)
        = some [(5, 3), (4, 2), (3, 1), (2, 2), (1, 3)]) := by
  have hmem : ∀ p, foundPath (DjikstraPlanner.DjikstraPlanning sd m) = some p ∨
      foundPath (AstarPlanner.AstarPlanning AstarPlanner.fresh m) = some p → (c, r) ∈ p :=
    fun p h => found_path_crosses_gap m sd p c r hgoal hwall hside h
  refine ⟨hmem, ?_, by decide!, by decide!⟩
  intro hb hs hr
  have hsg : m.checkCell m.start_x m.start_y ≠ Cell.GOAL := by
    intro hg
    have := (hgoal _ _ hg).1
    omega
  obtain ⟨st, s, hrun, hpost⟩ := djikstra_total m sd hb hs
  obtain ⟨sta, sa, hruna, hposta⟩ := astar_total m hb hs
  obtain ⟨p, hp⟩ := (hpost.found_iff hs hsg s).2 hr
  obtain ⟨q, hq⟩ := (hposta.found_iff hs hsg sa).2 hr
  rw [← hrun] at hp
  rw [← hruna] at hq
  exact ⟨p, q, hp, hq, hmem p (Or.inl hp), hmem q (Or.inr hq)⟩

/-- C10, as amended, on the grid `wallMap`: the wall is column 3, open only at row 1, the
start `(1, 3)` and the goal `(5, 3)` lie on either side of it, the grid is bordered, the
start is valid and the goal reachable; both planners find a path, and it passes through
the gap `(3, 1)`. -/
theorem path_passes_gap_witness :
    ((∀ x y, wallMap.checkCell x y = Cell.GOAL → x = wallMap.goal_x ∧ y = wallMap.goal_y) ∧
      (∀ y : Int, 0 ≤ y → y < wallMap.map_size_y → y ≠ 1 →
        wallMap.checkCell 3 y = Cell.OBSTACLE) ∧
      (wallMap.start_x < 3 ∧ 3 < wallMap.goal_x)) ∧
    (Bordered wallMap ∧ StartOK wallMap ∧ Reachable wallMap) ∧
    (∃ p q, foundPath (DjikstraPlanner.DjikstraPlanning DjikstraPlanner.fresh wallMap)
        = some p ∧
      foundPath (AstarPlanner.AstarPlanning AstarPlanner.fresh wallMap) = some q ∧
      ((3 : Int), (1 : Int)) ∈ p ∧ ((3 : Int), (1 : Int)) ∈ q) ∧
    ((3 : Int), (1 : Int)) ∈ [((5 : Int), (3 : Int)), (4, 2), (3, 1), (2, 2), (1, 3)] :=
  have hg : ∀ x y, wallMap.checkCell x y = Cell.GOAL →
      x = wallMap.goal_x ∧ y = wallMap.goal_y :=
    fun x y h => mkMap_goal _ _ _ _ _ _ _ _ x y h
  have hside : wallMap.start_x < 3 ∧ 3 < wallMap.goal_x := by decide
  have h := path_passes_gap wallMap DjikstraPlanner.fresh 3 1 hg wallMap_wall (Or.inl hside)
  ⟨⟨hg, wallMap_wall, hside⟩, ⟨wallMap_bordered, wallMap_startOK, wallMap_reachable⟩,
   h.2.1 wallMap_bordered wallMap_startOK wallMap_reachable,
   h.1 _ (Or.inl h.2.2.1)⟩

theorem openMap_bordered : Bordered openMap := by
  have h := mkMap_bordered 7 7 1 1 5 5 [] (fun _ _ => Cost.zero) (by decide)
  simpa [openMap] using h

theorem openMap_startOK : StartOK openMap := by
  unfold StartOK
  decide

theorem openMap_reachable : Reachable openMap :=
  ⟨[(5, 5), (4, 4), (3, 3), (2, 2), (1, 1)], by decide!⟩

theorem detourMap_bordered : Bordered detourMap :=
  mkMap_bordered 6 7 1 5 3 1 [(2, 2), (3, 2)] (octile 3 1) (by decide)

theorem detourMap_startOK : StartOK detourMap := by
  unfold StartOK
  decide

theorem islandMap_bordered : Bordered islandMap :=
  mkMap_bordered 7 7 1 1 4 4 _ (fun _ _ => Cost.zero) (by decide)

theorem islandMap_startOK : StartOK islandMap := by
  unfold StartOK
  decide

theorem islandMap_enclosed (gx gy : Int) (hg : islandMap.checkCell gx gy = Cell.GOAL) :
    ∀ mo ∈ motions, islandMap.checkCell (gx + mo.x) (gy + mo.y) = Cell.OBSTACLE := by
  obtain ⟨rfl, rfl⟩ := mkMap_goal _ _ _ _ _ _ _ _ gx gy hg
  decide

/-- C1, as amended, on the grid `openMap`. -/
theorem djikstra_finds_valid_path_witness :
    (StartOK openMap ∧ openMap.checkCell openMap.start_x openMap.start_y ≠ Cell.GOAL ∧
      Reachable openMap) ∧
    ((∃ p, foundPath (DjikstraPlanner.DjikstraPlanning DjikstraPlanner.fresh openMap) = some p ∧
      ObstacleFreePath openMap p ∧
      ∀ q, ObstacleFreePath openMap q →
        (∀ q1, ObstacleFreePath openMap q1 → Cost.le (pathCost q) (pathCost q1) = true) →
        Cost.le (pathCost q) (pathCost p) = true) ∧
    (foundPath (DjikstraPlanner.DjikstraPlanning DjikstraPlanner.fresh openMap)
        = some [(5, 5), (4, 4), (3, 3), (2, 2), (1, 1)] ∧
      pathCost [(5, 5), (4, 4), (3, 3), (2, 2), (1, 1)] = ⟨0, 4⟩)) :=
  ⟨⟨openMap_startOK, by decide, openMap_reachable⟩,
   djikstra_finds_valid_path openMap DjikstraPlanner.fresh openMap_bordered openMap_startOK
     (by decide) openMap_reachable⟩

/-- C1 fails as stated: on the 6 × 7 grid `detourMap` the path `DjikstraPlanning`
reconstructs costs `4·√2`, while the obstacle-free path along column 1 and row 1
costs `4 + √2`, which is less. -/
theorem djikstra_not_optimal_counterexample :
    foundPath (DjikstraPlanner.DjikstraPlanning DjikstraPlanner.fresh detourMap)
      = some [(3, 1), (4, 2), (3, 3), (2, 4), (1, 5)] ∧
    ObstacleFreePath detourMap [(3, 1), (2, 1), (1, 2), (1, 3), (1, 4), (1, 5)] ∧
    pathCost [(3, 1), (4, 2), (3, 3), (2, 4), (1, 5)] = ⟨0, 4⟩ ∧
    pathCost [(3, 1), (2, 1), (1, 2), (1, 3), (1, 4), (1, 5)] = ⟨4, 1⟩ ∧
    Cost.lt ⟨4, 1⟩ ⟨0, 4⟩ = true :=
  ⟨by decide!, by decide!, by decide!, by decide!, by decide!⟩

/-- C2, as amended, on the grid `detourMap`. -/
theorem astar_djikstra_same_outcome_witness :
    (StartOK detourMap ∧
      detourMap.checkCell detourMap.start_x detourMap.start_y ≠ Cell.GOAL) ∧
    (((∃ p, foundPath (AstarPlanner.AstarPlanning AstarPlanner.fresh detourMap) = some p) ↔
      (∃ p, foundPath (DjikstraPlanner.DjikstraPlanning DjikstraPlanner.fresh detourMap)
        = some p)) ∧
    ((∃ p, foundPath (DjikstraPlanner.DjikstraPlanning DjikstraPlanner.fresh detourMap)
        = some p) ↔ Reachable detourMap) ∧
    (∀ p, foundPath (AstarPlanner.AstarPlanning AstarPlanner.fresh detourMap) = some p ∨
          foundPath (DjikstraPlanner.DjikstraPlanning DjikstraPlanner.fresh detourMap) = some p →
      ObstacleFreePath detourMap p)) :=
  ⟨⟨detourMap_startOK, by decide⟩,
   astar_djikstra_same_outcome detourMap DjikstraPlanner.fresh detourMap_bordered
     detourMap_startOK (by decide)⟩

/-- C2 fails as stated: on the 6 × 7 grid `detourMap`, whose heuristic is the octile
distance to the goal (non-negative, admissible and consistent), `AstarPlanning` returns a
path of cost `4 + √2` and `DjikstraPlanning` a path of cost `4·√2`. -/
theorem astar_cost_differs_counterexample :
    HeuristicNonNegative detourMap ∧ HeuristicAdmissible detourMap ∧
    HeuristicConsistent detourMap ∧ Reachable detourMap ∧
    foundPath (AstarPlanner.AstarPlanning AstarPlanner.fresh detourMap)
      = some [(3, 1), (2, 1), (1, 2), (1, 3), (1, 4), (1, 5)] ∧
    foundPath (DjikstraPlanner.DjikstraPlanning DjikstraPlanner.fresh detourMap)
      = some [(3, 1), (4, 2), (3, 3), (2, 4), (1, 5)] ∧
    pathCost [(3, 1), (2, 1), (1, 2), (1, 3), (1, 4), (1, 5)] = ⟨4, 1⟩ ∧
    pathCost [(3, 1), (4, 2), (3, 3), (2, 4), (1, 5)] = ⟨0, 4⟩ ∧
    Cost.lt ⟨4, 1⟩ ⟨0, 4⟩ = true :=
  ⟨octile_nonneg detourMap rfl,
   admissible_of_consistent detourMap
     (octile_consistent detourMap rfl (fun x y hg => mkMap_goal _ _ _ _ _ _ _ _ x y hg)),
   octile_consistent detourMap rfl (fun x y hg => mkMap_goal _ _ _ _ _ _ _ _ x y hg),
   ⟨[(3, 1), (2, 1), (1, 2), (1, 3), (1, 4), (1, 5)], by decide!⟩,
   by decide!, by decide!, by decide!, by decide!, by decide!⟩

/-- C4 fails on `islandMap`, a 7 × 7 grid with Obstacle border, start `(1, 1)` on a free
cell (not the goal) and goal `(4, 4)` with all 8 neighbours Obstacle. Both
planners leave the loop as the claim says, with the frontier exhausted, the ending flag
false and no terminal node: `final`, declared without an initialiser, was never assigned.
The statement `calcPath(final, m)` that follows is executed all the same and reads that
pointer: the path reconstructor is not run on "no node" and does not yield "no path
cells"; the call is undefined behaviour (`Fault.uninitialised`). -/
theorem enclosed_goal_reads_unassigned_final :
    (Bordered islandMap ∧ StartOK islandMap ∧ islandMap.checkCell 4 4 = Cell.GOAL ∧
      (∀ mo ∈ motions, islandMap.checkCell (4 + mo.x) (4 + mo.y) = Cell.OBSTACLE) ∧
      (islandMap.start_x, islandMap.start_y) ≠ (islandMap.goal_x, islandMap.goal_y)) ∧
    (∃ r s, DjikstraPlanner.DjikstraPlanning DjikstraPlanner.fresh islandMap
        = Except.ok (r, s) ∧ r.ending_flag = false ∧ r.nodes = [] ∧ r.final = none ∧
        calcPathFinal r.final = Except.error Fault.uninitialised) ∧
    (∃ r s, AstarPlanner.AstarPlanning AstarPlanner.fresh islandMap = Except.ok (r, s) ∧
        r.ending_flag = false ∧ r.nodes = [] ∧ r.final = none ∧
        calcPathFinal r.final = Except.error Fault.uninitialised) :=
  ⟨⟨islandMap_bordered, islandMap_startOK, by decide, by decide, by decide⟩,
   enclosed_goal_final_unassigned islandMap DjikstraPlanner.fresh islandMap_bordered
     islandMap_startOK islandMap_enclosed⟩

/-- A start that is itself an Obstacle neighbour of the goal: on the 5 × 5 grid
`enclosedMap` every 8-neighbour of the goal `(2, 2)` is an Obstacle and the start `(1, 1)`
is one of them; the start is expanded without being classified, and both planners find the
goal. -/
theorem obstacle_start_reaches_enclosed_goal :
    enclosedMap.checkCell 2 2 = Cell.GOAL ∧
    (∀ mo ∈ motions, enclosedMap.checkCell (2 + mo.x) (2 + mo.y) = Cell.OBSTACLE) ∧
    (enclosedMap.start_x, enclosedMap.start_y) ≠ (enclosedMap.goal_x, enclosedMap.goal_y) ∧
    outcome (DjikstraPlanner.DjikstraPlanning DjikstraPlanner.fresh enclosedMap)
      = some (true, some [(2, 2), (1, 1)]) ∧
    outcome (AstarPlanner.AstarPlanning AstarPlanner.fresh enclosedMap)
      = some (true, some [(2, 2), (1, 1)]) :=
  ⟨by decide, by decide, by decide, by decide!, by decide!⟩

theorem tableGet_append {α : Type} (t t2 : List (List α)) (x y : Int) (v : α)
    (h : tableGet t x y = some v) : tableGet (t ++ t2) x y = some v := by
  unfold tableGet at h ⊢
  split at h
  · simp at h
  · rename_i hx
    rw [if_neg hx]
    split at h
    · simp at h
    · rename_i row hrow
      simp only [List.get?_eq_getElem?] at hrow ⊢
      have hlen := getElem?_some_lt hrow
      rw [List.getElem?_append_left hlen, hrow]
      simp only [List.get?_eq_getElem?] at h
      exact h

theorem tableSet_append {α : Type} (t t1 t2 : List (List α)) (x y : Int) (v : α)
    (h : tableSet t x y v = some t1) : tableSet (t ++ t2) x y v = some (t1 ++ t2) := by
  unfold tableSet at h ⊢
  split at h
  · simp at h
  · rename_i hx
    rw [if_neg hx]
    split at h
    · simp at h
    · rename_i row hrow
      simp only [List.get?_eq_getElem?] at hrow ⊢
      have hlen := getElem?_some_lt hrow
      rw [List.getElem?_append_left hlen, hrow]
      simp only
      split at h
      · rename_i hy
        rw [if_pos hy]
        simp at h
        subst h
        rw [List.set_append_left _ _ hlen]
      · simp at h

/-- The defect behind C5, in general: whenever a first call of `AstarPlanning` on a new
planner completes, a second call on the same planner object with the same grid pops the
start node, finds the start cell already closed, and returns with no cell expanded and no
terminal node. -/
theorem astar_second_call_finds_nothing (m : GlobalObstacleMap) (r1 : PlanResult)
    (s1 : AstarPlanner)
    (h : AstarPlanner.AstarPlanning AstarPlanner.fresh m = Except.ok (r1, s1)) :
    ∃ r2 s2, AstarPlanner.AstarPlanning s1 m = Except.ok (r2, s2) ∧
      r2.ending_flag = false ∧ r2.final = none ∧ r2.path = none ∧ r2.annotated = [] := by
  obtain ⟨st0, st, h0, hrun, rfl⟩ := astar_run _ m r1 s1 h
  have hs1 : s1 = { close_list := st.visited, path_cost := st.path_cost } := by
    unfold AstarPlanner.AstarPlanning at h
    rw [h0] at h
    simp only [astar_loop_eq, hrun] at h
    simp at h
    exact h.symm
  have hvis := (loopWith_start m _ (astar_expand_rel8 m) _ _ _
    (astar_init_start m st0 h0) hrun).1
  have hinv0 := astar_init_inv AstarPlanner.fresh m st0 h0
  have hinv := loopWith_inv m _ _ (astar_expand_rel8 m) _ _ _ hinv0 hrun
  have hstart : inDims (dims st.path_cost) m.start_x m.start_y := by
    unfold AstarPlanner.init at h0
    simp only at h0
    split at h0
    · simp at h0
    · rename_i pc hpc
      have hin := (tableSet_isSome_iff _ _ _ _).1 ⟨pc, hpc⟩
      rw [hinv.dims_pc]
      simpa [dims] using hin
  obtain ⟨pc1, hpc1⟩ := (tableSet_isSome_iff st.path_cost m.start_x m.start_y Cost.zero).2 hstart
  subst hs1
  have hinit : AstarPlanner.init { close_list := st.visited, path_cost := st.path_cost } m
      = Except.ok
        { visited := st.visited ++
            List.replicate m.map_size_x (List.replicate m.map_size_y (0 : Int)),
          path_cost := pc1 ++
            List.replicate m.map_size_x (List.replicate m.map_size_y Cost.intMax),
          nodes := pqPush [] (NodePtr.mk m.start_x m.start_y Cost.zero NodePtr.null),
          final := none, ending_flag := false, annotated := [] } := by
    unfold AstarPlanner.init
    simp only
    rw [tableSet_append _ _ _ _ _ _ hpc1]
  unfold AstarPlanner.AstarPlanning
  rw [hinit]
  simp only [fuelFor, pqPush, List.nil_append, List.length_singleton]
  have hloop : ∀ n : Nat, AstarPlanner.loop m (n + 1 + 1)
      { visited := st.visited ++
          List.replicate m.map_size_x (List.replicate m.map_size_y (0 : Int)),
        path_cost := pc1 ++
          List.replicate m.map_size_x (List.replicate m.map_size_y Cost.intMax),
        nodes := [NodePtr.mk m.start_x m.start_y Cost.zero NodePtr.null],
        final := none, ending_flag := false, annotated := [] }
      = Except.ok
        { visited := st.visited ++
            List.replicate m.map_size_x (List.replicate m.map_size_y (0 : Int)),
          path_cost := pc1 ++
            List.replicate m.map_size_x (List.replicate m.map_size_y Cost.intMax),
          nodes := [], final := none, ending_flag := false, annotated := [] } := by
    intro n
    have hget := tableGet_append st.visited
      (List.replicate m.map_size_x (List.replicate m.map_size_y (0 : Int))) _ _ _ hvis
    simp [AstarPlanner.loop, pqPop, NodePtr.x, NodePtr.y, hget]
  rw [hloop]
  exact ⟨_, _, rfl, rfl, rfl, rfl, rfl⟩

/-- On a grid without an Obstacle border the planners leave the tables: expanding the
start `(0, 0)` reads `traversed[0][-1]`, and expanding `(0, 2)` reads `traversed[-1][2]`. -/
theorem unbordered_grid_faults :
    faultOf (DjikstraPlanner.DjikstraPlanning DjikstraPlanner.fresh bareMap)
      = some Fault.outOfBounds ∧
    faultOf (AstarPlanner.AstarPlanning AstarPlanner.fresh bareMap)
      = some Fault.outOfBounds ∧
    faultOf (DjikstraPlanner.DjikstraPlanning DjikstraPlanner.fresh bareWallMap)
      = some Fault.outOfBounds ∧
    faultOf (AstarPlanner.AstarPlanning AstarPlanner.fresh bareWallMap)
      = some Fault.outOfBounds :=
  ⟨by decide!, by decide!, by decide!, by decide!⟩

/-- On the 5 × 5 grid with a wall at column 2 open only at row 0, wherever the start and
the goal are placed on either side of the wall, `DjikstraPlanning` and `AstarPlanning` with
the zero heuristic read a table out of bounds. -/
theorem raw_wall_grid_faults : ∀ a ∈ wallPairs,
    ((a.1.1 < 2 ∧ 2 < a.2.1) ∨ (a.2.1 < 2 ∧ 2 < a.1.1)) ∧
    faultOf (DjikstraPlanner.DjikstraPlanning DjikstraPlanner.fresh
      (bareWallAt a.1.1 a.1.2 a.2.1 a.2.2)) = some Fault.outOfBounds ∧
    faultOf (AstarPlanner.AstarPlanning AstarPlanner.fresh
      (bareWallAt a.1.1 a.1.2 a.2.1 a.2.2)) = some Fault.outOfBounds := by
  unfold wallPairs
  intro a ha
  rcases List.mem_append.1 ha with h | h
  · revert a
    decide!
  · revert a
    decide!

/-- C10 fails as stated on its own scenario, the 5 × 5 grid with a wall at column 2 open
only at row 0 and no other obstacle. With the start `(0, 2)` and the goal `(4, 2)` both
planners read a table out of bounds when they expand the start (`traversed[-1][2]`), and no
path is produced. The same holds for each of the 200 placements of the start and the goal
on either side of the wall, for `DjikstraPlanning` and for `AstarPlanning` with the zero
heuristic: no path through `(2, 0)` is produced. -/
theorem raw_wall_grid_counterexample :
    ((∀ y : Int, 0 ≤ y → y < bareWallMap.map_size_y → y ≠ 0 →
        bareWallMap.checkCell 2 y = Cell.OBSTACLE) ∧
      bareWallMap.checkCell 2 0 ≠ Cell.OBSTACLE ∧
      bareWallMap.start_x < 2 ∧ 2 < bareWallMap.goal_x) ∧
    (faultOf (DjikstraPlanner.DjikstraPlanning DjikstraPlanner.fresh bareWallMap)
        = some Fault.outOfBounds ∧
      foundPath (DjikstraPlanner.DjikstraPlanning DjikstraPlanner.fresh bareWallMap) = none ∧
      faultOf (AstarPlanner.AstarPlanning AstarPlanner.fresh bareWallMap)
        = some Fault.outOfBounds ∧
      foundPath (AstarPlanner.AstarPlanning AstarPlanner.fresh bareWallMap) = none) ∧
    (wallPairs.length = 200 ∧
      ∀ a ∈ wallPairs,
        ((a.1.1 < 2 ∧ 2 < a.2.1) ∨ (a.2.1 < 2 ∧ 2 < a.1.1)) ∧
        faultOf (DjikstraPlanner.DjikstraPlanning DjikstraPlanner.fresh
          (bareWallAt a.1.1 a.1.2 a.2.1 a.2.2)) = some Fault.outOfBounds ∧
        faultOf (AstarPlanner.AstarPlanning AstarPlanner.fresh
          (bareWallAt a.1.1 a.1.2 a.2.1 a.2.2)) = some Fault.outOfBounds) :=
  ⟨⟨by intro y h0 h1 hne
       have h5 : y < 5 := h1
       interval_cases y <;> first | decide | exact absurd rfl hne,
    by decide, by decide, by decide⟩,
   ⟨by decide!, by decide!, by decide!, by decide!⟩,
   by decide!, raw_wall_grid_faults⟩

/-- With a heuristic that draws the search to the goal, `AstarPlanning` can end on the
5 × 5 grid before it leaves the tables: with the octile distance, from `(1, 1)` to `(3, 0)`
the gap cell `(2, 0)` is expanded second and has the goal as its first neighbour. -/
theorem raw_wall_grid_astar_octile :
    foundPath (AstarPlanner.AstarPlanning AstarPlanner.fresh
      (mkMap 5 5 1 1 3 0 [(2, 1), (2, 2), (2, 3), (2, 4)] (octile 3 0)))
      = some [(3, 0), (2, 0), (1, 1)] := by
  decide!

/-- Every offset of the motion table is a non-zero pair of values in `{-1, 0, 1}`. -/
theorem offsets_bound : ∀ o ∈ offsets,
    -1 ≤ o.1 ∧ o.1 ≤ 1 ∧ -1 ≤ o.2 ∧ o.2 ≤ 1 ∧ o ≠ (0, 0) := by
  decide

/-- C11: the motion table of each planner holds exactly the 8 non-zero offsets `(dx, dy)`
with `dx, dy ∈ {-1, 0, 1}`, each once; the 4 axis-aligned offsets cost `1.0` and the 4
diagonal ones `sqrt(2)`; and the tables of `DjikstraPlanner` and `AstarPlanner` agree entry
by entry (they are the table `motions` over which both motion loops run). -/
theorem motion_table_contract :
    DjikstraPlanner.motions = AstarPlanner.motions ∧
    DjikstraPlanner.motions = motions ∧
    motions.length = 8 ∧
    offsets.Nodup ∧
    (∀ dx dy : Int, (dx, dy) ∈ offsets ↔
      (-1 ≤ dx ∧ dx ≤ 1 ∧ -1 ≤ dy ∧ dy ≤ 1 ∧ (dx, dy) ≠ (0, 0))) ∧
    (∀ mo ∈ motions, (mo.x = 0 ∨ mo.y = 0) → mo.cost = Cost.one) ∧
    (∀ mo ∈ motions, (mo.x ≠ 0 ∧ mo.y ≠ 0) → mo.cost = Cost.sqrt2) ∧
    (motions.filter (fun mo => mo.x = 0 ∨ mo.y = 0)).length = 4 ∧
    (motions.filter (fun mo => mo.x ≠ 0 ∧ mo.y ≠ 0)).length = 4 := by
  refine ⟨rfl, rfl, rfl, by decide, ?_, by decide, by decide, by decide, by decide⟩
  intro dx dy
  constructor
  · intro h
    exact offsets_bound (dx, dy) h
  · rintro ⟨h1, h2, h3, h4, hne⟩
    have hx : dx = -1 ∨ dx = 0 ∨ dx = 1 := by omega
    have hy : dy = -1 ∨ dy = 0 ∨ dy = 1 := by omega
    rcases hx with rfl | rfl | rfl <;> rcases hy with rfl | rfl | rfl <;>
      first
        | exact absurd rfl hne
        | decide

/-- Rule for the loop heads: a property that holds in the first state and is kept by a
discarding turn and by an expanding turn that does not find the goal holds at every head. -/
theorem headsWith_inv (exp : NodePtr → SearchState → Except Fault SearchState)
    (P : SearchState → Prop)
    (hdiscard : ∀ st cur rest t, P st → pqPop st.nodes = some (cur, rest) →
      tableGet st.visited cur.x cur.y = some t → t ≠ 0 → P { st with nodes := rest })
    (hexpand : ∀ st cur rest tr st1, P st → pqPop st.nodes = some (cur, rest) →
      tableGet st.visited cur.x cur.y = some 0 →
      tableSet st.visited cur.x cur.y 1 = some tr →
      exp cur (enter st cur rest tr) = Except.ok st1 →
      st1.ending_flag = false → P st1) :
    ∀ (fuel : Nat) (st : SearchState), P st → ∀ s ∈ headsWith exp fuel st, P s := by
  intro fuel
  induction fuel with
  | zero => intro st _ s hs; simp [headsWith] at hs
  | succ n ih =>
    intro st hP s hs
    unfold headsWith at hs
    rcases List.mem_cons.1 hs with rfl | hs
    · exact hP
    · split at hs
      · simp at hs
      · rename_i cur rest hpop
        split at hs
        · simp at hs
        · rename_i t ht
          split at hs
          · rename_i hne
            exact ih _ (hdiscard st cur rest t hP hpop ht hne) s hs
          · rename_i hz
            have hz0 : t = 0 := by
              by_contra hne
              exact hz hne
            subst hz0
            split at hs
            · simp at hs
            · rename_i tr htr
              split at hs
              · simp at hs
              · rename_i st2 hexp
                split at hs
                · simp at hs
                · rename_i hflag
                  exact ih _ (hexpand st cur rest tr st2 hP hpop ht htr hexp
                    (by simpa using hflag)) s hs

/-- C12 fails on `overwriteMap`: `DjikstraPlanning` takes the node
`Node(2, 3, 3.0, ...)` from the frontier while cell `(2, 3)` is unvisited, so the cell is
finalized with cost field `3`, but the obstacle-free path `(1,1), (2,2), (2,3)` from the
start costs `1 + sqrt(2) < 3`. (The cost field is `path_cost[2][2] + 1`, and
`path_cost[2][2]` had been overwritten with `2` by the expansion of `(2, 1)`.)
`AstarPlanning`, which keeps the minimum, finalizes the cell with `1 + sqrt(2)`. -/
theorem djikstra_finalized_cost_not_minimal :
    (NodePtr.mk 2 3 ⟨3, 0⟩ (NodePtr.mk 2 2 ⟨0, 1⟩ (NodePtr.mk 1 1 Cost.zero NodePtr.null)),
        some 0) ∈ DjikstraPlanner.extractions overwriteMap ∧
    PathFromStart overwriteMap 2 3 [(2, 3), (2, 2), (1, 1)] ∧
    pathCost [(2, 3), (2, 2), (1, 1)] = ⟨1, 1⟩ ∧
    Cost.lt ⟨1, 1⟩ ⟨3, 0⟩ = true ∧
    (NodePtr.mk 2 3 ⟨1, 1⟩ (NodePtr.mk 2 2 ⟨0, 1⟩ (NodePtr.mk 1 1 Cost.zero NodePtr.null)),
        some 0) ∈ AstarPlanner.extractions AstarPlanner.fresh overwriteMap :=
  ⟨by decide!, by decide!, by decide!, by decide!, by decide!⟩

/-- C13 fails for `DjikstraPlanning` on `overwriteMap`: at the first three tests of the
`while` condition the Cost Table entry of the unvisited cell `(2, 2)` is `0`, then
`sqrt(2)` (written by the expansion of the start), then `2` (written by the expansion of
`(2, 1)`): the entry grows twice. In `AstarPlanning` the same entry is `2147483647`, then
`sqrt(2)`, and stays `sqrt(2)`. -/
theorem djikstra_cost_entry_increases :
    ((DjikstraPlanner.heads overwriteMap).map (fun s => tableGet s.path_cost 2 2)).take 3
      = [some ⟨0, 0⟩, some ⟨0, 1⟩, some ⟨2, 0⟩] ∧
    ((DjikstraPlanner.heads overwriteMap).map (fun s => tableGet s.visited 2 2)).take 3
      = [some 0, some 0, some 0] ∧
    Cost.lt ⟨0, 0⟩ ⟨0, 1⟩ = true ∧ Cost.lt ⟨0, 1⟩ ⟨2, 0⟩ = true ∧
    ((AstarPlanner.heads AstarPlanner.fresh overwriteMap).map
        (fun s => tableGet s.path_cost 2 2)).take 3
      = [some ⟨2147483647, 0⟩, some ⟨0, 1⟩, some ⟨0, 1⟩] :=
  ⟨by decide!, by decide!, by decide!, by decide!, by decide!⟩

/-- C18 fails on `inflatedMap`, whose heuristic is 0 everywhere: `DjikstraPlanning` returns
the path `(2,1), (1,2), (2,3), (3,4)` of cost `3·sqrt(2)` after expanding 6 cells, and
`AstarPlanning` the path `(2,1), (3,2), (3,3), (3,4)` of cost `2 + sqrt(2)` after expanding
5 cells; the node pushed for cell `(3, 3)` has priority `3` in `DjikstraPlanning` and
`1 + sqrt(2)` in `AstarPlanning`. -/
theorem astar_zero_heuristic_differs :
    (∀ x y, inflatedMap.heuristic x y = Cost.zero) ∧
    outcome (DjikstraPlanner.DjikstraPlanning DjikstraPlanner.fresh inflatedMap)
      = some (true, some [(3, 4), (2, 3), (1, 2), (2, 1)]) ∧
    outcome (AstarPlanner.AstarPlanning AstarPlanner.fresh inflatedMap)
      = some (true, some [(3, 4), (3, 3), (3, 2), (2, 1)]) ∧
    pathCost [(3, 4), (2, 3), (1, 2), (2, 1)] = ⟨0, 3⟩ ∧
    pathCost [(3, 4), (3, 3), (3, 2), (2, 1)] = ⟨2, 1⟩ ∧
    Cost.lt ⟨2, 1⟩ ⟨0, 3⟩ = true ∧
    expandedCells (DjikstraPlanner.DjikstraPlanning DjikstraPlanner.fresh inflatedMap)
      = some [(2, 1), (3, 1), (3, 2), (1, 2), (1, 3), (2, 3)] ∧
    expandedCells (AstarPlanner.AstarPlanning AstarPlanner.fresh inflatedMap)
      = some [(2, 1), (3, 1), (3, 2), (1, 2), (3, 3)] ∧
    ((DjikstraPlanner.heads inflatedMap).map
        (fun s => s.nodes.map (fun n => (n.x, n.y, n.cost)))).get? 3
      = some [(1, 2, ⟨0, 1⟩), (3, 2, ⟨2, 0⟩), (3, 3, ⟨3, 0⟩), (2, 3, ⟨2, 1⟩)] ∧
    ((AstarPlanner.heads AstarPlanner.fresh inflatedMap).map
        (fun s => s.nodes.map (fun n => (n.x, n.y, n.cost)))).get? 3
      = some [(1, 2, ⟨0, 1⟩), (3, 2, ⟨2, 0⟩), (3, 3, ⟨1, 1⟩), (2, 3, ⟨0, 2⟩)] :=
  ⟨fun _ _ => rfl, by decide!, by decide!, by decide!, by decide!, by decide!, by decide!,
    by decide!, by decide!, by decide!⟩

/-- One pass of the body of the motion loop of `DjikstraPlanning`, read off a completed
run: the Goal branch, the `continue`, or the push. -/
theorem djikstra_expand_cons (m : GlobalObstacleMap) (cur : NodePtr) (mo : Motion)
    (rest : List Motion) (st st1 : SearchState)
    (h : DjikstraPlanner.expand m cur (mo :: rest) st = Except.ok st1) :
    ∃ cpc, tableGet st.path_cost cur.x cur.y = some cpc ∧
      ((m.checkCell (cur.x + mo.x) (cur.y + mo.y) = Cell.GOAL ∧
          st1 = { st with final := some (NodePtr.mk (cur.x + mo.x) (cur.y + mo.y) Cost.zero cur),
                          ending_flag := true }) ∨
       (m.checkCell (cur.x + mo.x) (cur.y + mo.y) ≠ Cell.GOAL ∧
          ∃ t, tableGet st.visited (cur.x + mo.x) (cur.y + mo.y) = some t ∧
            (((t ≠ 0 ∨ m.checkCell (cur.x + mo.x) (cur.y + mo.y) = Cell.OBSTACLE) ∧
                DjikstraPlanner.expand m cur rest st = Except.ok st1) ∨
             (t = 0 ∧ m.checkCell (cur.x + mo.x) (cur.y + mo.y) ≠ Cell.OBSTACLE ∧
                ∃ pc, tableSet st.path_cost (cur.x + mo.x) (cur.y + mo.y)
                        (Cost.add cpc mo.cost) = some pc ∧
                  DjikstraPlanner.expand m cur rest
                    { st with path_cost := pc,
                              nodes := pqPush st.nodes
                                (NodePtr.mk (cur.x + mo.x) (cur.y + mo.y)
                                  (Cost.add cpc mo.cost) cur) } = Except.ok st1)))) := by
  unfold DjikstraPlanner.expand at h
  simp only at h
  split at h
  · simp at h
  · rename_i cpc hcpc
    refine ⟨cpc, hcpc, ?_⟩
    split at h
    · rename_i hgoal
      simp at h
      exact Or.inl ⟨hgoal, h.symm⟩
    · rename_i hgoal
      refine Or.inr ⟨hgoal, ?_⟩
      split at h
      · simp at h
      · rename_i t ht
        refine ⟨t, ht, ?_⟩
        split at h
        · rename_i hskip
          exact Or.inl ⟨hskip, h⟩
        · rename_i hskip
          have ht0 : t = 0 := by
            by_contra hne
            exact hskip (Or.inl hne)
          have hob : m.checkCell (cur.x + mo.x) (cur.y + mo.y) ≠ Cell.OBSTACLE :=
            fun hob => hskip (Or.inr hob)
          split at h
          · simp at h
          · rename_i pc hpc
            exact Or.inr ⟨ht0, hob, pc, hpc, h⟩

/-- One pass of the body of the motion loop of `AstarPlanning`, read off a completed run:
the Goal branch, the `continue`, or the push. -/
theorem astar_expand_cons (om : GlobalObstacleMap) (cur : NodePtr) (mo : Motion)
    (rest : List Motion) (st st1 : SearchState)
    (h : AstarPlanner.expand om cur (mo :: rest) st = Except.ok st1) :
    ∃ cpc, tableGet st.path_cost cur.x cur.y = some cpc ∧
      ((om.checkCell (cur.x + mo.x) (cur.y + mo.y) = Cell.GOAL ∧
          st1 = { st with final := some (NodePtr.mk (cur.x + mo.x) (cur.y + mo.y) Cost.zero cur),
                          ending_flag := true }) ∨
       (om.checkCell (cur.x + mo.x) (cur.y + mo.y) ≠ Cell.GOAL ∧
          ∃ t, tableGet st.visited (cur.x + mo.x) (cur.y + mo.y) = some t ∧
            (((t ≠ 0 ∨ om.checkCell (cur.x + mo.x) (cur.y + mo.y) = Cell.OBSTACLE) ∧
                AstarPlanner.expand om cur rest st = Except.ok st1) ∨
             (t = 0 ∧ om.checkCell (cur.x + mo.x) (cur.y + mo.y) ≠ Cell.OBSTACLE ∧
                ∃ old pc, tableGet st.path_cost (cur.x + mo.x) (cur.y + mo.y) = some old ∧
                  tableSet st.path_cost (cur.x + mo.x) (cur.y + mo.y)
                    (Cost.min old (Cost.add cpc mo.cost)) = some pc ∧
                  AstarPlanner.expand om cur rest
                    { st with path_cost := pc,
                              nodes := pqPush st.nodes
                                (NodePtr.mk (cur.x + mo.x) (cur.y + mo.y)
                                  (Cost.add (Cost.add cpc
                                    (om.heuristic (cur.x + mo.x) (cur.y + mo.y))) mo.cost)
                                  cur) } = Except.ok st1)))) := by
  unfold AstarPlanner.expand at h
  simp only at h
  split at h
  · simp at h
  · rename_i cpc hcpc
    refine ⟨cpc, hcpc, ?_⟩
    split at h
    · rename_i hgoal
      simp at h
      exact Or.inl ⟨hgoal, h.symm⟩
    · rename_i hgoal
      refine Or.inr ⟨hgoal, ?_⟩
      split at h
      · simp at h
      · rename_i t ht
        refine ⟨t, ht, ?_⟩
        split at h
        · rename_i hskip
          exact Or.inl ⟨hskip, h⟩
        · rename_i hskip
          have ht0 : t = 0 := by
            by_contra hne
            exact hskip (Or.inl hne)
          have hob : om.checkCell (cur.x + mo.x) (cur.y + mo.y) ≠ Cell.OBSTACLE :=
            fun hob => hskip (Or.inr hob)
          split at h
          · simp at h
          · rename_i old hold
            split at h
            · simp at h
            · rename_i pc hpc
              exact Or.inr ⟨ht0, hob, old, pc, hold, hpc, h⟩

/-- The motion loop of `DjikstraPlanning` writes no Cost Table entry of a visited cell. -/
theorem djikstra_expand_frozen (m : GlobalObstacleMap) (cur : NodePtr) :
    ∀ (ms : List Motion) (st st1 : SearchState),
      DjikstraPlanner.expand m cur ms st = Except.ok st1 →
      ∀ x y t, tableGet st.visited x y = some t → t ≠ 0 →
        tableGet st1.path_cost x y = tableGet st.path_cost x y := by
  intro ms
  induction ms with
  | nil =>
    intro st st1 h x y t _ _
    simp [DjikstraPlanner.expand] at h
    subst h
    rfl
  | cons mo rest ih =>
    intro st st1 h x y t hv ht
    obtain ⟨cpc, _, hcase⟩ := djikstra_expand_cons m cur mo rest st st1 h
    rcases hcase with ⟨_, rfl⟩ | ⟨_, t1, ht1, hskip | hpush⟩
    · rfl
    · exact ih st st1 hskip.2 x y t hv ht
    · obtain ⟨ht0, _, pc, hpc, hrest⟩ := hpush
      have h1 := ih _ st1 hrest x y t hv ht
      rw [h1]
      apply tableGet_set_other _ _ _ _ _ hpc
      rintro ⟨rfl, rfl⟩
      rw [ht1] at hv
      simp at hv
      exact ht (hv ▸ ht0)

/-- The motion loop of `AstarPlanning` writes no Cost Table entry of a visited cell. -/
theorem astar_expand_frozen (om : GlobalObstacleMap) (cur : NodePtr) :
    ∀ (ms : List Motion) (st st1 : SearchState),
      AstarPlanner.expand om cur ms st = Except.ok st1 →
      ∀ x y t, tableGet st.visited x y = some t → t ≠ 0 →
        tableGet st1.path_cost x y = tableGet st.path_cost x y := by
  intro ms
  induction ms with
  | nil =>
    intro st st1 h x y t _ _
    simp [AstarPlanner.expand] at h
    subst h
    rfl
  | cons mo rest ih =>
    intro st st1 h x y t hv ht
    obtain ⟨cpc, _, hcase⟩ := astar_expand_cons om cur mo rest st st1 h
    rcases hcase with ⟨_, rfl⟩ | ⟨_, t1, ht1, hskip | hpush⟩
    · rfl
    · exact ih st st1 hskip.2 x y t hv ht
    · obtain ⟨ht0, _, old, pc, _, hpc, hrest⟩ := hpush
      have h1 := ih _ st1 hrest x y t hv ht
      rw [h1]
      apply tableGet_set_other _ _ _ _ _ hpc
      rintro ⟨rfl, rfl⟩
      rw [ht1] at hv
      simp at hv
      exact ht (hv ▸ ht0)

/-- A loop result that is a state is the state `stateOf` returns. -/
theorem stateOf_ok (res : Except Fault SearchState) (h : isOk res = true) :
    res = Except.ok (stateOf res) := by
  cases res with
  | error e => simp [isOk] at h
  | ok s => rfl

/-- The motion loop of `DjikstraPlanning` does not touch the Visited table. -/
theorem djikstra_expand_visited (m : GlobalObstacleMap) (cur : NodePtr) :
    ∀ (ms : List Motion) (st st1 : SearchState),
      DjikstraPlanner.expand m cur ms st = Except.ok st1 → st1.visited = st.visited := by
  intro ms
  induction ms with
  | nil =>
    intro st st1 h
    simp [DjikstraPlanner.expand] at h
    rw [h]
  | cons mo rest ih =>
    intro st st1 h
    obtain ⟨cpc, _, hcase⟩ := djikstra_expand_cons m cur mo rest st st1 h
    rcases hcase with ⟨_, rfl⟩ | ⟨_, t1, _, hskip | hpush⟩
    · rfl
    · exact ih st st1 hskip.2
    · obtain ⟨_, _, pc, _, hrest⟩ := hpush
      have h1 := ih _ st1 hrest
      exact h1

/-- The motion loop of `AstarPlanning` does not touch the Visited table. -/
theorem astar_expand_visited (om : GlobalObstacleMap) (cur : NodePtr) :
    ∀ (ms : List Motion) (st st1 : SearchState),
      AstarPlanner.expand om cur ms st = Except.ok st1 → st1.visited = st.visited := by
  intro ms
  induction ms with
  | nil =>
    intro st st1 h
    simp [AstarPlanner.expand] at h
    rw [h]
  | cons mo rest ih =>
    intro st st1 h
    obtain ⟨cpc, _, hcase⟩ := astar_expand_cons om cur mo rest st st1 h
    rcases hcase with ⟨_, rfl⟩ | ⟨_, t1, _, hskip | hpush⟩
    · rfl
    · exact ih st st1 hskip.2
    · obtain ⟨_, _, old, pc, _, _, hrest⟩ := hpush
      have h1 := ih _ st1 hrest
      exact h1

/-- From any loop head on, the `while` loop leaves the Visited entry and the Cost Table
entry of every visited cell as they are. -/
theorem loopWith_frozen (m : GlobalObstacleMap)
    (exp : NodePtr → SearchState → Except Fault SearchState)
    (hrel : ∀ cur st st1, exp cur st = Except.ok st1 → ExpandRel m cur motions st st1)
    (hfro : ∀ cur st st1, exp cur st = Except.ok st1 →
      ∀ x y t, tableGet st.visited x y = some t → t ≠ 0 →
        tableGet st1.path_cost x y = tableGet st.path_cost x y)
    (fuel : Nat) (st r : SearchState) (hrun : loopWith exp fuel st = Except.ok r)
    (x y : Int) (t : Int) (hv : tableGet st.visited x y = some t) (ht : t ≠ 0) :
    tableGet r.visited x y = some t ∧
      tableGet r.path_cost x y = tableGet st.path_cost x y := by
  have key : ∀ s cur rest tr s1,
      (tableGet s.visited x y = some t ∧
        tableGet s.path_cost x y = tableGet st.path_cost x y) →
      tableGet s.visited cur.x cur.y = some 0 →
      tableSet s.visited cur.x cur.y 1 = some tr →
      exp cur (enter s cur rest tr) = Except.ok s1 →
      (tableGet s1.visited x y = some t ∧
        tableGet s1.path_cost x y = tableGet st.path_cost x y) := by
    intro s cur rest tr s1 hP hget hset hexp
    have hne : ¬ (x = cur.x ∧ y = cur.y) := by
      rintro ⟨rfl, rfl⟩
      rw [hget] at hP
      have := hP.1
      simp at this
      exact ht this.symm
    have htr : tableGet tr x y = some t := by
      rw [tableGet_set_other _ _ _ _ _ hset x y hne]
      exact hP.1
    have r1 := hrel _ _ _ hexp
    constructor
    · rw [r1.visited_eq]
      exact htr
    · rw [hfro _ _ _ hexp x y t htr ht]
      exact hP.2
  refine loopWith_post exp
    (fun s => tableGet s.visited x y = some t ∧
      tableGet s.path_cost x y = tableGet st.path_cost x y)
    (fun s => tableGet s.visited x y = some t ∧
      tableGet s.path_cost x y = tableGet st.path_cost x y)
    (fun s hP _ => hP) (fun s cur rest t1 hP _ _ _ => hP) ?_ fuel st r ⟨hv, rfl⟩ hrun
  intro s cur rest tr s1 hP _ hget hset hexp
  have := key s cur rest tr s1 hP hget hset hexp
  exact ⟨fun _ => this, fun _ => this⟩

/-- C14: in both planners a Visited entry that is set stays as it is, and the Cost Table
entry of that cell is not written again: from any point of the motion loop (the motions
`ms` still to be processed for the node `cur`, state `st`) to the end of that motion loop
(state `st1`), and from there through any run of the `while` loop to its end (state `r`),
every cell whose Visited entry is non-zero in `st` keeps that Visited entry and its Cost
Table entry. -/
theorem visited_entry_is_final (m : GlobalObstacleMap) (cur : NodePtr) (ms : List Motion)
    (fuel : Nat) (st st1 r : SearchState)
    (h : (DjikstraPlanner.expand m cur ms st = Except.ok st1 ∧
            DjikstraPlanner.loop m fuel st1 = Except.ok r) ∨
         (AstarPlanner.expand m cur ms st = Except.ok st1 ∧
            AstarPlanner.loop m fuel st1 = Except.ok r))
    (x y t : Int) (hv : tableGet st.visited x y = some t) (ht : t ≠ 0) :
    (tableGet st1.visited x y = some t ∧
      tableGet st1.path_cost x y = tableGet st.path_cost x y) ∧
    (tableGet r.visited x y = some t ∧
      tableGet r.path_cost x y = tableGet st.path_cost x y) := by
  rcases h with ⟨hexp, hloop⟩ | ⟨hexp, hloop⟩
  · have hvis : st1.visited = st.visited := djikstra_expand_visited m cur ms st st1 hexp
    have h1 := djikstra_expand_frozen m cur ms st st1 hexp x y t hv ht
    have hv1 : tableGet st1.visited x y = some t := by rw [hvis]; exact hv
    rw [djikstra_loop_eq] at hloop
    have h2 := loopWith_frozen m _ (djikstra_expand_rel8 m)
      (fun c s s1 hs => djikstra_expand_frozen m c motions s s1 hs) fuel st1 r hloop x y t
      hv1 ht
    exact ⟨⟨hv1, h1⟩, h2.1, by rw [h2.2, h1]⟩
  · have hvis : st1.visited = st.visited := astar_expand_visited m cur ms st st1 hexp
    have h1 := astar_expand_frozen m cur ms st st1 hexp x y t hv ht
    have hv1 : tableGet st1.visited x y = some t := by rw [hvis]; exact hv
    rw [astar_loop_eq] at hloop
    have h2 := loopWith_frozen m _ (astar_expand_rel8 m)
      (fun c s s1 hs => astar_expand_frozen m c motions s s1 hs) fuel st1 r hloop x y t
      hv1 ht
    exact ⟨⟨hv1, h1⟩, h2.1, by rw [h2.2, h1]⟩

/-- C14 on `overwriteMap`: the start cell `(1, 1)`, marked Visited when the motion loop
for the start node begins, keeps its Visited entry and its Cost Table entry through that
motion loop and to the end of the `while` loop. -/
theorem visited_entry_is_final_witness :
    (DjikstraPlanner.expand overwriteMap (NodePtr.mk 1 1 Cost.zero NodePtr.null) motions
        overwriteMarked = Except.ok overwriteHead ∧
      DjikstraPlanner.loop overwriteMap 60 overwriteHead = Except.ok overwriteEnd) ∧
    tableGet overwriteMarked.visited 1 1 = some 1 ∧
    ((tableGet overwriteHead.visited 1 1 = some 1 ∧
      tableGet overwriteHead.path_cost 1 1 = tableGet overwriteMarked.path_cost 1 1) ∧
    (tableGet overwriteEnd.visited 1 1 = some 1 ∧
      tableGet overwriteEnd.path_cost 1 1 = tableGet overwriteMarked.path_cost 1 1)) :=
  have h1 : DjikstraPlanner.expand overwriteMap (NodePtr.mk 1 1 Cost.zero NodePtr.null)
      motions overwriteMarked = Except.ok overwriteHead :=
    (stateOf_ok _ (by decide!)).trans (congrArg Except.ok (by decide!))
  have h2 : DjikstraPlanner.loop overwriteMap 60 overwriteHead = Except.ok overwriteEnd :=
    stateOf_ok _ (by decide!)
  have h3 : tableGet overwriteMarked.visited 1 1 = some 1 := by decide!
  ⟨⟨h1, h2⟩, h3,
    visited_entry_is_final overwriteMap (NodePtr.mk 1 1 Cost.zero NodePtr.null) motions 60
      overwriteMarked overwriteHead overwriteEnd (Or.inl ⟨h1, h2⟩) 1 1 1 h3 (by decide)⟩

/-- A turn of the loop that takes a node of a visited cell from the frontier only removes
that node: the loop goes on from the state with the rest of the frontier. -/
theorem loopWith_discard (exp : NodePtr → SearchState → Except Fault SearchState)
    (fuel : Nat) (st : SearchState) (cur : NodePtr) (rest : List NodePtr) (t : Int)
    (hpop : pqPop st.nodes = some (cur, rest))
    (ht : tableGet st.visited cur.x cur.y = some t) (hne : t ≠ 0) :
    loopWith exp (fuel + 1) st = loopWith exp fuel { st with nodes := rest } := by
  rw [loopWith, hpop]
  simp only []
  rw [ht]
  simp only []
  rw [if_pos hne]

/-- An expanding turn keeps the expanded cells pairwise distinct. -/
theorem ExpandedOnce.marks_fresh {m : GlobalObstacleMap} {st st1 : SearchState}
    {cur : NodePtr} {rest : List NodePtr} {tr : List (List Int)} (h : ExpandedOnce st)
    (ht : tableGet st.visited cur.x cur.y = some 0)
    (htr : tableSet st.visited cur.x cur.y 1 = some tr)
    (hrel : ExpandRel m cur motions (enter st cur rest tr) st1) : ExpandedOnce st1 := by
  have hcur : (cur.x, cur.y) ∉ st.annotated := by
    intro hmem
    obtain ⟨t, h1, h2⟩ := h.2 _ hmem
    rw [ht] at h1
    simp at h1
    exact h2 h1.symm
  have hann : st1.annotated = st.annotated ++ [(cur.x, cur.y)] := by
    rw [hrel.annotated_eq]
    rfl
  have hvis : st1.visited = tr := by
    rw [hrel.visited_eq]
    rfl
  constructor
  · rw [hann]
    refine List.Nodup.append h.1 (List.nodup_singleton _) ?_
    intro a ha hb
    simp at hb
    subst hb
    exact hcur ha
  · intro c hc
    rw [hann] at hc
    rw [hvis]
    rcases List.mem_append.1 hc with hc | hc
    · obtain ⟨t, h1, h2⟩ := h.2 c hc
      have hne : ¬ (c.1 = cur.x ∧ c.2 = cur.y) := by
        rintro ⟨hx, hy⟩
        rw [hx, hy, ht] at h1
        simp at h1
        exact h2 h1.symm
      exact ⟨t, by rw [tableGet_set_other _ _ _ _ _ htr c.1 c.2 hne]; exact h1, h2⟩
    · simp at hc
      subst hc
      exact ⟨1, tableGet_set_same _ _ _ _ _ htr, by decide⟩

/-- The loop expands no cell twice. -/
theorem loopWith_once (m : GlobalObstacleMap)
    (exp : NodePtr → SearchState → Except Fault SearchState)
    (hrel : ∀ cur st st1, exp cur st = Except.ok st1 → ExpandRel m cur motions st st1)
    (fuel : Nat) (st r : SearchState) (h : ExpandedOnce st)
    (hrun : loopWith exp fuel st = Except.ok r) : ExpandedOnce r := by
  refine loopWith_post exp ExpandedOnce ExpandedOnce (fun s hP _ => hP)
    (fun s cur rest t hP _ _ _ => hP) ?_ fuel st r h hrun
  intro s cur rest tr s1 hP _ hget hset hexp
  have := hP.marks_fresh hget hset (hrel _ _ _ hexp)
  exact ⟨fun _ => this, fun _ => this⟩

/-- `DjikstraPlanning` enters its loop with no cell annotated. -/
theorem djikstra_init_annotated (m : GlobalObstacleMap) (st : SearchState)
    (h : DjikstraPlanner.init m = Except.ok st) : st.annotated = [] := by
  unfold DjikstraPlanner.init at h
  simp only at h
  split at h
  · simp at h
  · simp at h
    rw [← h]

/-- `AstarPlanning` enters its loop with no cell annotated. -/
theorem astar_init_annotated (self : AstarPlanner) (om : GlobalObstacleMap)
    (st : SearchState) (h : AstarPlanner.init self om = Except.ok st) :
    st.annotated = [] := by
  unfold AstarPlanner.init at h
  simp only at h
  split at h
  · simp at h
  · simp at h
    rw [← h]

/-- C15: in both planners a node taken from the frontier whose cell is already Visited is
dropped and nothing else changes (the loop goes on from the state that differs only in
the frontier, without the node), and in a completed planning call no cell is expanded
twice: the cells annotated `ROBOT` are pairwise distinct. -/
theorem stale_node_is_discarded (m : GlobalObstacleMap) (sd : DjikstraPlanner)
    (sa : AstarPlanner) (r : PlanResult)
    (h : (∃ s, DjikstraPlanner.DjikstraPlanning sd m = Except.ok (r, s)) ∨
         (∃ s, AstarPlanner.AstarPlanning sa m = Except.ok (r, s)))
    (fuel : Nat) (st : SearchState) (cur : NodePtr) (rest : List NodePtr) (t : Int)
    (hpop : pqPop st.nodes = some (cur, rest))
    (ht : tableGet st.visited cur.x cur.y = some t) (hne : t ≠ 0) :
    r.annotated.Nodup ∧
    DjikstraPlanner.loop m (fuel + 1) st
      = DjikstraPlanner.loop m fuel { st with nodes := rest } ∧
    AstarPlanner.loop m (fuel + 1) st
      = AstarPlanner.loop m fuel { st with nodes := rest } := by
  refine ⟨?_, ?_, ?_⟩
  · rcases h with ⟨s, h⟩ | ⟨s, h⟩
    · obtain ⟨st0, st1, h0, hrun, rfl⟩ := djikstra_run sd m r s h
      have h1 : ExpandedOnce st0 := by
        unfold ExpandedOnce
        rw [djikstra_init_annotated m st0 h0]
        simp
      exact (loopWith_once m _ (djikstra_expand_rel8 m) _ st0 st1 h1 hrun).1
    · obtain ⟨st0, st1, h0, hrun, rfl⟩ := astar_run sa m r s h
      have h1 : ExpandedOnce st0 := by
        unfold ExpandedOnce
        rw [astar_init_annotated sa m st0 h0]
        simp
      exact (loopWith_once m _ (astar_expand_rel8 m) _ st0 st1 h1 hrun).1
  · rw [djikstra_loop_eq, djikstra_loop_eq]
    exact loopWith_discard _ fuel st cur rest t hpop ht hne
  · rw [astar_loop_eq, astar_loop_eq]
    exact loopWith_discard _ fuel st cur rest t hpop ht hne

/-- C15 on `overwriteMap`: the call of `DjikstraPlanning` expands 6 distinct cells, and at
its fifth loop head the node `Node(2, 2, 2.0)` pushed by `(2, 1)` is taken from the
frontier although `(2, 2)` is Visited. -/
theorem stale_node_is_discarded_witness :
    ∃ r cur rest,
      (∃ s, DjikstraPlanner.DjikstraPlanning DjikstraPlanner.fresh overwriteMap
        = Except.ok (r, s)) ∧
      pqPop staleHead.nodes = some (cur, rest) ∧
      (cur.x, cur.y, cur.cost) = (2, 2, ⟨2, 0⟩) ∧
      tableGet staleHead.visited cur.x cur.y = some 1 ∧
      r.annotated = [(1, 1), (2, 1), (2, 2), (3, 1), (3, 2), (2, 3)] ∧
      (r.annotated.Nodup ∧
        DjikstraPlanner.loop overwriteMap (50 + 1) staleHead
          = DjikstraPlanner.loop overwriteMap 50 { staleHead with nodes := rest } ∧
        AstarPlanner.loop overwriteMap (50 + 1) staleHead
          = AstarPlanner.loop overwriteMap 50 { staleHead with nodes := rest }) := by
  have hok : ∃ v, DjikstraPlanner.DjikstraPlanning DjikstraPlanner.fresh overwriteMap
      = Except.ok v := by
    cases h : DjikstraPlanner.DjikstraPlanning DjikstraPlanner.fresh overwriteMap with
    | ok v => exact ⟨v, rfl⟩
    | error e =>
      have : faultOf (DjikstraPlanner.DjikstraPlanning DjikstraPlanner.fresh overwriteMap)
          = none := by decide!
      rw [h] at this
      simp [faultOf] at this
  obtain ⟨⟨r, s⟩, hrs⟩ := hok
  have hpop : ∃ p, pqPop staleHead.nodes = some p ∧ (p.1.x, p.1.y, p.1.cost) = (2, 2, ⟨2, 0⟩) ∧
      tableGet staleHead.visited p.1.x p.1.y = some 1 := by
    cases hp : pqPop staleHead.nodes with
    | none =>
      have : (pqPop staleHead.nodes).isSome = true := by decide!
      rw [hp] at this
      simp at this
    | some p =>
      refine ⟨p, rfl, ?_⟩
      have : ((pqPop staleHead.nodes).map
          (fun p => ((p.1.x, p.1.y, p.1.cost), tableGet staleHead.visited p.1.x p.1.y)))
          = some ((2, 2, ⟨2, 0⟩), some 1) := by decide!
      rw [hp] at this
      simp at this
      obtain ⟨⟨h1, h2, h3⟩, h4⟩ := this
      exact ⟨by rw [h1, h2, h3], h4⟩
  obtain ⟨⟨cur, rest⟩, hp, hc, hv⟩ := hpop
  have hann : expandedCells
      (DjikstraPlanner.DjikstraPlanning DjikstraPlanner.fresh overwriteMap)
      = some [(1, 1), (2, 1), (2, 2), (3, 1), (3, 2), (2, 3)] := by decide!
  rw [hrs] at hann
  simp [expandedCells] at hann
  exact ⟨r, cur, rest, ⟨s, hrs⟩, hp, hc, hv, hann,
    stale_node_is_discarded overwriteMap DjikstraPlanner.fresh AstarPlanner.fresh r
      (Or.inl ⟨s, hrs⟩) 50 staleHead cur rest 1 hp hv (by decide)⟩

/-- The motion loop of `DjikstraPlanning` over motions none of which leads to a Goal cell,
followed by further motions: the further motions are processed from the state reached. -/
theorem djikstra_expand_append (m : GlobalObstacleMap) (cur : NodePtr) (post : List Motion) :
    ∀ (pre : List Motion) (st st1 : SearchState),
      DjikstraPlanner.expand m cur pre st = Except.ok st1 →
      (∀ k ∈ pre, m.checkCell (cur.x + k.x) (cur.y + k.y) ≠ Cell.GOAL) →
      DjikstraPlanner.expand m cur (pre ++ post) st = DjikstraPlanner.expand m cur post st1 := by
  intro pre
  induction pre with
  | nil =>
    intro st st1 h _
    simp [DjikstraPlanner.expand] at h
    subst h
    rfl
  | cons k pre ih =>
    intro st st1 h hng
    have hk := hng k (List.mem_cons_self _ _)
    have hrest : ∀ j ∈ pre, m.checkCell (cur.x + j.x) (cur.y + j.y) ≠ Cell.GOAL :=
      fun j hj => hng j (List.mem_cons_of_mem _ hj)
    obtain ⟨cpc, hcpc, hcase⟩ := djikstra_expand_cons m cur k pre st st1 h
    rcases hcase with ⟨hg, _⟩ | ⟨_, t, ht, ⟨hskip, hr⟩ | ⟨ht0, hob, pc, hpc, hr⟩⟩
    · exact absurd hg hk
    · rw [List.cons_append, DjikstraPlanner.expand]
      simp only [hcpc, hk, ht, if_false, if_pos hskip]
      exact ih st st1 hr hrest
    · have hnskip : ¬ (t ≠ 0 ∨ m.checkCell (cur.x + k.x) (cur.y + k.y) = Cell.OBSTACLE) := by
        rintro (h1 | h1)
        · exact h1 ht0
        · exact hob h1
      rw [List.cons_append, DjikstraPlanner.expand]
      simp only [hcpc, hk, ht, if_false, if_neg hnskip, hpc]
      exact ih _ st1 hr hrest

/-- The motion loop of `AstarPlanning` over motions none of which leads to a Goal cell,
followed by further motions: the further motions are processed from the state reached. -/
theorem astar_expand_append (om : GlobalObstacleMap) (cur : NodePtr) (post : List Motion) :
    ∀ (pre : List Motion) (st st1 : SearchState),
      AstarPlanner.expand om cur pre st = Except.ok st1 →
      (∀ k ∈ pre, om.checkCell (cur.x + k.x) (cur.y + k.y) ≠ Cell.GOAL) →
      AstarPlanner.expand om cur (pre ++ post) st = AstarPlanner.expand om cur post st1 := by
  intro pre
  induction pre with
  | nil =>
    intro st st1 h _
    simp [AstarPlanner.expand] at h
    subst h
    rfl
  | cons k pre ih =>
    intro st st1 h hng
    have hk := hng k (List.mem_cons_self _ _)
    have hrest : ∀ j ∈ pre, om.checkCell (cur.x + j.x) (cur.y + j.y) ≠ Cell.GOAL :=
      fun j hj => hng j (List.mem_cons_of_mem _ hj)
    obtain ⟨cpc, hcpc, hcase⟩ := astar_expand_cons om cur k pre st st1 h
    rcases hcase with ⟨hg, _⟩ | ⟨_, t, ht, ⟨hskip, hr⟩ | ⟨ht0, hob, old, pc, hold, hpc, hr⟩⟩
    · exact absurd hg hk
    · rw [List.cons_append, AstarPlanner.expand]
      simp only [hcpc, hk, ht, if_false, if_pos hskip]
      exact ih st st1 hr hrest
    · have hnskip : ¬ (t ≠ 0 ∨ om.checkCell (cur.x + k.x) (cur.y + k.y) = Cell.OBSTACLE) := by
        rintro (h1 | h1)
        · exact h1 ht0
        · exact hob h1
      rw [List.cons_append, AstarPlanner.expand]
      simp only [hcpc, hk, ht, if_false, if_neg hnskip, hold, hpc]
      exact ih _ st1 hr hrest

/-- The Goal branch of the motion loop of `DjikstraPlanning`. -/
theorem djikstra_expand_goal (m : GlobalObstacleMap) (cur : NodePtr) (mo : Motion)
    (post : List Motion) (st : SearchState) (cpc : Cost)
    (hcpc : tableGet st.path_cost cur.x cur.y = some cpc)
    (hgoal : m.checkCell (cur.x + mo.x) (cur.y + mo.y) = Cell.GOAL) :
    DjikstraPlanner.expand m cur (mo :: post) st
      = Except.ok { st with final := some (NodePtr.mk (cur.x + mo.x) (cur.y + mo.y)
                                        Cost.zero cur),
                            ending_flag := true } := by
  rw [DjikstraPlanner.expand]
  simp only [hcpc, hgoal, if_true]

/-- The Goal branch of the motion loop of `AstarPlanning`. -/
theorem astar_expand_goal (om : GlobalObstacleMap) (cur : NodePtr) (mo : Motion)
    (post : List Motion) (st : SearchState) (cpc : Cost)
    (hcpc : tableGet st.path_cost cur.x cur.y = some cpc)
    (hgoal : om.checkCell (cur.x + mo.x) (cur.y + mo.y) = Cell.GOAL) :
    AstarPlanner.expand om cur (mo :: post) st
      = Except.ok { st with final := some (NodePtr.mk (cur.x + mo.x) (cur.y + mo.y)
                                        Cost.zero cur),
                            ending_flag := true } := by
  rw [AstarPlanner.expand]
  simp only [hcpc, hgoal, if_true]

/-- A turn of the loop whose motion loop ends with `ending_flag` set ends the loop. -/
theorem loopWith_found (exp : NodePtr → SearchState → Except Fault SearchState)
    (fuel : Nat) (st st1 : SearchState) (cur : NodePtr) (rest : List NodePtr)
    (tr : List (List Int))
    (hpop : pqPop st.nodes = some (cur, rest))
    (hget : tableGet st.visited cur.x cur.y = some 0)
    (hset : tableSet st.visited cur.x cur.y 1 = some tr)
    (hexp : exp cur (enter st cur rest tr) = Except.ok st1)
    (hflag : st1.ending_flag = true) :
    loopWith exp (fuel + 1) st = Except.ok st1 := by
  rw [loopWith, hpop]
  simp only []
  rw [hget]
  simp only [ne_eq, not_true_eq_false, if_false]
  rw [hset]
  simp only []
  unfold enter at hexp
  rw [hexp]
  simp only [hflag, if_true]

/-- A turn of the loop whose motion loop ends with `ending_flag` false is followed by the
next turn. -/
theorem loopWith_continue (exp : NodePtr → SearchState → Except Fault SearchState)
    (fuel : Nat) (st st1 : SearchState) (cur : NodePtr) (rest : List NodePtr)
    (tr : List (List Int))
    (hpop : pqPop st.nodes = some (cur, rest))
    (hget : tableGet st.visited cur.x cur.y = some 0)
    (hset : tableSet st.visited cur.x cur.y 1 = some tr)
    (hexp : exp cur (enter st cur rest tr) = Except.ok st1)
    (hflag : st1.ending_flag = false) :
    loopWith exp (fuel + 1) st = loopWith exp fuel st1 := by
  rw [loopWith, hpop]
  simp only []
  rw [hget]
  simp only [ne_eq, not_true_eq_false, if_false]
  rw [hset]
  simp only []
  unfold enter at hexp
  rw [hexp]
  simp only [hflag]
  rfl

/-- The loop run from `st` passes through each of its heads: from a head on, the loop
computes the same result. -/
theorem loopWith_of_head (exp : NodePtr → SearchState → Except Fault SearchState) :
    ∀ (fuel : Nat) (st s : SearchState), s ∈ headsWith exp fuel st →
      ∃ k, k < fuel ∧ loopWith exp fuel st = loopWith exp (k + 1) s := by
  intro fuel
  induction fuel with
  | zero => intro st s hs; simp [headsWith] at hs
  | succ n ih =>
    intro st s hs
    unfold headsWith at hs
    rcases List.mem_cons.1 hs with rfl | hs
    · exact ⟨n, Nat.lt_succ_self n, rfl⟩
    · split at hs
      · simp at hs
      · rename_i cur rest hpop
        split at hs
        · simp at hs
        · rename_i t ht
          split at hs
          · rename_i hne
            rw [loopWith_discard exp n st cur rest t hpop ht hne]
            obtain ⟨k, hk, he⟩ := ih _ s hs
            exact ⟨k, by omega, he⟩
          · rename_i hz
            have hz0 : t = 0 := by
              by_contra hne
              exact hz hne
            subst hz0
            split at hs
            · simp at hs
            · rename_i tr htr
              split at hs
              · simp at hs
              · rename_i st2 hexp
                split at hs
                · simp at hs
                · rename_i hflag
                  rw [loopWith_continue exp n st st2 cur rest tr hpop ht htr hexp
                    (by simpa using hflag)]
                  obtain ⟨k, hk, he⟩ := ih _ s hs
                  exact ⟨k, by omega, he⟩

/-- The nodes pushed by the motion loop of `DjikstraPlanning` point back to the current
node and none of them is on a Goal cell. -/
theorem djikstra_expand_pushed (m : GlobalObstacleMap) (cur : NodePtr) :
    ∀ (ms : List Motion) (st st1 : SearchState),
      DjikstraPlanner.expand m cur ms st = Except.ok st1 →
      ∃ l, st1.nodes = st.nodes ++ l ∧
        ∀ n ∈ l, n.pre = cur ∧ m.checkCell n.x n.y ≠ Cell.GOAL := by
  intro ms
  induction ms with
  | nil =>
    intro st st1 h
    simp [DjikstraPlanner.expand] at h
    subst h
    exact ⟨[], by simp, by simp⟩
  | cons k ms ih =>
    intro st st1 h
    obtain ⟨cpc, _, hcase⟩ := djikstra_expand_cons m cur k ms st st1 h
    rcases hcase with ⟨_, rfl⟩ | ⟨hk, t, _, ⟨_, hr⟩ | ⟨_, _, pc, _, hr⟩⟩
    · exact ⟨[], by simp, by simp⟩
    · exact ih st st1 hr
    · obtain ⟨l, h1, h2⟩ := ih _ st1 hr
      refine ⟨NodePtr.mk (cur.x + k.x) (cur.y + k.y) (Cost.add cpc k.cost) cur :: l, ?_, ?_⟩
      · rw [h1]
        simp [pqPush]
      · intro n hn
        rcases List.mem_cons.1 hn with rfl | hn
        · exact ⟨rfl, hk⟩
        · exact h2 n hn

/-- The nodes pushed by the motion loop of `AstarPlanning` point back to the current node
and none of them is on a Goal cell. -/
theorem astar_expand_pushed (om : GlobalObstacleMap) (cur : NodePtr) :
    ∀ (ms : List Motion) (st st1 : SearchState),
      AstarPlanner.expand om cur ms st = Except.ok st1 →
      ∃ l, st1.nodes = st.nodes ++ l ∧
        ∀ n ∈ l, n.pre = cur ∧ om.checkCell n.x n.y ≠ Cell.GOAL := by
  intro ms
  induction ms with
  | nil =>
    intro st st1 h
    simp [AstarPlanner.expand] at h
    subst h
    exact ⟨[], by simp, by simp⟩
  | cons k ms ih =>
    intro st st1 h
    obtain ⟨cpc, _, hcase⟩ := astar_expand_cons om cur k ms st st1 h
    rcases hcase with ⟨_, rfl⟩ | ⟨hk, t, _, ⟨_, hr⟩ | ⟨_, _, old, pc, _, _, hr⟩⟩
    · exact ⟨[], by simp, by simp⟩
    · exact ih st st1 hr
    · obtain ⟨l, h1, h2⟩ := ih _ st1 hr
      refine ⟨NodePtr.mk (cur.x + k.x) (cur.y + k.y)
        (Cost.add (Cost.add cpc (om.heuristic (cur.x + k.x) (cur.y + k.y))) k.cost) cur :: l,
        ?_, ?_⟩
      · rw [h1]
        simp [pqPush]
      · intro n hn
        rcases List.mem_cons.1 hn with rfl | hn
        · exact ⟨rfl, hk⟩
        · exact h2 n hn

/-- A frontier node is the start node or is not on a Goal cell. -/
theorem chainOK_start_or_not_goal {m : GlobalObstacleMap} {d : List Nat} (n : NodePtr)
    (h : ChainOK m d n) :
    (n.pre = NodePtr.null ∧ n.x = m.start_x ∧ n.y = m.start_y) ∨
      m.checkCell n.x n.y ≠ Cell.GOAL := by
  cases n with
  | null => exact absurd h (by simp [ChainOK])
  | mk x y c pre =>
    unfold ChainOK at h
    rcases h.2 with ⟨h1, h2, h3⟩ | ⟨_, _, _, h4⟩
    · exact Or.inl ⟨h1, h2, h3⟩
    · exact Or.inr h4

/-- The frontier at every loop head holds well-formed chains. -/
theorem headsWith_chains (m : GlobalObstacleMap) (d : List Nat)
    (exp : NodePtr → SearchState → Except Fault SearchState)
    (hrel : ∀ cur st st1, exp cur st = Except.ok st1 → ExpandRel m cur motions st st1)
    (fuel : Nat) (st : SearchState) (h : Inv m d st) :
    ∀ s ∈ headsWith exp fuel st, Inv m d s :=
  headsWith_inv exp (Inv m d)
    (fun _ _ _ _ hP hpop _ _ => hP.discard hpop)
    (fun _ _ _ _ _ hP hpop _ _ hexp _ => hP.expand hpop (hrel _ _ _ hexp)) fuel st h

/-- The loop expands no Goal cell other than the start cell. -/
theorem loopWith_not_goal (m : GlobalObstacleMap) (d : List Nat)
    (exp : NodePtr → SearchState → Except Fault SearchState)
    (hrel : ∀ cur st st1, exp cur st = Except.ok st1 → ExpandRel m cur motions st st1)
    (fuel : Nat) (st r : SearchState) (h : Inv m d st) (h2 : ExpandedNotGoal m st)
    (hrun : loopWith exp fuel st = Except.ok r) : ExpandedNotGoal m r := by
  have key := loopWith_post exp (fun s => Inv m d s ∧ ExpandedNotGoal m s)
    (fun s => ExpandedNotGoal m s) (fun s hP _ => hP.2)
    (fun s cur rest t hP hpop _ _ => ⟨hP.1.discard hpop, hP.2⟩) ?_ fuel st r ⟨h, h2⟩ hrun
  · exact key
  · intro s cur rest tr s1 hP hpop _ _ hexp
    have r1 := hrel _ _ _ hexp
    have hinv : Inv m d s1 := hP.1.expand hpop r1
    have hcur := chainOK_start_or_not_goal cur (hP.1.nodes_ok cur (pqPop_mem _ _ _ hpop).1)
    have hng : ExpandedNotGoal m s1 := by
      intro c hc
      rw [r1.annotated_eq] at hc
      have hc2 : c ∈ s.annotated ++ [(cur.x, cur.y)] := hc
      rcases List.mem_append.1 hc2 with hc3 | hc3
      · exact hP.2 c hc3
      · simp at hc3
        subst hc3
        rcases hcur with ⟨_, hx, hy⟩ | hcur
        · left
          simp [hx, hy]
        · exact Or.inr hcur
    exact ⟨fun _ => hng, fun _ => ⟨hinv, hng⟩⟩

/-- C16, amended for a start on the Goal cell: in both planners (`exp`, `lp` the motion
loop and the `while` loop of one planner), when the node `cur` is taken from the frontier
and expanded, the motions `pre` lead to no Goal cell and the next motion `mo` leads to a
Goal cell, the loop ends at once with the state reached after `pre`, the terminal node
`Node(cur.x + mo.x, cur.y + mo.y, 0.0, cur)` in `final` and `ending_flag` set: the motions
`post` are not processed and nothing more is taken from the frontier. The nodes pushed by
a motion loop point back to `cur` and none is on a Goal cell; in a completed call the only
Goal cell that can have been expanded (marked Visited) is the start cell, and at every
loop head the only frontier node that can be on a Goal cell is the start node. -/
theorem goal_neighbour_ends_search (m : GlobalObstacleMap)
    (exp : NodePtr → List Motion → SearchState → Except Fault SearchState)
    (lp : Nat → SearchState → Except Fault SearchState)
    (hplanner : (exp = DjikstraPlanner.expand m ∧ lp = DjikstraPlanner.loop m) ∨
                (exp = AstarPlanner.expand m ∧ lp = AstarPlanner.loop m))
    (fuel : Nat) (st st1 : SearchState) (cur : NodePtr) (rest : List NodePtr)
    (tr : List (List Int)) (pre post : List Motion) (mo : Motion) (cpc : Cost)
    (hpop : pqPop st.nodes = some (cur, rest))
    (hget : tableGet st.visited cur.x cur.y = some 0)
    (hset : tableSet st.visited cur.x cur.y 1 = some tr)
    (hsplit : motions = pre ++ mo :: post)
    (hpre : ∀ k ∈ pre, m.checkCell (cur.x + k.x) (cur.y + k.y) ≠ Cell.GOAL)
    (hgoal : m.checkCell (cur.x + mo.x) (cur.y + mo.y) = Cell.GOAL)
    (hrun : exp cur pre (enter st cur rest tr) = Except.ok st1)
    (hcpc : tableGet st1.path_cost cur.x cur.y = some cpc)
    (sd : DjikstraPlanner) (sa : AstarPlanner) (r : PlanResult)
    (hcall : (∃ s, DjikstraPlanner.DjikstraPlanning sd m = Except.ok (r, s)) ∨
             (∃ s, AstarPlanner.AstarPlanning sa m = Except.ok (r, s))) :
    lp (fuel + 1) st
      = Except.ok { st1 with final := some (NodePtr.mk (cur.x + mo.x) (cur.y + mo.y)
                                         Cost.zero cur),
                             ending_flag := true } ∧
    (∃ l, st1.nodes = rest ++ l ∧
      ∀ n ∈ l, n.pre = cur ∧ m.checkCell n.x n.y ≠ Cell.GOAL) ∧
    (∀ c ∈ r.annotated, m.checkCell c.1 c.2 = Cell.GOAL → c = (m.start_x, m.start_y)) ∧
    (∀ s ∈ DjikstraPlanner.heads m, ∀ n ∈ s.nodes, m.checkCell n.x n.y = Cell.GOAL →
      n.pre = NodePtr.null ∧ n.x = m.start_x ∧ n.y = m.start_y) ∧
    (∀ s ∈ AstarPlanner.heads sa m, ∀ n ∈ s.nodes, m.checkCell n.x n.y = Cell.GOAL →
      n.pre = NodePtr.null ∧ n.x = m.start_x ∧ n.y = m.start_y) := by
  refine ⟨?_, ?_, ?_, ?_, ?_⟩
  · rcases hplanner with ⟨rfl, rfl⟩ | ⟨rfl, rfl⟩
    · rw [djikstra_loop_eq]
      refine loopWith_found _ fuel st _ cur rest tr hpop hget hset ?_ rfl
      rw [hsplit, djikstra_expand_append m cur (mo :: post) pre _ st1 hrun hpre]
      exact djikstra_expand_goal m cur mo post st1 cpc hcpc hgoal
    · rw [astar_loop_eq]
      refine loopWith_found _ fuel st _ cur rest tr hpop hget hset ?_ rfl
      rw [hsplit, astar_expand_append m cur (mo :: post) pre _ st1 hrun hpre]
      exact astar_expand_goal m cur mo post st1 cpc hcpc hgoal
  · rcases hplanner with ⟨rfl, rfl⟩ | ⟨rfl, rfl⟩
    · exact djikstra_expand_pushed m cur pre _ st1 hrun
    · exact astar_expand_pushed m cur pre _ st1 hrun
  · intro c hc hg
    have hng : c = (m.start_x, m.start_y) ∨ m.checkCell c.1 c.2 ≠ Cell.GOAL := by
      rcases hcall with ⟨s, h⟩ | ⟨s, h⟩
      · obtain ⟨st0, st2, h0, hrun2, rfl⟩ := djikstra_run sd m r s h
        have h1 : ExpandedNotGoal m st0 := by
          unfold ExpandedNotGoal
          rw [djikstra_init_annotated m st0 h0]
          simp
        exact loopWith_not_goal m _ _ (djikstra_expand_rel8 m) _ st0 st2
          (djikstra_init_inv m st0 h0) h1 hrun2 c hc
      · obtain ⟨st0, st2, h0, hrun2, rfl⟩ := astar_run sa m r s h
        have h1 : ExpandedNotGoal m st0 := by
          unfold ExpandedNotGoal
          rw [astar_init_annotated sa m st0 h0]
          simp
        exact loopWith_not_goal m _ _ (astar_expand_rel8 m) _ st0 st2
          (astar_init_inv sa m st0 h0) h1 hrun2 c hc
    rcases hng with h1 | h1
    · exact h1
    · exact absurd hg h1
  · intro s hs n hn hg
    unfold DjikstraPlanner.heads at hs
    split at hs
    · simp at hs
    · rename_i st0 h0
      have hinv := headsWith_chains m _ _ (djikstra_expand_rel8 m) _ st0
        (djikstra_init_inv m st0 h0) s hs
      rcases chainOK_start_or_not_goal n (hinv.nodes_ok n hn) with h1 | h1
      · exact h1
      · exact absurd hg h1
  · intro s hs n hn hg
    unfold AstarPlanner.heads at hs
    split at hs
    · simp at hs
    · rename_i st0 h0
      have hinv := headsWith_chains m _ _ (astar_expand_rel8 m) _ st0
        (astar_init_inv sa m st0 h0) s hs
      rcases chainOK_start_or_not_goal n (hinv.nodes_ok n hn) with h1 | h1
      · exact h1
      · exact absurd hg h1

/-- C16 on `overwriteMap`: in the last turn of `DjikstraPlanning` the node for `(2, 3)` is
taken from the frontier; the first motion `(1, 0)` leads to the free cell `(3, 3)`, the
second motion `(0, 1)` to the goal `(2, 4)`, and the loop ends with the terminal node
`Node(2, 4, 0.0, current)`, the other 6 motions unprocessed. -/
theorem goal_neighbour_ends_search_witness :
    ∃ r,
      (∃ s, DjikstraPlanner.DjikstraPlanning DjikstraPlanner.fresh overwriteMap
        = Except.ok (r, s)) ∧
      pqPop goalHead.nodes = some ((popOf goalHead.nodes).1, (popOf goalHead.nodes).2) ∧
      ((popOf goalHead.nodes).1.x, (popOf goalHead.nodes).1.y) = (2, 3) ∧
      tableGet goalHead.visited 2 3 = some 0 ∧
      overwriteMap.checkCell (2 + 1) (3 + 0) ≠ Cell.GOAL ∧
      overwriteMap.checkCell (2 + 0) (3 + 1) = Cell.GOAL ∧
      DjikstraPlanner.loop overwriteMap (10 + 1) goalHead
        = Except.ok { goalMid with
            final := some (NodePtr.mk ((popOf goalHead.nodes).1.x + 0)
              ((popOf goalHead.nodes).1.y + 1) Cost.zero (popOf goalHead.nodes).1),
            ending_flag := true } ∧
      (∀ c ∈ r.annotated, overwriteMap.checkCell c.1 c.2 = Cell.GOAL →
        c = (overwriteMap.start_x, overwriteMap.start_y)) := by
  have hok : ∃ v, DjikstraPlanner.DjikstraPlanning DjikstraPlanner.fresh overwriteMap
      = Except.ok v := by
    cases h : DjikstraPlanner.DjikstraPlanning DjikstraPlanner.fresh overwriteMap with
    | ok v => exact ⟨v, rfl⟩
    | error e =>
      have : faultOf (DjikstraPlanner.DjikstraPlanning DjikstraPlanner.fresh overwriteMap)
          = none := by decide!
      rw [h] at this
      simp [faultOf] at this
  obtain ⟨⟨r, s⟩, hrs⟩ := hok
  have hpop : pqPop goalHead.nodes
      = some ((popOf goalHead.nodes).1, (popOf goalHead.nodes).2) := by decide!
  have hcell : ((popOf goalHead.nodes).1.x, (popOf goalHead.nodes).1.y) = (2, 3) := by
    decide!
  have hget : tableGet goalHead.visited (popOf goalHead.nodes).1.x
      (popOf goalHead.nodes).1.y = some 0 := by decide!
  have hset : tableSet goalHead.visited (popOf goalHead.nodes).1.x
      (popOf goalHead.nodes).1.y 1 = some (tableOf (tableSet goalHead.visited 2 3 1)) := by
    decide!
  have hpre : ∀ k ∈ [(⟨1, 0, Cost.one⟩ : Motion)],
      overwriteMap.checkCell ((popOf goalHead.nodes).1.x + k.x)
        ((popOf goalHead.nodes).1.y + k.y) ≠ Cell.GOAL := by decide!
  have hgoal : overwriteMap.checkCell ((popOf goalHead.nodes).1.x + (⟨0, 1, Cost.one⟩ : Motion).x)
      ((popOf goalHead.nodes).1.y + (⟨0, 1, Cost.one⟩ : Motion).y) = Cell.GOAL := by decide!
  have hrun : DjikstraPlanner.expand overwriteMap (popOf goalHead.nodes).1 [⟨1, 0, Cost.one⟩]
      (enter goalHead (popOf goalHead.nodes).1 (popOf goalHead.nodes).2
        (tableOf (tableSet goalHead.visited 2 3 1))) = Except.ok goalMid :=
    stateOf_ok _ (by decide!)
  have hcpc : tableGet goalMid.path_cost (popOf goalHead.nodes).1.x
      (popOf goalHead.nodes).1.y = some ⟨3, 2⟩ := by decide!
  have key := goal_neighbour_ends_search overwriteMap (DjikstraPlanner.expand overwriteMap)
    (DjikstraPlanner.loop overwriteMap) (Or.inl ⟨rfl, rfl⟩) 10 goalHead goalMid
    (popOf goalHead.nodes).1 (popOf goalHead.nodes).2
    (tableOf (tableSet goalHead.visited 2 3 1)) [⟨1, 0, Cost.one⟩]
    [⟨0, -1, Cost.one⟩, ⟨-1, 0, Cost.one⟩, ⟨1, 1, Cost.sqrt2⟩, ⟨1, -1, Cost.sqrt2⟩,
      ⟨-1, -1, Cost.sqrt2⟩, ⟨-1, 1, Cost.sqrt2⟩]
    ⟨0, 1, Cost.one⟩ ⟨3, 2⟩ hpop hget hset rfl hpre hgoal hrun hcpc
    DjikstraPlanner.fresh AstarPlanner.fresh r (Or.inl ⟨s, hrs⟩)
  exact ⟨r, ⟨s, hrs⟩, hpop, hcell, by decide!, by decide!, by decide!, key.1, key.2.2.1⟩

/-- C16 as stated fails when the start is the goal cell (`startGoalMap`, start = goal =
`(2, 2)`): the node pushed first is on the Goal cell, the Goal cell is the first cell
expanded and it is marked Visited, in both planners. -/
theorem goal_cell_expanded_counterexample :
    startGoalMap.checkCell 2 2 = Cell.GOAL ∧
    ((DjikstraPlanner.heads startGoalMap).map
        (fun s => s.nodes.map (fun n => (n.x, n.y)))).head? = some [(2, 2)] ∧
    (expandedCells (DjikstraPlanner.DjikstraPlanning DjikstraPlanner.fresh startGoalMap)).map
        List.head? = some (some (2, 2)) ∧
    visitedAt (DjikstraPlanner.DjikstraPlanning DjikstraPlanner.fresh startGoalMap) 2 2
      = some 1 ∧
    ((AstarPlanner.heads AstarPlanner.fresh startGoalMap).map
        (fun s => s.nodes.map (fun n => (n.x, n.y)))).head? = some [(2, 2)] ∧
    (expandedCells (AstarPlanner.AstarPlanning AstarPlanner.fresh startGoalMap)).map
        List.head? = some (some (2, 2)) ∧
    visitedAt (AstarPlanner.AstarPlanning AstarPlanner.fresh startGoalMap) 2 2 = some 1 :=
  ⟨by decide!, by decide!, by decide!, by decide!, by decide!, by decide!, by decide!⟩

/-- Motion costs have non-negative parts. -/
theorem motion_cost_nonneg : ∀ mo ∈ motions, 0 ≤ mo.cost.a ∧ 0 ≤ mo.cost.b := by
  decide

/-- The offset of a motion is in the list of offsets. -/
theorem motion_offset_mem : ∀ mo ∈ motions, (mo.x, mo.y) ∈ offsets := by
  decide

/-- One more motion on a stored cost gives a stored cost of the neighbour. -/
theorem StoredCost.step {m : GlobalObstacleMap} {x y : Int} {g : Cost}
    (h : StoredCost m x y g) (mo : Motion) (hmo : mo ∈ motions) :
    StoredCost m (x + mo.x) (y + mo.y) (Cost.add g mo.cost) := by
  rcases h with ⟨q, h1, h2, h3, h4⟩ | ⟨h1, h2⟩
  · left
    cases q with
    | nil => simp at h1
    | cons a tl =>
      simp at h1
      subst h1
      refine ⟨(x + mo.x, y + mo.y) :: (x, y) :: tl, rfl, ?_, ?_, ?_⟩
      · rw [List.getLast?_cons_cons]
        exact h2
      · refine List.Chain'.cons ?_ h3
        unfold IsMotion
        have := motion_offset_mem mo hmo
        simpa using this
      · have hc := motionCost_eq mo hmo
        show Cost.add (motionCost (x + mo.x - x) (y + mo.y - y)) (pathCost ((x, y) :: tl))
          = Cost.add g mo.cost
        rw [h4]
        have e1 : x + mo.x - x = mo.x := by omega
        have e2 : y + mo.y - y = mo.y := by omega
        rw [e1, e2, hc]
        simp [Cost.add, add_comm]
  · right
    have := motion_cost_nonneg mo hmo
    simp only [Cost.add]
    constructor <;> omega

/-- The value `std::min(c, d)` is one of its arguments. -/
theorem cost_min_cases (c d : Cost) : Cost.min c d = c ∨ Cost.min c d = d := by
  unfold Cost.min
  split
  · exact Or.inr rfl
  · exact Or.inl rfl

/-- The motion loop of `AstarPlanning` keeps the cost invariant. -/
theorem astar_expand_costs (om : GlobalObstacleMap) (cur : NodePtr) :
    ∀ (ms : List Motion) (st st1 : SearchState), (∀ mo ∈ ms, mo ∈ motions) →
      AstarPlanner.expand om cur ms st = Except.ok st1 →
      CostInv om st → CostInv om st1 := by
  intro ms
  induction ms with
  | nil =>
    intro st st1 _ h hI
    simp [AstarPlanner.expand] at h
    subst h
    exact hI
  | cons k ms ih =>
    intro st st1 hms h hI
    have hk : k ∈ motions := hms k (List.mem_cons_self _ _)
    have hrest : ∀ j ∈ ms, j ∈ motions := fun j hj => hms j (List.mem_cons_of_mem _ hj)
    obtain ⟨cpc, hcpc, hcase⟩ := astar_expand_cons om cur k ms st st1 h
    rcases hcase with ⟨_, rfl⟩ | ⟨_, t, _, ⟨_, hr⟩ | ⟨_, _, old, pc, hold, hpc, hr⟩⟩
    · exact hI
    · exact ih st st1 hrest hr hI
    · refine ih _ st1 hrest hr ?_
      have hcand : StoredCost om (cur.x + k.x) (cur.y + k.y) (Cost.add cpc k.cost) :=
        (hI.1 _ _ _ hcpc).step k hk
      constructor
      · intro x y g hg
        by_cases hxy : x = cur.x + k.x ∧ y = cur.y + k.y
        · obtain ⟨rfl, rfl⟩ := hxy
          have hsame := tableGet_set_same _ _ _ _ _ hpc
          have hg2 : tableGet pc (cur.x + k.x) (cur.y + k.y) = some g := hg
          rw [hsame] at hg2
          simp at hg2
          subst hg2
          rcases cost_min_cases old (Cost.add cpc k.cost) with e | e
          · rw [e]
            exact hI.1 _ _ _ hold
          · rw [e]
            exact hcand
        · have hg2 : tableGet pc x y = some g := hg
          rw [tableGet_set_other _ _ _ _ _ hpc x y hxy] at hg2
          exact hI.1 _ _ _ hg2
      · intro n hn
        have hn2 : n ∈ st.nodes ++ [NodePtr.mk (cur.x + k.x) (cur.y + k.y)
            (Cost.add (Cost.add cpc (om.heuristic (cur.x + k.x) (cur.y + k.y))) k.cost)
            cur] := hn
        rcases List.mem_append.1 hn2 with hn3 | hn3
        · exact hI.2 n hn3
        · simp at hn3
          subst hn3
          right
          refine ⟨Cost.add cpc k.cost, hcand, ?_⟩
          simp [NodePtr.cost, NodePtr.x, NodePtr.y, Cost.add]
          constructor <;> ring

/-- Taking a node from the frontier keeps the cost invariant. -/
theorem CostInv.drop {m : GlobalObstacleMap} {st : SearchState} {cur : NodePtr}
    {rest : List NodePtr} (h : CostInv m st) (hpop : pqPop st.nodes = some (cur, rest))
    (vis : List (List Int)) (ann : List (Int × Int)) :
    CostInv m { st with nodes := rest, visited := vis, annotated := ann } :=
  ⟨h.1, fun n hn => h.2 n ((pqPop_mem _ _ _ hpop).2.1 n hn)⟩

/-- The cost invariant holds when the loop of `AstarPlanning` ends. -/
theorem loopWith_costs (m : GlobalObstacleMap)
    (exp : NodePtr → SearchState → Except Fault SearchState)
    (hcost : ∀ cur st st1, exp cur st = Except.ok st1 → CostInv m st → CostInv m st1)
    (fuel : Nat) (st r : SearchState) (h : CostInv m st)
    (hrun : loopWith exp fuel st = Except.ok r) : CostInv m r := by
  refine loopWith_post exp (CostInv m) (CostInv m) (fun s hP _ => hP)
    (fun s cur rest t hP hpop _ _ => ⟨hP.1, fun n hn => hP.2 n ((pqPop_mem _ _ _ hpop).2.1 n hn)⟩)
    ?_ fuel st r h hrun
  intro s cur rest tr s1 hP hpop _ _ hexp
  have := hcost _ _ _ hexp (hP.drop hpop tr (s.annotated ++ [(cur.x, cur.y)]))
  exact ⟨fun _ => this, fun _ => this⟩

/-- The cost invariant holds at every loop head of `AstarPlanning`. -/
theorem headsWith_costs (m : GlobalObstacleMap)
    (exp : NodePtr → SearchState → Except Fault SearchState)
    (hcost : ∀ cur st st1, exp cur st = Except.ok st1 → CostInv m st → CostInv m st1)
    (fuel : Nat) (st : SearchState) (h : CostInv m st) :
    ∀ s ∈ headsWith exp fuel st, CostInv m s :=
  headsWith_inv exp (CostInv m)
    (fun _ _ _ _ hP hpop _ _ =>
      ⟨hP.1, fun n hn => hP.2 n ((pqPop_mem _ _ _ hpop).2.1 n hn)⟩)
    (fun s cur _ tr _ hP hpop _ _ hexp _ =>
      hcost _ _ _ hexp (hP.drop hpop tr (s.annotated ++ [(cur.x, cur.y)]))) fuel st h

/-- The state in which the loop of `AstarPlanning` on a new planner object is entered:
the frontier holds the start node with priority `0.0`, the Cost Table holds `0` at the
start and `2147483647` elsewhere. -/
theorem astar_init_costs (om : GlobalObstacleMap) (st : SearchState)
    (h : AstarPlanner.init AstarPlanner.fresh om = Except.ok st) :
    st.nodes = [NodePtr.mk om.start_x om.start_y Cost.zero NodePtr.null] ∧
      CostInv om st := by
  unfold AstarPlanner.init at h
  simp only at h
  split at h
  · simp at h
  · rename_i pc hpc
    simp at h
    subst h
    refine ⟨by simp [pqPush], ?_, ?_⟩
    · intro x y g hg
      by_cases hxy : x = om.start_x ∧ y = om.start_y
      · obtain ⟨rfl, rfl⟩ := hxy
        have hg2 : tableGet pc om.start_x om.start_y = some g := hg
        rw [tableGet_set_same _ _ _ _ _ hpc] at hg2
        simp at hg2
        subst hg2
        left
        exact ⟨[(om.start_x, om.start_y)], rfl, rfl, List.chain'_singleton _, rfl⟩
      · have hg2 : tableGet pc x y = some g := hg
        rw [tableGet_set_other _ _ _ _ _ hpc x y hxy] at hg2
        simp only [AstarPlanner.fresh, List.nil_append] at hg2
        have := tableGet_replicate _ _ _ _ _ _ hg2
        subst this
        right
        simp [Cost.intMax]
    · intro n hn
      simp [pqPush] at hn
      exact Or.inl hn

/-- C17, amended for the start node: in `AstarPlanning` on a new planner object the start
node is pushed with priority `0.0` (not `heuristic(start)`); a neighbour node is pushed
with priority `(path_cost[current] + heuristic(neighbour)) + motion.cost` while the Cost
Table receives `min(path_cost[neighbour], path_cost[current] + motion.cost)`; at every
loop head and at the end of the call every Cost Table entry is the cost of a chain of
motions from the start to its cell (or is not below the initial `2147483647`), with no
heuristic term, and every frontier node other than the start node has as priority such a
value for its own cell plus the heuristic of its own cell. -/
theorem astar_priority_is_cost_plus_heuristic (om : GlobalObstacleMap) (r : PlanResult)
    (s : AstarPlanner)
    (hcall : AstarPlanner.AstarPlanning AstarPlanner.fresh om = Except.ok (r, s))
    (st st1 : SearchState) (cur : NodePtr) (mo : Motion) (rest : List Motion)
    (hstep : AstarPlanner.expand om cur (mo :: rest) st = Except.ok st1)
    (hng : om.checkCell (cur.x + mo.x) (cur.y + mo.y) ≠ Cell.GOAL)
    (hv : tableGet st.visited (cur.x + mo.x) (cur.y + mo.y) = some 0)
    (hob : om.checkCell (cur.x + mo.x) (cur.y + mo.y) ≠ Cell.OBSTACLE) :
    (∃ st0, AstarPlanner.init AstarPlanner.fresh om = Except.ok st0 ∧
      st0.nodes = [NodePtr.mk om.start_x om.start_y Cost.zero NodePtr.null]) ∧
    (∃ cpc old pc, tableGet st.path_cost cur.x cur.y = some cpc ∧
      tableGet st.path_cost (cur.x + mo.x) (cur.y + mo.y) = some old ∧
      tableSet st.path_cost (cur.x + mo.x) (cur.y + mo.y)
        (Cost.min old (Cost.add cpc mo.cost)) = some pc ∧
      AstarPlanner.expand om cur rest
        { st with path_cost := pc,
                  nodes := pqPush st.nodes
                    (NodePtr.mk (cur.x + mo.x) (cur.y + mo.y)
                      (Cost.add (Cost.add cpc (om.heuristic (cur.x + mo.x) (cur.y + mo.y)))
                        mo.cost) cur) } = Except.ok st1) ∧
    (∀ h ∈ AstarPlanner.heads AstarPlanner.fresh om,
      (∀ x y g, tableGet h.path_cost x y = some g → StoredCost om x y g) ∧
      ∀ n ∈ h.nodes, PriorityOK om n) ∧
    (∀ x y g, tableGet r.path_cost x y = some g → StoredCost om x y g) ∧
    (∀ n ∈ r.nodes, PriorityOK om n) := by
  obtain ⟨st0, st2, h0, hrun, rfl⟩ := astar_run AstarPlanner.fresh om r s hcall
  have hI0 := astar_init_costs om st0 h0
  have hcost : ∀ c s0 s1, AstarPlanner.expand om c motions s0 = Except.ok s1 →
      CostInv om s0 → CostInv om s1 :=
    fun c s0 s1 hs hI => astar_expand_costs om c motions s0 s1 (fun _ hm => hm) hs hI
  have hend := loopWith_costs om _ hcost _ st0 st2 hI0.2 hrun
  refine ⟨⟨st0, h0, hI0.1⟩, ?_, ?_, hend.1, hend.2⟩
  · obtain ⟨cpc, hcpc, hcase⟩ := astar_expand_cons om cur mo rest st st1 hstep
    rcases hcase with ⟨hg, _⟩ | ⟨_, t, ht, ⟨hskip, _⟩ | ⟨_, _, old, pc, hold, hpc, hr⟩⟩
    · exact absurd hg hng
    · rw [hv] at ht
      simp at ht
      rcases hskip with h1 | h1
      · exact absurd ht.symm h1
      · exact absurd h1 hob
    · exact ⟨cpc, old, pc, hcpc, hold, hpc, hr⟩
  · intro h hh
    unfold AstarPlanner.heads at hh
    rw [h0] at hh
    exact headsWith_costs om _ hcost _ st0 hI0.2 h hh

/-- C17 on `detourMap` (octile heuristic): expanding the start `(1, 5)`, whose Cost Table
entry is `0`, the first motion `(1, 0)` pushes the node for `(2, 5)` with priority
`(0 + heuristic(2, 5)) + 1` and stores `min(2147483647, 0 + 1) = 1`. -/
theorem astar_priority_is_cost_plus_heuristic_witness :
    ∃ r s,
      AstarPlanner.AstarPlanning AstarPlanner.fresh detourMap = Except.ok (r, s) ∧
      AstarPlanner.expand detourMap (NodePtr.mk 1 5 Cost.zero NodePtr.null)
        (⟨1, 0, Cost.one⟩ :: motions.tail) detourEntered = Except.ok detourExpanded ∧
      detourMap.checkCell (1 + 1) (5 + 0) = Cell.FREE ∧
      tableGet detourEntered.visited (1 + 1) (5 + 0) = some 0 ∧
      tableGet detourEntered.path_cost 1 5 = some Cost.zero ∧
      tableGet detourEntered.path_cost (1 + 1) (5 + 0) = some Cost.intMax ∧
      detourMap.heuristic (1 + 1) (5 + 0) = ⟨3, 1⟩ ∧
      detourExpanded.nodes.head? = some (NodePtr.mk 2 5 ⟨4, 1⟩
        (NodePtr.mk 1 5 Cost.zero NodePtr.null)) ∧
      tableGet detourExpanded.path_cost 2 5 = some ⟨1, 0⟩ ∧
      (∃ cpc old pc, tableGet detourEntered.path_cost 1 5 = some cpc ∧
        tableGet detourEntered.path_cost (1 + 1) (5 + 0) = some old ∧
        tableSet detourEntered.path_cost (1 + 1) (5 + 0)
          (Cost.min old (Cost.add cpc Cost.one)) = some pc ∧
        AstarPlanner.expand detourMap (NodePtr.mk 1 5 Cost.zero NodePtr.null) motions.tail
          { detourEntered with
              path_cost := pc,
              nodes := pqPush detourEntered.nodes
                (NodePtr.mk (1 + 1) (5 + 0)
                  (Cost.add (Cost.add cpc (detourMap.heuristic (1 + 1) (5 + 0))) Cost.one)
                  (NodePtr.mk 1 5 Cost.zero NodePtr.null)) } = Except.ok detourExpanded) ∧
      (∀ n ∈ r.nodes, PriorityOK detourMap n) := by
  have hok : ∃ v, AstarPlanner.AstarPlanning AstarPlanner.fresh detourMap
      = Except.ok v := by
    cases h : AstarPlanner.AstarPlanning AstarPlanner.fresh detourMap with
    | ok v => exact ⟨v, rfl⟩
    | error e =>
      have : faultOf (AstarPlanner.AstarPlanning AstarPlanner.fresh detourMap)
          = none := by decide!
      rw [h] at this
      simp [faultOf] at this
  obtain ⟨⟨r, s⟩, hrs⟩ := hok
  have hstep : AstarPlanner.expand detourMap (NodePtr.mk 1 5 Cost.zero NodePtr.null)
      (⟨1, 0, Cost.one⟩ :: motions.tail) detourEntered = Except.ok detourExpanded :=
    stateOf_ok _ (by decide!)
  have key := astar_priority_is_cost_plus_heuristic detourMap r s hrs detourEntered
    detourExpanded (NodePtr.mk 1 5 Cost.zero NodePtr.null) ⟨1, 0, Cost.one⟩ motions.tail
    hstep (by decide!) (by decide!) (by decide!)
  exact ⟨r, s, hrs, hstep, by decide!, by decide!, by decide!, by decide!, by decide!,
    by decide!, by decide!, key.2.1, key.2.2.2.2⟩

/-- C17 as stated fails on `detourMap`: `AstarPlanning` pushes the start node `(1, 5)`
with priority `0.0`, while `heuristic(1, 5)` is `2 + 2·sqrt(2)`. -/
theorem astar_start_priority_counterexample :
    ((AstarPlanner.heads AstarPlanner.fresh detourMap).map (fun s => s.nodes)).head?
      = some [NodePtr.mk 1 5 Cost.zero NodePtr.null] ∧
    (detourMap.start_x, detourMap.start_y) = (1, 5) ∧
    detourMap.heuristic 1 5 = ⟨2, 2⟩ ∧
    Cost.lt Cost.zero ⟨2, 2⟩ = true :=
  ⟨by decide!, by decide!, by decide!, by decide!⟩

/-- A turn that expands a cell lowers `8 * unvisited + |frontier|` by at least one. -/
theorem enter_measure8 (m : GlobalObstacleMap) (st st1 : SearchState) (cur : NodePtr)
    (rest : List NodePtr) (tr : List (List Int))
    (hpop : pqPop st.nodes = some (cur, rest))
    (hget : tableGet st.visited cur.x cur.y = some 0)
    (hset : tableSet st.visited cur.x cur.y 1 = some tr)
    (hrel : ExpandRel m cur motions (enter st cur rest tr) st1) :
    8 * unvisited st1.visited + st1.nodes.length + 1
      ≤ 8 * unvisited st.visited + st.nodes.length ∧
    unvisited st1.visited + 1 = unvisited st.visited := by
  have hlen := (pqPop_mem _ _ _ hpop).2.2.1
  have hu := unvisited_set _ _ _ _ hget hset
  obtain ⟨l, h1, h2, _⟩ := hrel.pushed
  have hv : st1.visited = tr := hrel.visited_eq
  have hn : st1.nodes.length = rest.length + l.length := by
    rw [h1]
    simp [enter]
  have h8 : motions.length = 8 := rfl
  rw [hv, hn]
  constructor <;> omega

/-- The list of loop heads does not depend on the budget once the budget exceeds
`8 * unvisited + |frontier|`: a larger budget lists the same states. -/
theorem headsWith_budget (m : GlobalObstacleMap)
    (exp : NodePtr → SearchState → Except Fault SearchState)
    (hrel : ∀ cur st st1, exp cur st = Except.ok st1 → ExpandRel m cur motions st st1)
    (k : Nat) :
    ∀ (fuel : Nat) (st : SearchState), 8 * unvisited st.visited + st.nodes.length < fuel →
      headsWith exp (fuel + k) st = headsWith exp fuel st := by
  intro fuel
  induction fuel with
  | zero => intro st h; omega
  | succ n ih =>
    intro st hfuel
    have e1 : n + 1 + k = (n + k) + 1 := by omega
    rw [e1]
    rw [headsWith, headsWith]
    congr 1
    cases hpop : pqPop st.nodes with
    | none => rfl
    | some p =>
      obtain ⟨cur, rest⟩ := p
      have hlen := (pqPop_mem _ _ _ hpop).2.2.1
      simp only []
      cases ht : tableGet st.visited cur.x cur.y with
      | none => rfl
      | some t =>
        simp only []
        by_cases hne : t ≠ 0
        · rw [if_pos hne, if_pos hne]
          apply ih
          simp only []
          omega
        · rw [if_neg hne, if_neg hne]
          have ht0 : t = 0 := by
            by_contra h
            exact hne h
          subst ht0
          cases htr : tableSet st.visited cur.x cur.y 1 with
          | none => rfl
          | some tr =>
            simp only []
            cases hex : exp cur (enter st cur rest tr) with
            | error e => rfl
            | ok st1 =>
              simp only []
              have hm := (enter_measure8 m st st1 cur rest tr hpop ht htr
                (hrel _ _ _ hex)).1
              by_cases hflag : st1.ending_flag = true
              · rw [if_pos hflag, if_pos hflag]
              · rw [if_neg hflag, if_neg hflag]
                apply ih
                omega

/-- On a bordered grid with a valid start the loop invariant holds at every loop head. -/
theorem headsWith_bordered (m : GlobalObstacleMap)
    (exp : NodePtr → SearchState → Except Fault SearchState)
    (hrel : ∀ cur st st1, exp cur st = Except.ok st1 → ExpandRel m cur motions st st1)
    (fuel : Nat) (st : SearchState) (hP : RunInv m st) :
    ∀ s ∈ headsWith exp fuel st, RunInv m s := by
  refine headsWith_inv exp (RunInv m) ?_ ?_ fuel st hP
  · intro s cur rest t hP hpop ht hne
    exact ⟨hP.inv.discard hpop, hP.dims_vis, hP.flag, hP.final,
      hP.closed.discard_pop hpop ht hne⟩
  · intro s cur rest tr s1 hP hpop ht htr hexp hflag
    have r := hrel _ _ _ hexp
    refine ⟨hP.inv.expand hpop r, ?_, hflag, ?_, hP.closed.expand_step hpop ht htr r hflag⟩
    · rw [r.visited_eq]
      simp only [enter]
      rw [tableSet_dims _ _ _ _ _ htr]
      exact hP.dims_vis
    · rcases r.final with ⟨_, h2, _⟩ | ⟨h1, _⟩
      · rw [h2]; exact hP.final
      · rw [h1] at hflag; simp at hflag

/-- On a bordered grid with a valid start, a node taken from the frontier is on an interior
cell, the Visited entry of its cell is read inside the table, and its 8 neighbours are
cells of the grid. -/
theorem extracted_interior (m : GlobalObstacleMap)
    (exp : NodePtr → SearchState → Except Fault SearchState)
    (hrel : ∀ cur st st1, exp cur st = Except.ok st1 → ExpandRel m cur motions st st1)
    (hb : Bordered m) (hs : StartOK m) (fuel : Nat) (st : SearchState) (hP : RunInv m st) :
    ∀ p ∈ extractedWith exp fuel st,
      Interior m p.1.x p.1.y ∧ (∃ t, p.2 = some t) ∧
      ∀ mo ∈ motions, 0 ≤ p.1.x + mo.x ∧ p.1.x + mo.x < m.map_size_x ∧
        0 ≤ p.1.y + mo.y ∧ p.1.y + mo.y < m.map_size_y := by
  intro p hp
  unfold extractedWith at hp
  obtain ⟨s, hsmem, hf⟩ := List.mem_filterMap.1 hp
  have hI := headsWith_bordered m exp hrel fuel st hP s hsmem
  cases hpop : pqPop s.nodes with
  | none =>
    rw [hpop] at hf
    simp at hf
  | some q =>
    obtain ⟨cur, rest⟩ := q
    rw [hpop] at hf
    simp at hf
    subst hf
    have hcur := hI.inv.nodes_ok cur (pqPop_mem _ _ _ hpop).1
    obtain ⟨hin, hfree⟩ := chainOK_head cur hcur hs.2.2.2.2
    have hin2 := (inDims_gridDims m _ _).1 hin
    have hint : Interior m cur.x cur.y := by
      unfold Interior
      by_contra hcon
      apply hfree
      apply hb cur.x cur.y hin2.1 hin2.2.1 hin2.2.2.1 hin2.2.2.2
      omega
    refine ⟨hint, tableGet_of_inDims _ _ hI.dims_vis _ _ hin, ?_⟩
    intro mo hmo
    have hbd := motion_bound mo hmo
    unfold Interior at hint
    simp only
    omega

/-- C20: for both planners on a new planner object, when every border cell of the `W × H`
grid is an Obstacle and the start is a non-Obstacle cell of the grid, the call completes
without leaving the tables; at every loop head both tables have `W` rows of length `H`;
and every node taken from the frontier is on a cell that is not on the border, with the
Visited entry of that cell read inside the table and all 8 neighbours inside
`[0, W-1] × [0, H-1]`. -/
theorem bordered_search_stays_in_bounds (m : GlobalObstacleMap) (hb : Bordered m)
    (hs : StartOK m) :
    (∃ r s, DjikstraPlanner.DjikstraPlanning DjikstraPlanner.fresh m = Except.ok (r, s)) ∧
    (∃ r s, AstarPlanner.AstarPlanning AstarPlanner.fresh m = Except.ok (r, s)) ∧
    (∀ s ∈ DjikstraPlanner.heads m,
      dims s.visited = gridDims m ∧ dims s.path_cost = gridDims m) ∧
    (∀ s ∈ AstarPlanner.heads AstarPlanner.fresh m,
      dims s.visited = gridDims m ∧ dims s.path_cost = gridDims m) ∧
    (∀ p, p ∈ DjikstraPlanner.extractions m ∨
        p ∈ AstarPlanner.extractions AstarPlanner.fresh m →
      Interior m p.1.x p.1.y ∧ (∃ t, p.2 = some t) ∧
      ∀ mo ∈ motions, 0 ≤ p.1.x + mo.x ∧ p.1.x + mo.x < m.map_size_x ∧
        0 ≤ p.1.y + mo.y ∧ p.1.y + mo.y < m.map_size_y) := by
  obtain ⟨sd1, s1, h1, _⟩ := djikstra_total m DjikstraPlanner.fresh hb hs
  obtain ⟨sa1, s2, h2, _⟩ := astar_total m hb hs
  obtain ⟨d0, hd0, hPd⟩ := djikstra_init_run m hs
  obtain ⟨a0, ha0, hPa⟩ := astar_init_run m hs
  refine ⟨⟨_, _, h1⟩, ⟨_, _, h2⟩, ?_, ?_, ?_⟩
  · intro s hsm
    unfold DjikstraPlanner.heads at hsm
    rw [hd0] at hsm
    have hI := headsWith_bordered m _ (djikstra_expand_rel8 m) _ d0 hPd s hsm
    exact ⟨hI.dims_vis, hI.inv.dims_pc⟩
  · intro s hsm
    unfold AstarPlanner.heads at hsm
    rw [ha0] at hsm
    have hI := headsWith_bordered m _ (astar_expand_rel8 m) _ a0 hPa s hsm
    exact ⟨hI.dims_vis, hI.inv.dims_pc⟩
  · intro p hp
    rcases hp with hp | hp
    · unfold DjikstraPlanner.extractions at hp
      rw [hd0] at hp
      exact extracted_interior m _ (djikstra_expand_rel8 m) hb hs _ d0 hPd p hp
    · unfold AstarPlanner.extractions at hp
      rw [ha0] at hp
      exact extracted_interior m _ (astar_expand_rel8 m) hb hs _ a0 hPa p hp

/-- C20 on `openMap`, the 7 × 7 grid with Obstacle border and start `(1, 1)`: both calls
complete, and the nodes taken from the frontier are on interior cells. -/
theorem bordered_search_stays_in_bounds_witness :
    Bordered openMap ∧ StartOK openMap ∧
    faultOf (DjikstraPlanner.DjikstraPlanning DjikstraPlanner.fresh openMap) = none ∧
    ((∃ r s, DjikstraPlanner.DjikstraPlanning DjikstraPlanner.fresh openMap
        = Except.ok (r, s)) ∧
      (∃ r s, AstarPlanner.AstarPlanning AstarPlanner.fresh openMap = Except.ok (r, s)) ∧
      (∀ s ∈ DjikstraPlanner.heads openMap,
        dims s.visited = gridDims openMap ∧ dims s.path_cost = gridDims openMap) ∧
      (∀ s ∈ AstarPlanner.heads AstarPlanner.fresh openMap,
        dims s.visited = gridDims openMap ∧ dims s.path_cost = gridDims openMap) ∧
      (∀ p, p ∈ DjikstraPlanner.extractions openMap ∨
          p ∈ AstarPlanner.extractions AstarPlanner.fresh openMap →
        Interior openMap p.1.x p.1.y ∧ (∃ t, p.2 = some t) ∧
        ∀ mo ∈ motions, 0 ≤ p.1.x + mo.x ∧ p.1.x + mo.x < openMap.map_size_x ∧
          0 ≤ p.1.y + mo.y ∧ p.1.y + mo.y < openMap.map_size_y)) :=
  ⟨openMap_bordered, openMap_startOK, by decide!,
    bordered_search_stays_in_bounds openMap openMap_bordered openMap_startOK⟩

/-- The order `≤` of costs is reflexive. -/
theorem cost_le_refl (c : Cost) : Cost.le c c = true :=
  (cost_le_iff c c).2 (le_refl _)

/-- The order `≤` of costs is transitive. -/
theorem cost_le_trans (c d e : Cost) (h1 : Cost.le c d = true) (h2 : Cost.le d e = true) :
    Cost.le c e = true :=
  (cost_le_iff c e).2 (le_trans ((cost_le_iff c d).1 h1) ((cost_le_iff d e).1 h2))

/-- The value `std::min(c, d)` is at most `c`. -/
theorem cost_min_le (c d : Cost) : Cost.le (Cost.min c d) c = true := by
  unfold Cost.min
  split
  · rename_i h
    exact (cost_le_iff d c).2 (le_of_lt ((cost_lt_iff d c).1 h))
  · exact cost_le_refl c

/-- The motion loop of `AstarPlanning` never raises a Cost Table entry: an entry is replaced
only by a smaller candidate. -/
theorem astar_expand_monotone (om : GlobalObstacleMap) (cur : NodePtr) :
    ∀ (ms : List Motion) (st st1 : SearchState),
      AstarPlanner.expand om cur ms st = Except.ok st1 →
      ∀ x y c, tableGet st.path_cost x y = some c →
        ∃ c1, tableGet st1.path_cost x y = some c1 ∧ Cost.le c1 c = true := by
  intro ms
  induction ms with
  | nil =>
    intro st st1 h x y c hc
    simp [AstarPlanner.expand] at h
    subst h
    exact ⟨c, hc, cost_le_refl c⟩
  | cons k ms ih =>
    intro st st1 h x y c hc
    obtain ⟨cpc, _, hcase⟩ := astar_expand_cons om cur k ms st st1 h
    rcases hcase with ⟨_, rfl⟩ | ⟨_, t, _, ⟨_, hr⟩ | ⟨_, _, old, pc, hold, hpc, hr⟩⟩
    · exact ⟨c, hc, cost_le_refl c⟩
    · exact ih st st1 hr x y c hc
    · by_cases hxy : x = cur.x + k.x ∧ y = cur.y + k.y
      · obtain ⟨rfl, rfl⟩ := hxy
        rw [hold] at hc
        simp at hc
        subst hc
        obtain ⟨c1, h1, h2⟩ := ih _ st1 hr (cur.x + k.x) (cur.y + k.y) _
          (tableGet_set_same _ _ _ _ _ hpc)
        exact ⟨c1, h1, cost_le_trans _ _ _ h2 (cost_min_le old _)⟩
      · have hc2 : tableGet pc x y = some c := by
          rw [tableGet_set_other _ _ _ _ _ hpc x y hxy]
          exact hc
        exact ih _ st1 hr x y c hc2

/-- The loop of `AstarPlanning` never raises a Cost Table entry. -/
theorem astar_loop_monotone (om : GlobalObstacleMap) (fuel : Nat) (st r : SearchState)
    (hrun : AstarPlanner.loop om fuel st = Except.ok r) (x y : Int) (c : Cost)
    (hc : tableGet st.path_cost x y = some c) :
    ∃ c1, tableGet r.path_cost x y = some c1 ∧ Cost.le c1 c = true := by
  rw [astar_loop_eq] at hrun
  refine loopWith_post _
    (fun s => ∃ c1, tableGet s.path_cost x y = some c1 ∧ Cost.le c1 c = true)
    (fun s => ∃ c1, tableGet s.path_cost x y = some c1 ∧ Cost.le c1 c = true)
    (fun s hP _ => hP) (fun s cur rest t hP _ _ _ => hP) ?_ fuel st r
    ⟨c, hc, cost_le_refl c⟩ hrun
  intro s cur rest tr s1 hP _ _ _ hexp
  obtain ⟨c1, h1, h2⟩ := hP
  obtain ⟨c2, h3, h4⟩ := astar_expand_monotone om cur motions _ s1 hexp x y c1 h1
  have : ∃ c1, tableGet s1.path_cost x y = some c1 ∧ Cost.le c1 c = true :=
    ⟨c2, h3, cost_le_trans _ _ _ h4 h2⟩
  exact ⟨fun _ => this, fun _ => this⟩

end RoboticsAlgorithms
